import Mathlib

/-!
Verification of the DFS ancestor-query program
(`src/DepthFirstSearch/A-ancestor-visitor.cpp`).

The program is a depth-first-search engine with a visitor protocol,
instantiated with a timestamp visitor to answer offline ancestor queries
on a forest given by parent pointers.

Embedding notes:
* C++ `Vertex = int` is modelled as `Int`; the colormap and the timestamp
  vectors are modelled as total functions out of `Int` (the vectors are
  only ever indexed inside `[0, V)` on the inputs we consider).
* The visitor callbacks are modelled by an emitted `Event` trace; a concrete
  visitor (the timestamp visitor) is a fold over that trace.  This is
  faithful because no visitor state feeds back into the traversal.
* The recursive `DepthFirstSearchVisit` is embedded with an explicit fuel
  parameter; the driver-level `DepthFirstSearch` supplies fuel equal to the
  vertex count, which is sufficient because every recursive call is made on
  a white vertex that is immediately colored gray.
-/

set_option maxHeartbeats 1000000

namespace AncestorVisitor

/-- The three traversal colors (`enum class Color` in the source). -/
inductive Color where
  | kWhite
  | kGray
  | kBlack
deriving DecidableEq, Repr

/-- A directed edge (`IEdge<Vertex>` instantiated at `Vertex = int`). -/
structure Edge where
  source : Int
  destination : Int
deriving DecidableEq, Repr

/-- The array-backed graph: the vertex list `vertices_` (filled by `iota`
with `0, 1, ..., V-1`) and the per-vertex outgoing edge lists
(`outgoing_edges_`, modelled as a function out of the vertex id). -/
structure Graph where
  vertices_ : List Int
  outgoing_edges_ : Int → List Edge

/-- `Graph::Graph(int vertex_count)`: vertices `0 .. vertex_count-1`,
empty adjacency lists. -/
def Graph.new (vertex_count : Nat) : Graph :=
  ⟨(List.range vertex_count).map Int.ofNat, fun _ => []⟩

/-- `Graph::AddEdge`: append the edge to the source's outgoing list. -/
def Graph.AddEdge (g : Graph) (edge : Edge) : Graph :=
  { g with outgoing_edges_ := fun v =>
      if v = edge.source then g.outgoing_edges_ v ++ [edge]
      else g.outgoing_edges_ v }

/-- `Graph::GetVertices`. -/
def Graph.GetVertices (g : Graph) : List Int := g.vertices_

/-- `Graph::GetOutgoingEdges`. -/
def Graph.GetOutgoingEdges (g : Graph) (vertex : Int) : List Edge :=
  g.outgoing_edges_ vertex

/-- `Colormap::GetColor`. -/
def GetColor (cm : Int → Color) (vertex : Int) : Color := cm vertex

/-- `Colormap::SetColor`. -/
def SetColor (cm : Int → Color) (vertex : Int) (color : Color) : Int → Color :=
  fun u => if u = vertex then color else cm u

/-- The visitor callback points of `IDFSVisitor`, reified as trace events
(`InitializeVertex` is rendered `initVertex`). -/
inductive Event where
  | initVertex (vertex : Int)
  | startVertex (vertex : Int)
  | discoverVertex (vertex : Int)
  | examineEdge (edge : Edge)
  | treeEdge (edge : Edge)
  | backEdge (edge : Edge)
  | forwardOrCrossEdge (edge : Edge)
  | finishEdge (edge : Edge)
  | finishVertex (vertex : Int)
deriving DecidableEq, Repr

/-- The edge loop inside `DepthFirstSearchVisit`: for each outgoing edge,
`ExamineEdge`; recurse on a white destination and then emit `TreeEdge`;
emit `BackEdge` on a gray destination and `ForwardOrCrossEdge` on a black
one; always end with `FinishEdge`.  The recursive visit is passed in as
the function argument `visit`. -/
def edgeSteps (visit : (Int → Color) → Int → ((Int → Color) × List Event)) :
    (Int → Color) → List Edge → ((Int → Color) × List Event)
  | cm, [] => (cm, [])
  | cm, e :: es =>
    if GetColor cm e.destination = Color.kWhite then
      let r := visit cm e.destination
      let r2 := edgeSteps visit r.1 es
      (r2.1, (Event.examineEdge e :: r.2 ++
        [Event.treeEdge e, Event.finishEdge e]) ++ r2.2)
    else if GetColor cm e.destination = Color.kGray then
      let r2 := edgeSteps visit cm es
      (r2.1, [Event.examineEdge e, Event.backEdge e, Event.finishEdge e] ++ r2.2)
    else
      let r2 := edgeSteps visit cm es
      (r2.1, [Event.examineEdge e, Event.forwardOrCrossEdge e,
        Event.finishEdge e] ++ r2.2)

/-- `DepthFirstSearchVisit`: color the vertex gray, `DiscoverVertex`,
process the outgoing edges, color the vertex black, `FinishVertex`.
The `fuel` parameter bounds the recursion depth; it is an embedding
device only (out of fuel, the call returns its state unchanged), and
the program always runs with sufficient fuel. -/
def DepthFirstSearchVisit (g : Graph) :
    Nat → (Int → Color) → Int → ((Int → Color) × List Event)
  | 0, cm, _ => (cm, [])
  | fuel + 1, cm, vertex =>
    let cm1 := SetColor cm vertex Color.kGray
    let r := edgeSteps (DepthFirstSearchVisit g fuel) cm1 (g.GetOutgoingEdges vertex)
    (SetColor r.1 vertex Color.kBlack,
      Event.discoverVertex vertex :: r.2 ++ [Event.finishVertex vertex])

/-- The final sweep in `DepthFirstSearch`: every still-white vertex gets
`StartVertex` and a recursive visit. -/
def startSweep (visit : (Int → Color) → Int → ((Int → Color) × List Event)) :
    (Int → Color) → List Int → ((Int → Color) × List Event)
  | cm, [] => (cm, [])
  | cm, v :: vs =>
    if GetColor cm v = Color.kWhite then
      let r := visit cm v
      let r2 := startSweep visit r.1 vs
      (r2.1, (Event.startVertex v :: r.2) ++ r2.2)
    else startSweep visit cm vs

/-- `DepthFirstSearch`: fresh all-white colormap, `InitializeVertex` on every
vertex in order, an unconditional visit of `start` when `start != -1`, then
the sweep over all vertices.  Fuel is the vertex count. -/
def DepthFirstSearch (g : Graph) (start : Int) : ((Int → Color) × List Event) :=
  let fuel := g.GetVertices.length
  let cm0 : Int → Color := fun _ => Color.kWhite
  let initEvents := g.GetVertices.map Event.initVertex
  let r1 :=
    if start ≠ -1 then
      let r := DepthFirstSearchVisit g fuel cm0 start
      (r.1, Event.startVertex start :: r.2)
    else (cm0, ([] : List Event))
  let r2 := startSweep (DepthFirstSearchVisit g fuel) r1.1 g.GetVertices
  (r2.1, initEvents ++ r1.2 ++ r2.2)

/-- The timestamp visitor state (`TimeDFSVisitor`): a tick counter and the
two timestamp maps (vectors in the source, zero-initialized). -/
structure TimeDFSVisitor where
  timer : Nat
  time_in : Int → Nat
  time_out : Int → Nat

/-- Fresh timestamp visitor. -/
def TimeDFSVisitor.new : TimeDFSVisitor :=
  ⟨0, fun _ => 0, fun _ => 0⟩

/-- One visitor callback: `DiscoverVertex` records `time_in[v] = timer++`,
`FinishVertex` records `time_out[v] = timer++`; every other callback of
`TimeDFSVisitor` is the inherited no-op. -/
def visitorStep (s : TimeDFSVisitor) : Event → TimeDFSVisitor
  | Event.discoverVertex v =>
      { timer := s.timer + 1,
        time_in := fun u => if u = v then s.timer else s.time_in u,
        time_out := s.time_out }
  | Event.finishVertex v =>
      { timer := s.timer + 1,
        time_in := s.time_in,
        time_out := fun u => if u = v then s.timer else s.time_out u }
  | _ => s

/-- Run the timestamp visitor over the callback trace. -/
def runVisitor (events : List Event) : TimeDFSVisitor :=
  events.foldl visitorStep TimeDFSVisitor.new

/-- One iteration of the driver's input loop (`main`): a pair
`(vertex, parent)` with `parent == 0` marks `vertex` as the start,
otherwise the edge `(parent - 1, vertex)` is added. -/
def readParent (acc : Graph × Int) (iv : Nat × Nat) : Graph × Int :=
  if iv.2 = 0 then (acc.1, Int.ofNat iv.1)
  else (acc.1.AddEdge ⟨Int.ofNat (iv.2 - 1), Int.ofNat iv.1⟩, acc.2)

/-- The driver's graph construction: fold the input loop over the indexed
parent list, starting from an empty graph and the sentinel start `-1`. -/
def buildInput (parents : List Nat) : Graph × Int :=
  parents.enum.foldl readParent (Graph.new parents.length, -1)

/-- The driver's per-query test (`main`): emit `1` exactly when
`time_in[ancestor] <= time_in[vertex] && time_out[vertex] <= time_out[ancestor]`,
else `0`. -/
def answerQuery (tv : TimeDFSVisitor) (ancestor vertex : Int) : Nat :=
  if tv.time_in ancestor ≤ tv.time_in vertex ∧
      tv.time_out vertex ≤ tv.time_out ancestor then 1 else 0

/-- The whole driver (`main`): build the graph and the start vertex from the
parent list, run the DFS with the timestamp visitor, then answer each
(1-based) query after converting to 0-based indices. -/
def mainRun (parents : List Nat) (queries : List (Nat × Nat)) : List Nat :=
  let gs := buildInput parents
  let result := DepthFirstSearch gs.1 gs.2
  let tv := runVisitor result.2
  queries.map fun q => answerQuery tv (Int.ofNat q.1 - 1) (Int.ofNat q.2 - 1)

/-- Timestamps of the driver on a given parent list (used to state
properties of the preprocessing alone). -/
def driverVisitor (parents : List Nat) : TimeDFSVisitor :=
  runVisitor (DepthFirstSearch (buildInput parents).1 (buildInput parents).2).2

/-! ### Trace helpers -/

/-- Discover/finish events are the ones that drive the color state and the
timestamp visitor. -/
def isDF : Event → Bool
  | Event.discoverVertex _ => true
  | Event.finishVertex _ => true
  | _ => false

/-- The discover/finish subsequence of a trace. -/
def dfSeq (tr : List Event) : List Event := tr.filter isDF

/-- Index of the first occurrence of an event in a trace (the trace's length
when absent). -/
def pos : List Event → Event → Nat
  | [], _ => 0
  | x :: xs, e => if x = e then 0 else pos xs e + 1

/-- The color transition that a single event performs on the colormap:
discovery colors gray, finishing colors black, everything else is a no-op.
Replaying a trace through this reproduces the engine's color state. -/
def colorStep (cm : Int → Color) : Event → (Int → Color)
  | Event.discoverVertex v => SetColor cm v Color.kGray
  | Event.finishVertex v => SetColor cm v Color.kBlack
  | _ => cm

/-- Replay the color transitions of a trace from a given colormap. -/
def replayColors (cm : Int → Color) (tr : List Event) : Int → Color :=
  tr.foldl colorStep cm

/-- Rank of a color in the `unvisited → in-progress → finished` state
machine. -/
def colorRank : Color → Nat
  | Color.kWhite => 0
  | Color.kGray => 1
  | Color.kBlack => 2

/-- Number of white vertices of the graph under a colormap. -/
def whiteCount (g : Graph) (cm : Int → Color) : Nat :=
  g.vertices_.countP (fun v => cm v == Color.kWhite)

/-- Color every vertex of the given list black, leave the rest alone. -/
def blacken (s : List Int) (cm : Int → Color) : Int → Color :=
  fun u => if u ∈ s then Color.kBlack else cm u

/-- Well-formedness of a graph value: distinct vertices, and every stored
edge has its recorded source and an in-range destination. -/
def WFGraph (g : Graph) : Prop :=
  g.vertices_.Nodup ∧
  ∀ v e, e ∈ g.outgoing_edges_ v → e.source = v ∧ e.destination ∈ g.vertices_

/-- Every vertex id an event mentions lies in the given vertex list. -/
def eventInRange (vs : List Int) : Event → Prop
  | Event.initVertex v => v ∈ vs
  | Event.startVertex v => v ∈ vs
  | Event.discoverVertex v => v ∈ vs
  | Event.finishVertex v => v ∈ vs
  | Event.examineEdge e => e.source ∈ vs ∧ e.destination ∈ vs
  | Event.treeEdge e => e.source ∈ vs ∧ e.destination ∈ vs
  | Event.backEdge e => e.source ∈ vs ∧ e.destination ∈ vs
  | Event.forwardOrCrossEdge e => e.source ∈ vs ∧ e.destination ∈ vs
  | Event.finishEdge e => e.source ∈ vs ∧ e.destination ∈ vs

/-! ### Rose trees and Euler tours

A traversal tree: the vertices in the order the traversal discovers them,
with the recursive structure of the visit. -/

/-- Rose tree of vertices. -/
inductive STree where
  | node : Int → List STree → STree

/-- Root vertex of a traversal tree. -/
def STree.rootV : STree → Int
  | STree.node v _ => v

mutual

/-- Vertices of a tree, in discovery order. -/
def supportT : STree → List Int
  | STree.node v ts => v :: supportF ts

/-- Vertices of a forest, in discovery order. -/
def supportF : List STree → List Int
  | [] => []
  | t :: ts => supportT t ++ supportF ts

end

mutual

/-- The discover/finish event sequence of the visit of a tree. -/
def eulerTour : STree → List Event
  | STree.node v ts =>
    Event.discoverVertex v :: eulerForest ts ++ [Event.finishVertex v]

/-- The discover/finish event sequence of the visits of a forest. -/
def eulerForest : List STree → List Event
  | [] => []
  | t :: ts => eulerTour t ++ eulerForest ts

end

mutual

/-- The full callback trace of the visit of a tree all of whose examined
edges are tree edges. -/
def visitTrace : STree → List Event
  | STree.node v ts =>
    Event.discoverVertex v :: visitForest v ts ++ [Event.finishVertex v]

/-- Edge blocks of `visitTrace` for the children of vertex `p`. -/
def visitForest (p : Int) : List STree → List Event
  | [] => []
  | t :: ts =>
    (Event.examineEdge ⟨p, t.rootV⟩ :: visitTrace t ++
      [Event.treeEdge ⟨p, t.rootV⟩, Event.finishEdge ⟨p, t.rootV⟩]) ++
    visitForest p ts

end

mutual

/-- `a` is an ancestor-or-self of `v` inside the tree: some subtree rooted
at `a` contains `v`. -/
def descT (a v : Int) : STree → Prop
  | STree.node r ts => (a = r ∧ (v = r ∨ v ∈ supportF ts)) ∨ descF a v ts

/-- `descT` over some tree of the forest. -/
def descF (a v : Int) : List STree → Prop
  | [] => False
  | t :: ts => descT a v t ∨ descF a v ts

end

mutual

/-- Every parent/child pair of the tree is realized by an edge of the
graph. -/
def inGraphT (g : Graph) : STree → Prop
  | STree.node v ts => inGraphF g v ts

/-- The forest version of `inGraphT`, for children of vertex `p`. -/
def inGraphF (g : Graph) (p : Int) : List STree → Prop
  | [] => True
  | t :: ts =>
    (∃ e ∈ g.GetOutgoingEdges p, e.destination = t.rootV) ∧
    inGraphT g t ∧ inGraphF g p ts

end

mutual

/-- The tree reproduces the graph's adjacency structure exactly: at every
node, the outgoing edge list is precisely the ordered list of edges to the
children. -/
def MatchesT (g : Graph) : STree → Prop
  | STree.node v ts =>
    g.GetOutgoingEdges v = ts.map (fun t => (⟨v, t.rootV⟩ : Edge)) ∧
    MatchesF g ts

/-- The forest version of `MatchesT`. -/
def MatchesF (g : Graph) : List STree → Prop
  | [] => True
  | t :: ts => MatchesT g t ∧ MatchesF g ts

end

/-! ### The parent-pointer input -/

/-- The parent of a vertex per the input encoding: entry `0` means "root",
entry `p+1` means "parent is vertex `p`". -/
def parentOf (ps : List Nat) (v : Nat) : Option Nat :=
  match ps[v]? with
  | some 0 => none
  | some (p + 1) => some p
  | none => none

/-- Iterate `parentOf` `k` times. -/
def parIter (ps : List Nat) : Nat → Nat → Option Nat
  | 0, v => some v
  | k + 1, v =>
    match parentOf ps v with
    | some p => parIter ps k p
    | none => none

/-- After `k` parent steps from `v` we sit at a root. -/
def rootAtB (ps : List Nat) (k v : Nat) : Bool :=
  match parIter ps k v with
  | some r => (parentOf ps r).isNone
  | none => false

/-- All parent references are in range `0 .. V`. -/
def ValidParents (ps : List Nat) : Prop := ∀ x ∈ ps, x ≤ ps.length

/-- The input describes a forest: parent references are in range and every
vertex reaches a root along its parent chain (within `V` steps, which is no
restriction for an acyclic chain on `V` vertices). -/
def Forest (ps : List Nat) : Prop :=
  ValidParents ps ∧ ∀ v < ps.length, ∃ k < ps.length, rootAtB ps k v = true

/-- `a` is an ancestor-or-self of `v` in the input forest: some number of
parent steps from `v` reaches `a`. -/
def Ancestor (ps : List Nat) (a v : Nat) : Prop :=
  ∃ k, parIter ps k v = some a

/-- The vertices whose parent reference is `0`, in increasing order. -/
def rootList (ps : List Nat) : List Nat :=
  (List.range ps.length).filter (fun v => (parentOf ps v).isNone)

/-- The children of `p`, in increasing order — which is exactly the order
in which the driver adds the edges out of `p`. -/
def childList (ps : List Nat) (p : Nat) : List Nat :=
  (List.range ps.length).filter (fun c => parentOf ps c == some p)

/-- The input tree rooted at `v`, built by following `childList` with a
fuel bound on the depth (fuel `ps.length` is sufficient for a forest). -/
def buildTreeF (ps : List Nat) : Nat → Nat → STree
  | 0, v => STree.node (Int.ofNat v) []
  | fuel + 1, v =>
    STree.node (Int.ofNat v) ((childList ps v).map (buildTreeF ps fuel))

/-- The input tree rooted at `v`. -/
def buildTree (ps : List Nat) (v : Nat) : STree := buildTreeF ps ps.length v

/-! ### The visitor-protocol order of §4.2, as a relation

These two relations transcribe the specification's description of the
callback order during a visit: `discoverVertex` first, then per outgoing
edge in order `examineEdge`, exactly one classification chosen by the
destination's color — with the recursion into an unvisited destination
completing before `treeEdge` is emitted — then `finishEdge`; finally
`finishVertex` after all edges. -/

mutual

inductive VisitOrder (g : Graph) :
    (Int → Color) → Int → (Int → Color) → List Event → Prop where
  | visit : ∀ cm v cm' tr,
      EdgesOrder g (SetColor cm v Color.kGray) (g.GetOutgoingEdges v) cm' tr →
      VisitOrder g cm v (SetColor cm' v Color.kBlack)
        (Event.discoverVertex v :: tr ++ [Event.finishVertex v])

inductive EdgesOrder (g : Graph) :
    (Int → Color) → List Edge → (Int → Color) → List Event → Prop where
  | nil : ∀ cm, EdgesOrder g cm [] cm []
  | tree : ∀ cm e es cm1 sub cm2 rest,
      GetColor cm e.destination = Color.kWhite →
      VisitOrder g cm e.destination cm1 sub →
      EdgesOrder g cm1 es cm2 rest →
      EdgesOrder g cm (e :: es) cm2
        ((Event.examineEdge e :: sub ++
          [Event.treeEdge e, Event.finishEdge e]) ++ rest)
  | back : ∀ cm e es cm2 rest,
      GetColor cm e.destination = Color.kGray →
      EdgesOrder g cm es cm2 rest →
      EdgesOrder g cm (e :: es) cm2
        ([Event.examineEdge e, Event.backEdge e, Event.finishEdge e] ++ rest)
  | cross : ∀ cm e es cm2 rest,
      GetColor cm e.destination = Color.kBlack →
      EdgesOrder g cm es cm2 rest →
      EdgesOrder g cm (e :: es) cm2
        ([Event.examineEdge e, Event.forwardOrCrossEdge e,
          Event.finishEdge e] ++ rest)

end

/-! ### Two independent traversal runs (for the idempotence property)

Each run builds its own colormap (inside `DepthFirstSearch`) and its own
fresh timestamp visitor state (inside `runVisitor`). -/

/-- First run: fresh color state and fresh visitor state. -/
def firstTraversal (g : Graph) (start : Int) : TimeDFSVisitor :=
  runVisitor (DepthFirstSearch g start).2

/-- Second run, performed independently of the first: again a fresh color
state and a fresh visitor state over the same immutable graph. -/
def secondTraversal (g : Graph) (start : Int) : TimeDFSVisitor :=
  runVisitor (DepthFirstSearch g start).2

/-! ## Basic lemmas -/

theorem SetColor_self (cm : Int → Color) (v : Int) (c : Color) :
    SetColor cm v c v = c := by
  simp [SetColor]

theorem SetColor_ne (cm : Int → Color) (v u : Int) (c : Color) (h : u ≠ v) :
    SetColor cm v c u = cm u := by
  simp [SetColor, h]

theorem colorRank_le_two (c : Color) : colorRank c ≤ 2 := by
  cases c <;> simp [colorRank]

theorem colorRank_eq_zero {c : Color} (h : colorRank c ≤ 0) : c = Color.kWhite := by
  cases c <;> simp_all [colorRank]

theorem colorRank_two_black {c : Color} (h : 2 ≤ colorRank c) : c = Color.kBlack := by
  cases c <;> simp_all [colorRank]

theorem pos_cons_self (x : Event) (xs : List Event) : pos (x :: xs) x = 0 := by
  simp [pos]

theorem pos_cons_ne (x e : Event) (xs : List Event) (h : x ≠ e) :
    pos (x :: xs) e = pos xs e + 1 := by
  simp [pos, h]

theorem pos_lt_length {l : List Event} {e : Event} (h : e ∈ l) :
    pos l e < l.length := by
  induction l with
  | nil => cases h
  | cons x xs ih =>
    by_cases hx : x = e
    · subst hx; simp [pos]
    · rcases List.mem_cons.mp h with h | h
      · exact absurd h.symm hx
      · simpa [pos, hx] using ih h

theorem pos_append_of_mem {l1 : List Event} (l2 : List Event) {e : Event}
    (h : e ∈ l1) : pos (l1 ++ l2) e = pos l1 e := by
  induction l1 with
  | nil => cases h
  | cons x xs ih =>
    by_cases hx : x = e
    · subst hx; simp [pos]
    · rcases List.mem_cons.mp h with h | h
      · exact absurd h.symm hx
      · simp [pos, hx, ih h]

theorem pos_append_of_not_mem {l1 : List Event} (l2 : List Event) {e : Event}
    (h : e ∉ l1) : pos (l1 ++ l2) e = l1.length + pos l2 e := by
  induction l1 with
  | nil => simp [pos]
  | cons x xs ih =>
    have hx : x ≠ e := by rintro rfl; exact h (List.mem_cons_self _ _)
    have hxs : e ∉ xs := fun hm => h (List.mem_cons_of_mem _ hm)
    simp [pos, hx, ih hxs]
    omega

theorem pos_inj {l : List Event} {e1 e2 : Event} (h1 : e1 ∈ l)
    (h : pos l e1 = pos l e2) : e1 = e2 := by
  induction l with
  | nil => cases h1
  | cons x xs ih =>
    by_cases hx1 : x = e1
    · by_cases hx2 : x = e2
      · exact hx1 ▸ hx2
      · subst hx1; rw [pos_cons_self, pos_cons_ne _ _ _ hx2] at h; omega
    · by_cases hx2 : x = e2
      · subst hx2; rw [pos_cons_self, pos_cons_ne _ _ _ hx1] at h; omega
      · rcases List.mem_cons.mp h1 with h1 | h1
        · exact absurd h1.symm hx1
        · rw [pos_cons_ne _ _ _ hx1, pos_cons_ne _ _ _ hx2] at h
          exact ih h1 (by omega)

theorem dfSeq_nil : dfSeq [] = [] := rfl

theorem dfSeq_append (l1 l2 : List Event) :
    dfSeq (l1 ++ l2) = dfSeq l1 ++ dfSeq l2 := by
  simp [dfSeq]

theorem dfSeq_cons_df {e : Event} (he : isDF e = true) (l : List Event) :
    dfSeq (e :: l) = e :: dfSeq l := by
  simp [dfSeq, he]

theorem dfSeq_cons_nondf {e : Event} (he : isDF e = false) (l : List Event) :
    dfSeq (e :: l) = dfSeq l := by
  simp [dfSeq, he]

theorem count_dfSeq {e : Event} (he : isDF e = true) (l : List Event) :
    (dfSeq l).count e = l.count e := by
  simpa [dfSeq] using List.count_filter (p := isDF) (a := e) (l := l) he

/-- Flipping a single present element of a `Nodup` list from satisfying a
predicate to not satisfying it drops the count by one. -/
theorem countP_flip_one {l : List Int} (hnd : l.Nodup) {v : Int} (hv : v ∈ l)
    {p q : Int → Bool} (hpv : p v = true) (hqv : q v = false)
    (hother : ∀ u, u ≠ v → q u = p u) :
    l.countP q + 1 = l.countP p := by
  induction l with
  | nil => cases hv
  | cons x xs ih =>
    rcases List.nodup_cons.mp hnd with ⟨hx, hnd'⟩
    by_cases hxv : x = v
    · subst hxv
      have : xs.countP q = xs.countP p := by
        apply List.countP_congr
        intro u hu
        have : u ≠ x := fun h => hx (h ▸ hu)
        rw [hother u this]
      simp [List.countP_cons, hpv, hqv, this]
    · rcases List.mem_cons.mp hv with hv | hv
      · exact absurd hv.symm hxv
      · have := ih hnd' hv
        simp only [List.countP_cons, hother x hxv]
        omega

theorem whiteCount_setGray {g : Graph} (hnd : g.vertices_.Nodup) {cm : Int → Color}
    {v : Int} (hv : v ∈ g.vertices_) (hw : cm v = Color.kWhite) :
    whiteCount g (SetColor cm v Color.kGray) + 1 = whiteCount g cm := by
  apply countP_flip_one hnd hv
  · simp [hw]
  · simp [SetColor_self]
  · intro u hu; simp [SetColor_ne cm v u _ hu]

theorem whiteCount_pos {g : Graph} {cm : Int → Color} {v : Int}
    (hv : v ∈ g.vertices_) (hw : cm v = Color.kWhite) : 0 < whiteCount g cm := by
  apply List.countP_pos_iff.mpr
  exact ⟨v, hv, by simp [hw]⟩

theorem whiteCount_le_of_pointwise {g : Graph} {cm cm' : Int → Color}
    (h : ∀ u, cm' u = Color.kWhite → cm u = Color.kWhite) :
    whiteCount g cm' ≤ whiteCount g cm := by
  apply List.countP_mono_left
  intro u _ hu
  have : cm' u = Color.kWhite := by simpa using hu
  simp [h u this]

theorem blacken_mem {s : List Int} {u : Int} (h : u ∈ s) (cm : Int → Color) :
    blacken s cm u = Color.kBlack := by
  simp [blacken, h]

theorem blacken_not_mem {s : List Int} {u : Int} (h : u ∉ s) (cm : Int → Color) :
    blacken s cm u = cm u := by
  simp [blacken, h]

theorem blacken_blacken (s1 s2 : List Int) (cm : Int → Color) :
    blacken s2 (blacken s1 cm) = blacken (s1 ++ s2) cm := by
  funext u
  by_cases h2 : u ∈ s2
  · simp [blacken, h2]
  · by_cases h1 : u ∈ s1 <;> simp [blacken, h1, h2]

theorem blacken_gray_black (s : List Int) (cm : Int → Color) (v : Int) :
    SetColor (blacken s (SetColor cm v Color.kGray)) v Color.kBlack =
    blacken (v :: s) cm := by
  funext u
  by_cases hu : u = v
  · subst hu; simp [SetColor_self, blacken]
  · rw [SetColor_ne _ _ _ _ hu]
    by_cases hs : u ∈ s
    · simp [blacken, hs, hu]
    · rw [blacken_not_mem hs, SetColor_ne _ _ _ _ hu,
        blacken_not_mem (by simp [hu, hs])]

theorem supportT_node (v : Int) (ts : List STree) :
    supportT (STree.node v ts) = v :: supportF ts := by
  simp [supportT]

theorem inGraphF_of_forall {g : Graph} {p : Int} {ts : List STree}
    (h : ∀ t ∈ ts, inGraphT g t ∧
      ∃ e ∈ g.GetOutgoingEdges p, e.destination = t.rootV) :
    inGraphF g p ts := by
  induction ts with
  | nil => trivial
  | cons t ts ih =>
    obtain ⟨ht, e, he, hdest⟩ := h t (List.mem_cons_self _ _)
    exact ⟨⟨e, he, hdest⟩, ht, ih fun t' ht' => h t' (List.mem_cons_of_mem _ ht')⟩

/-! ## Color monotonicity of the engine -/

theorem edgeSteps_mono {visit : (Int → Color) → Int → ((Int → Color) × List Event)}
    (hv : ∀ cm v u, colorRank (cm u) ≤ colorRank ((visit cm v).1 u)) :
    ∀ (es : List Edge) (cm : Int → Color) (u : Int),
      colorRank (cm u) ≤ colorRank ((edgeSteps visit cm es).1 u) := by
  intro es
  induction es with
  | nil => intro cm u; simp [edgeSteps]
  | cons e es ihe =>
    intro cm u
    simp only [edgeSteps]
    split
    · exact le_trans (hv cm e.destination u) (ihe _ u)
    · split
      · exact ihe cm u
      · exact ihe cm u

theorem visit_mono (g : Graph) :
    ∀ (fuel : Nat) (cm : Int → Color) (v u : Int),
      colorRank (cm u) ≤ colorRank ((DepthFirstSearchVisit g fuel cm v).1 u) := by
  intro fuel
  induction fuel with
  | zero => intro cm v u; simp [DepthFirstSearchVisit]
  | succ n ih =>
    intro cm v u
    simp only [DepthFirstSearchVisit]
    by_cases hu : u = v
    · subst hu
      rw [SetColor_self]
      exact colorRank_le_two _
    · rw [SetColor_ne _ _ _ _ hu]
      calc colorRank (cm u)
          = colorRank (SetColor cm v Color.kGray u) := by
            rw [SetColor_ne _ _ _ _ hu]
        _ ≤ _ := edgeSteps_mono ih _ _ u

theorem visit_white_rev {g : Graph} {fuel : Nat} {cm : Int → Color} {v u : Int}
    (h : (DepthFirstSearchVisit g fuel cm v).1 u = Color.kWhite) :
    cm u = Color.kWhite := by
  have := visit_mono g fuel cm v u
  rw [h] at this
  exact colorRank_eq_zero (by simpa [colorRank] using this)

theorem edgeSteps_white_rev {g : Graph} {fuel : Nat} {cm : Int → Color}
    {es : List Edge} {u : Int}
    (h : (edgeSteps (DepthFirstSearchVisit g fuel) cm es).1 u = Color.kWhite) :
    cm u = Color.kWhite := by
  have := edgeSteps_mono (visit_mono g fuel) es cm u
  rw [h] at this
  exact colorRank_eq_zero (by simpa [colorRank] using this)

theorem visit_whiteCount_le (g : Graph) (fuel : Nat) (cm : Int → Color) (v : Int) :
    whiteCount g ((DepthFirstSearchVisit g fuel cm v).1) ≤ whiteCount g cm :=
  whiteCount_le_of_pointwise fun _ h => visit_white_rev h

/-! ## Unfolding helpers for the engine -/

theorem visit_succ (g : Graph) (n : Nat) (cm : Int → Color) (v : Int) :
    DepthFirstSearchVisit g (n + 1) cm v =
      (SetColor (edgeSteps (DepthFirstSearchVisit g n)
          (SetColor cm v Color.kGray) (g.GetOutgoingEdges v)).1 v Color.kBlack,
       Event.discoverVertex v ::
         (edgeSteps (DepthFirstSearchVisit g n)
           (SetColor cm v Color.kGray) (g.GetOutgoingEdges v)).2 ++
         [Event.finishVertex v]) := rfl

theorem edgeSteps_cons_white
    {visit : (Int → Color) → Int → ((Int → Color) × List Event)}
    {cm : Int → Color} {e : Edge} (es : List Edge)
    (h : GetColor cm e.destination = Color.kWhite) :
    edgeSteps visit cm (e :: es) =
      ((edgeSteps visit (visit cm e.destination).1 es).1,
       (Event.examineEdge e :: (visit cm e.destination).2 ++
         [Event.treeEdge e, Event.finishEdge e]) ++
       (edgeSteps visit (visit cm e.destination).1 es).2) := by
  simp [edgeSteps, h]

theorem edgeSteps_cons_gray
    {visit : (Int → Color) → Int → ((Int → Color) × List Event)}
    {cm : Int → Color} {e : Edge} (es : List Edge)
    (h : GetColor cm e.destination = Color.kGray) :
    edgeSteps visit cm (e :: es) =
      ((edgeSteps visit cm es).1,
       [Event.examineEdge e, Event.backEdge e, Event.finishEdge e] ++
       (edgeSteps visit cm es).2) := by
  simp [edgeSteps, h]

theorem edgeSteps_cons_black
    {visit : (Int → Color) → Int → ((Int → Color) × List Event)}
    {cm : Int → Color} {e : Edge} (es : List Edge)
    (h : GetColor cm e.destination = Color.kBlack) :
    edgeSteps visit cm (e :: es) =
      ((edgeSteps visit cm es).1,
       [Event.examineEdge e, Event.forwardOrCrossEdge e, Event.finishEdge e] ++
       (edgeSteps visit cm es).2) := by
  simp [edgeSteps, h]

theorem eulerTour_node (v : Int) (ts : List STree) :
    eulerTour (STree.node v ts) =
      Event.discoverVertex v :: eulerForest ts ++ [Event.finishVertex v] := by
  simp [eulerTour]

theorem eulerForest_cons (t : STree) (ts : List STree) :
    eulerForest (t :: ts) = eulerTour t ++ eulerForest ts := by
  simp [eulerForest]

theorem supportF_cons (t : STree) (ts : List STree) :
    supportF (t :: ts) = supportT t ++ supportF ts := by
  simp [supportF]

theorem count_examine_tree_block (e e0 : Edge) (tr rest : List Event) :
    ((Event.examineEdge e :: tr ++ [Event.treeEdge e, Event.finishEdge e]) ++
      rest).count (Event.examineEdge e0) =
    (if e = e0 then 1 else 0) + tr.count (Event.examineEdge e0) +
      rest.count (Event.examineEdge e0) := by
  by_cases heq : e = e0 <;>
    simp [List.count_append, List.count_cons, heq] <;> omega

theorem count_examine_back_block (e e0 : Edge) (rest : List Event) :
    ([Event.examineEdge e, Event.backEdge e, Event.finishEdge e] ++
      rest).count (Event.examineEdge e0) =
    (if e = e0 then 1 else 0) + rest.count (Event.examineEdge e0) := by
  by_cases heq : e = e0 <;>
    simp [List.count_append, List.count_cons, heq] <;> omega

theorem count_examine_cross_block (e e0 : Edge) (rest : List Event) :
    ([Event.examineEdge e, Event.forwardOrCrossEdge e, Event.finishEdge e] ++
      rest).count (Event.examineEdge e0) =
    (if e = e0 then 1 else 0) + rest.count (Event.examineEdge e0) := by
  by_cases heq : e = e0 <;>
    simp [List.count_append, List.count_cons, heq] <;> omega

theorem count_edge_cons (e e0 : Edge) (es : List Edge) :
    (e :: es).count e0 = (if e = e0 then 1 else 0) + es.count e0 := by
  by_cases heq : e = e0 <;> simp [List.count_cons, heq] <;> omega

/-! ## The structure of a completed visit

A completed visit of a white vertex is the walk of a traversal tree `T`:
its discover/finish subsequence is the Euler tour of `T`, it blackens
exactly the support of `T` (which was all white and in range), the support
has no duplicates, every parent/child pair of `T` is a graph edge, and the
examine events count the outgoing edges of the support exactly once each. -/

theorem edgesE1 (g : Graph) (hWF : WFGraph g) (fuel : Nat)
    (hvisit : ∀ cm v, v ∈ g.vertices_ → cm v = Color.kWhite →
      whiteCount g cm ≤ fuel →
      ∃ T : STree, T.rootV = v ∧
        dfSeq (DepthFirstSearchVisit g fuel cm v).2 = eulerTour T ∧
        (DepthFirstSearchVisit g fuel cm v).1 = blacken (supportT T) cm ∧
        (∀ u ∈ supportT T, cm u = Color.kWhite ∧ u ∈ g.vertices_) ∧
        (supportT T).Nodup ∧
        inGraphT g T ∧
        (∀ e0 : Edge,
          (DepthFirstSearchVisit g fuel cm v).2.count (Event.examineEdge e0) =
            ((supportT T).map fun u => (g.GetOutgoingEdges u).count e0).sum) ∧
        (∀ ev ∈ (DepthFirstSearchVisit g fuel cm v).2, eventInRange g.vertices_ ev)) :
    ∀ (es : List Edge) (cm : Int → Color),
      (∀ e ∈ es, e.source ∈ g.vertices_ ∧ e.destination ∈ g.vertices_) →
      whiteCount g cm ≤ fuel →
      ∃ TS : List STree,
        dfSeq (edgeSteps (DepthFirstSearchVisit g fuel) cm es).2 = eulerForest TS ∧
        (edgeSteps (DepthFirstSearchVisit g fuel) cm es).1 =
          blacken (supportF TS) cm ∧
        (∀ u ∈ supportF TS, cm u = Color.kWhite ∧ u ∈ g.vertices_) ∧
        (supportF TS).Nodup ∧
        (∀ T ∈ TS, inGraphT g T ∧ ∃ e ∈ es, e.destination = T.rootV) ∧
        (∀ e0 : Edge,
          (edgeSteps (DepthFirstSearchVisit g fuel) cm es).2.count
            (Event.examineEdge e0) =
          es.count e0 +
            ((supportF TS).map fun u => (g.GetOutgoingEdges u).count e0).sum) ∧
        (∀ ev ∈ (edgeSteps (DepthFirstSearchVisit g fuel) cm es).2,
          eventInRange g.vertices_ ev) := by
  intro es
  induction es with
  | nil =>
    intro cm _ _
    refine ⟨[], ?_, ?_, ?_, ?_, ?_, ?_, ?_⟩
    · simp [edgeSteps, dfSeq, eulerForest]
    · funext u; simp [edgeSteps, blacken, supportF]
    · simp [supportF]
    · simp [supportF]
    · simp
    · intro e0; simp [edgeSteps, supportF]
    · intro ev h; simp [edgeSteps] at h
  | cons e es ihe =>
    intro cm hes hwc
    obtain ⟨hsrc, hdst⟩ := hes e (List.mem_cons_self _ _)
    have hes' : ∀ e' ∈ es, e'.source ∈ g.vertices_ ∧ e'.destination ∈ g.vertices_ :=
      fun e' h => hes e' (List.mem_cons_of_mem _ h)
    by_cases hwhite : GetColor cm e.destination = Color.kWhite
    · -- tree-edge block: recurse into the white destination first
      obtain ⟨T1, hroot, hdf1, hcm1, hwh1, hnd1, hig1, hcnt1, hrng1⟩ :=
        hvisit cm e.destination hdst hwhite hwc
      have hwc' : whiteCount g (DepthFirstSearchVisit g fuel cm e.destination).1 ≤ fuel :=
        le_trans (visit_whiteCount_le g fuel cm e.destination) hwc
      obtain ⟨TS', hdf2, hcm2, hwh2, hnd2, hig2, hcnt2, hrng2⟩ :=
        ihe (DepthFirstSearchVisit g fuel cm e.destination).1 hes' hwc'
      rw [edgeSteps_cons_white es hwhite]
      refine ⟨T1 :: TS', ?_, ?_, ?_, ?_, ?_, ?_, ?_⟩
      · show dfSeq ((Event.examineEdge e ::
            (DepthFirstSearchVisit g fuel cm e.destination).2 ++
            [Event.treeEdge e, Event.finishEdge e]) ++ _) = _
        rw [eulerForest_cons, ← hdf1, ← hdf2]
        simp [dfSeq, isDF]
      · show (edgeSteps (DepthFirstSearchVisit g fuel)
            (DepthFirstSearchVisit g fuel cm e.destination).1 es).1 = _
        rw [hcm2, hcm1, blacken_blacken, supportF_cons]
      · intro u hu
        rw [supportF_cons] at hu
        rcases List.mem_append.mp hu with hu | hu
        · exact hwh1 u hu
        · obtain ⟨hw, hv⟩ := hwh2 u hu
          exact ⟨visit_white_rev hw, hv⟩
      · rw [supportF_cons]
        refine List.Nodup.append hnd1 hnd2 ?_
        intro u hu1 hu2
        have hw := (hwh2 u hu2).1
        rw [hcm1, blacken_mem hu1] at hw
        cases hw
      · intro T hT
        rcases List.mem_cons.mp hT with rfl | hT
        · exact ⟨hig1, e, List.mem_cons_self _ _, hroot.symm⟩
        · obtain ⟨hig, e', he', hd⟩ := hig2 T hT
          exact ⟨hig, e', List.mem_cons_of_mem _ he', hd⟩
      · intro e0
        rw [count_examine_tree_block, hcnt1 e0, hcnt2 e0, count_edge_cons,
          supportF_cons]
        simp only [List.map_append, List.sum_append]
        omega
      · intro ev hev
        rcases List.mem_append.mp hev with hev | hev
        · rcases List.mem_cons.mp hev with rfl | hev
          · exact ⟨hsrc, hdst⟩
          · rcases List.mem_append.mp hev with hev | hev
            · exact hrng1 ev hev
            · rcases List.mem_cons.mp hev with rfl | hev
              · exact ⟨hsrc, hdst⟩
              · rcases List.mem_cons.mp hev with rfl | hev
                · exact ⟨hsrc, hdst⟩
                · cases hev
        · exact hrng2 ev hev
    · -- non-tree block: the colormap is unchanged
      obtain ⟨TS', hdf2, hcm2, hwh2, hnd2, hig2, hcnt2, hrng2⟩ := ihe cm hes' hwc
      by_cases hgray : GetColor cm e.destination = Color.kGray
      · rw [edgeSteps_cons_gray es hgray]
        refine ⟨TS', ?_, hcm2, hwh2, hnd2, ?_, ?_, ?_⟩
        · show dfSeq ([Event.examineEdge e, Event.backEdge e,
            Event.finishEdge e] ++ _) = _
          rw [dfSeq_append, ← hdf2]
          simp [dfSeq, isDF]
        · intro T hT
          obtain ⟨hig, e', he', hd⟩ := hig2 T hT
          exact ⟨hig, e', List.mem_cons_of_mem _ he', hd⟩
        · intro e0
          rw [count_examine_back_block, hcnt2 e0, count_edge_cons]
          omega
        · intro ev hev
          rcases List.mem_append.mp hev with hev | hev
          · simp only [List.mem_cons, List.not_mem_nil, or_false] at hev
            rcases hev with rfl | rfl | rfl <;> exact ⟨hsrc, hdst⟩
          · exact hrng2 ev hev
      · have hblack : GetColor cm e.destination = Color.kBlack := by
          cases h : GetColor cm e.destination
          · exact absurd h hwhite
          · exact absurd h hgray
          · rfl
        rw [edgeSteps_cons_black es hblack]
        refine ⟨TS', ?_, hcm2, hwh2, hnd2, ?_, ?_, ?_⟩
        · show dfSeq ([Event.examineEdge e, Event.forwardOrCrossEdge e,
            Event.finishEdge e] ++ _) = _
          rw [dfSeq_append, ← hdf2]
          simp [dfSeq, isDF]
        · intro T hT
          obtain ⟨hig, e', he', hd⟩ := hig2 T hT
          exact ⟨hig, e', List.mem_cons_of_mem _ he', hd⟩
        · intro e0
          rw [count_examine_cross_block, hcnt2 e0, count_edge_cons]
          omega
        · intro ev hev
          rcases List.mem_append.mp hev with hev | hev
          · simp only [List.mem_cons, List.not_mem_nil, or_false] at hev
            rcases hev with rfl | rfl | rfl <;> exact ⟨hsrc, hdst⟩
          · exact hrng2 ev hev

theorem visitE1 (g : Graph) (hWF : WFGraph g) :
    ∀ (fuel : Nat) (cm : (Int → Color)) (v : Int),
      v ∈ g.vertices_ → cm v = Color.kWhite → whiteCount g cm ≤ fuel →
      ∃ T : STree, T.rootV = v ∧
        dfSeq (DepthFirstSearchVisit g fuel cm v).2 = eulerTour T ∧
        (DepthFirstSearchVisit g fuel cm v).1 = blacken (supportT T) cm ∧
        (∀ u ∈ supportT T, cm u = Color.kWhite ∧ u ∈ g.vertices_) ∧
        (supportT T).Nodup ∧
        inGraphT g T ∧
        (∀ e0 : Edge,
          (DepthFirstSearchVisit g fuel cm v).2.count (Event.examineEdge e0) =
            ((supportT T).map fun u => (g.GetOutgoingEdges u).count e0).sum) ∧
        (∀ ev ∈ (DepthFirstSearchVisit g fuel cm v).2, eventInRange g.vertices_ ev) := by
  intro fuel
  induction fuel with
  | zero =>
    intro cm v hv hw hwc
    exact absurd (whiteCount_pos hv hw) (by omega)
  | succ n ih =>
    intro cm v hv hw hwc
    have hes : ∀ e ∈ g.GetOutgoingEdges v,
        e.source ∈ g.vertices_ ∧ e.destination ∈ g.vertices_ := by
      intro e he
      obtain ⟨h1, h2⟩ := hWF.2 v e he
      exact ⟨h1 ▸ hv, h2⟩
    have hwc1 : whiteCount g (SetColor cm v Color.kGray) ≤ n := by
      have := whiteCount_setGray hWF.1 hv hw
      omega
    obtain ⟨TS, hdf, hcm, hwh, hnd, hig, hcnt, hrng⟩ :=
      edgesE1 g hWF n (fun cm' v' => ih cm' v')
        (g.GetOutgoingEdges v) (SetColor cm v Color.kGray) hes hwc1
    rw [visit_succ]
    refine ⟨STree.node v TS, rfl, ?_, ?_, ?_, ?_, ?_, ?_, ?_⟩
    · show dfSeq (Event.discoverVertex v :: _ ++ [Event.finishVertex v]) = _
      rw [eulerTour_node, ← hdf]
      simp [dfSeq, isDF]
    · show SetColor (edgeSteps (DepthFirstSearchVisit g n)
        (SetColor cm v Color.kGray) (g.GetOutgoingEdges v)).1 v Color.kBlack = _
      rw [hcm, blacken_gray_black, supportT_node]
    · intro u hu
      rw [supportT_node] at hu
      rcases List.mem_cons.mp hu with rfl | hu
      · exact ⟨hw, hv⟩
      · obtain ⟨hwu, hvu⟩ := hwh u hu
        have hune : u ≠ v := by
          rintro rfl
          rw [SetColor_self] at hwu
          cases hwu
        rw [SetColor_ne _ _ _ _ hune] at hwu
        exact ⟨hwu, hvu⟩
    · rw [supportT_node]
      refine List.nodup_cons.mpr ⟨?_, hnd⟩
      intro hvmem
      have := (hwh v hvmem).1
      rw [SetColor_self] at this
      cases this
    · show inGraphT g (STree.node v TS)
      simp only [inGraphT]
      exact inGraphF_of_forall fun T hT => (hig T hT).imp_right fun h => h
    · intro e0
      have h := hcnt e0
      rw [supportT_node]
      simp only [List.count_cons, List.count_append, List.map_cons, List.sum_cons]
      simp [h]
    · intro ev hev
      rcases List.mem_cons.mp hev with rfl | hev
      · exact hv
      · rcases List.mem_append.mp hev with hev | hev
        · exact hrng ev hev
        · rcases List.mem_cons.mp hev with rfl | hev
          · exact hv
          · cases hev

/-! ## The sweep and the full run -/

theorem startSweep_cons_white
    {visit : (Int → Color) → Int → ((Int → Color) × List Event)}
    {cm : Int → Color} {v : Int} (vs : List Int)
    (h : GetColor cm v = Color.kWhite) :
    startSweep visit cm (v :: vs) =
      ((startSweep visit (visit cm v).1 vs).1,
       (Event.startVertex v :: (visit cm v).2) ++
         (startSweep visit (visit cm v).1 vs).2) := by
  simp [startSweep, h]

theorem startSweep_cons_nonwhite
    {visit : (Int → Color) → Int → ((Int → Color) × List Event)}
    {cm : Int → Color} {v : Int} (vs : List Int)
    (h : ¬GetColor cm v = Color.kWhite) :
    startSweep visit cm (v :: vs) = startSweep visit cm vs := by
  simp [startSweep, h]

theorem rootV_mem_supportT (T : STree) : T.rootV ∈ supportT T := by
  cases T with
  | node v ts => rw [supportT_node]; exact List.mem_cons_self _ _

theorem sweepE1 (g : Graph) (hWF : WFGraph g) (fuel : Nat) :
    ∀ (vs : List Int) (cm : Int → Color),
      (∀ v ∈ vs, v ∈ g.vertices_) → whiteCount g cm ≤ fuel →
      ∃ TS : List STree,
        dfSeq (startSweep (DepthFirstSearchVisit g fuel) cm vs).2 = eulerForest TS ∧
        (startSweep (DepthFirstSearchVisit g fuel) cm vs).1 =
          blacken (supportF TS) cm ∧
        (∀ u ∈ supportF TS, cm u = Color.kWhite ∧ u ∈ g.vertices_) ∧
        (supportF TS).Nodup ∧
        (∀ T ∈ TS, inGraphT g T ∧ T.rootV ∈ vs) ∧
        (∀ e0 : Edge,
          (startSweep (DepthFirstSearchVisit g fuel) cm vs).2.count
            (Event.examineEdge e0) =
          ((supportF TS).map fun u => (g.GetOutgoingEdges u).count e0).sum) ∧
        (∀ ev ∈ (startSweep (DepthFirstSearchVisit g fuel) cm vs).2,
          eventInRange g.vertices_ ev) ∧
        (∀ v ∈ vs, (startSweep (DepthFirstSearchVisit g fuel) cm vs).1 v ≠
          Color.kWhite) := by
  intro vs
  induction vs with
  | nil =>
    intro cm _ _
    refine ⟨[], ?_, ?_, ?_, ?_, ?_, ?_, ?_, ?_⟩
    · simp [startSweep, dfSeq, eulerForest]
    · funext u; simp [startSweep, blacken, supportF]
    · simp [supportF]
    · simp [supportF]
    · simp
    · intro e0; simp [startSweep, supportF]
    · intro ev h; simp [startSweep] at h
    · intro v h; cases h
  | cons v vs ihs =>
    intro cm hvs hwc
    have hv : v ∈ g.vertices_ := hvs v (List.mem_cons_self _ _)
    have hvs' : ∀ v' ∈ vs, v' ∈ g.vertices_ :=
      fun v' h => hvs v' (List.mem_cons_of_mem _ h)
    by_cases hwhite : GetColor cm v = Color.kWhite
    · obtain ⟨T1, hroot, hdf1, hcm1, hwh1, hnd1, hig1, hcnt1, hrng1⟩ :=
        visitE1 g hWF fuel cm v hv hwhite hwc
      have hwc' : whiteCount g (DepthFirstSearchVisit g fuel cm v).1 ≤ fuel :=
        le_trans (visit_whiteCount_le g fuel cm v) hwc
      obtain ⟨TS', hdf2, hcm2, hwh2, hnd2, hig2, hcnt2, hrng2, hcov2⟩ :=
        ihs (DepthFirstSearchVisit g fuel cm v).1 hvs' hwc'
      rw [startSweep_cons_white vs hwhite]
      refine ⟨T1 :: TS', ?_, ?_, ?_, ?_, ?_, ?_, ?_, ?_⟩
      · rw [eulerForest_cons, ← hdf1, ← hdf2]
        simp [dfSeq, isDF]
      · rw [hcm2, hcm1, blacken_blacken, supportF_cons]
      · intro u hu
        rw [supportF_cons] at hu
        rcases List.mem_append.mp hu with hu | hu
        · exact hwh1 u hu
        · obtain ⟨hw, hv'⟩ := hwh2 u hu
          exact ⟨visit_white_rev hw, hv'⟩
      · rw [supportF_cons]
        refine List.Nodup.append hnd1 hnd2 ?_
        intro u hu1 hu2
        have hw := (hwh2 u hu2).1
        rw [hcm1, blacken_mem hu1] at hw
        cases hw
      · intro T hT
        rcases List.mem_cons.mp hT with rfl | hT
        · exact ⟨hig1, hroot ▸ List.mem_cons_self _ _⟩
        · obtain ⟨hig, hmem⟩ := hig2 T hT
          exact ⟨hig, List.mem_cons_of_mem _ hmem⟩
      · intro e0
        rw [supportF_cons]
        have h1 := hcnt1 e0
        have h2 := hcnt2 e0
        simp [List.count_append, List.count_cons, h1, h2, List.map_append]
      · intro ev hev
        rcases List.mem_append.mp hev with hev | hev
        · rcases List.mem_cons.mp hev with rfl | hev
          · exact hv
          · exact hrng1 ev hev
        · exact hrng2 ev hev
      · intro v' hv'
        rcases List.mem_cons.mp hv' with rfl | hv'
        · have hmem : v' ∈ supportT T1 ++ supportF TS' :=
            List.mem_append.mpr (Or.inl (by rw [← hroot]; exact rootV_mem_supportT T1))
          rw [hcm2, hcm1, blacken_blacken, blacken_mem hmem]
          intro h; cases h
        · exact hcov2 v' hv'
    · obtain ⟨TS', hdf2, hcm2, hwh2, hnd2, hig2, hcnt2, hrng2, hcov2⟩ :=
        ihs cm hvs' hwc
      rw [startSweep_cons_nonwhite vs hwhite]
      refine ⟨TS', hdf2, hcm2, hwh2, hnd2, ?_, hcnt2, hrng2, ?_⟩
      · intro T hT
        obtain ⟨hig, hmem⟩ := hig2 T hT
        exact ⟨hig, List.mem_cons_of_mem _ hmem⟩
      · intro v' hv'
        rcases List.mem_cons.mp hv' with rfl | hv'
        · rw [hcm2]
          by_cases hmem : v' ∈ supportF TS'
          · rw [blacken_mem hmem]; intro h; cases h
          · rw [blacken_not_mem hmem]; exact hwhite
        · exact hcov2 v' hv'

theorem whiteCount_init (g : Graph) :
    whiteCount g (fun _ => Color.kWhite) = g.vertices_.length := by
  apply List.countP_eq_length.mpr
  intro v _
  simp

theorem dfSeq_initEvents (l : List Int) :
    dfSeq (l.map Event.initVertex) = [] := by
  induction l with
  | nil => rfl
  | cons x xs ih => simpa [dfSeq, isDF] using ih

theorem DFS_noStart (g : Graph) :
    DepthFirstSearch g (-1) =
      ((startSweep (DepthFirstSearchVisit g g.GetVertices.length)
          (fun _ => Color.kWhite) g.GetVertices).1,
       g.GetVertices.map Event.initVertex ++
         (startSweep (DepthFirstSearchVisit g g.GetVertices.length)
           (fun _ => Color.kWhite) g.GetVertices).2) := by
  simp [DepthFirstSearch]

theorem DFS_start (g : Graph) {start : Int} (h : start ≠ -1) :
    DepthFirstSearch g start =
      ((startSweep (DepthFirstSearchVisit g g.GetVertices.length)
          (DepthFirstSearchVisit g g.GetVertices.length
            (fun _ => Color.kWhite) start).1
          g.GetVertices).1,
       g.GetVertices.map Event.initVertex ++
         (Event.startVertex start ::
           (DepthFirstSearchVisit g g.GetVertices.length
             (fun _ => Color.kWhite) start).2) ++
         (startSweep (DepthFirstSearchVisit g g.GetVertices.length)
           (DepthFirstSearchVisit g g.GetVertices.length
             (fun _ => Color.kWhite) start).1
           g.GetVertices).2) := by
  simp [DepthFirstSearch, h]

theorem count_examine_initEvents (l : List Int) (e0 : Edge) :
    (l.map Event.initVertex).count (Event.examineEdge e0) = 0 := by
  apply List.count_eq_zero.mpr
  intro h
  obtain ⟨v, _, hv⟩ := List.mem_map.mp h
  cases hv

/-- Decomposition of a full `DepthFirstSearch` run: its discover/finish
subsequence is the Euler tour of a traversal forest whose support is
exactly the vertex set, without duplicates; every parent/child pair of the
forest is a graph edge; every outgoing edge of every vertex is examined
exactly once; every event only mentions in-range vertices; and when an
explicit start is given, the first traversal tree is rooted at it. -/
theorem run_decomposition (g : Graph) (hWF : WFGraph g) (start : Int)
    (hstart : start = -1 ∨ start ∈ g.vertices_) :
    ∃ TS : List STree,
      dfSeq (DepthFirstSearch g start).2 = eulerForest TS ∧
      (∀ u, u ∈ supportF TS ↔ u ∈ g.vertices_) ∧
      (supportF TS).Nodup ∧
      (∀ T ∈ TS, inGraphT g T) ∧
      (∀ e0 : Edge,
        (DepthFirstSearch g start).2.count (Event.examineEdge e0) =
          ((supportF TS).map fun u => (g.GetOutgoingEdges u).count e0).sum) ∧
      (∀ ev ∈ (DepthFirstSearch g start).2, eventInRange g.vertices_ ev) ∧
      (DepthFirstSearch g start).1 =
        blacken (supportF TS) (fun _ => Color.kWhite) ∧
      (start ≠ -1 → ∃ T TS', TS = T :: TS' ∧ T.rootV = start) := by
  by_cases hne : start = -1
  · subst hne
    obtain ⟨TS, hdf, hcm, hwh, hnd, hig, hcnt, hrng, hcov⟩ :=
      sweepE1 g hWF g.GetVertices.length g.GetVertices (fun _ => Color.kWhite)
        (fun v h => h) (le_of_eq (whiteCount_init g))
    rw [DFS_noStart]
    refine ⟨TS, ?_, ?_, hnd, fun T hT => (hig T hT).1, ?_, ?_, hcm, ?_⟩
    · rw [dfSeq_append, dfSeq_initEvents, hdf, List.nil_append]
    · intro u
      constructor
      · exact fun h => (hwh u h).2
      · intro hu
        by_contra hmem
        apply hcov u hu
        rw [hcm, blacken_not_mem hmem]
    · intro e0
      rw [List.count_append, count_examine_initEvents, hcnt e0, Nat.zero_add]
    · intro ev hev
      rcases List.mem_append.mp hev with hev | hev
      · obtain ⟨v, hv, rfl⟩ := List.mem_map.mp hev
        exact hv
      · exact hrng ev hev
    · exact fun h => absurd rfl h
  · rcases hstart with h | hs
    · exact absurd h hne
    have hwc0 : whiteCount g (fun _ => Color.kWhite) ≤ g.GetVertices.length :=
      le_of_eq (whiteCount_init g)
    obtain ⟨T0, hroot, hdf1, hcm1, hwh1, hnd1, hig1, hcnt1, hrng1⟩ :=
      visitE1 g hWF g.GetVertices.length (fun _ => Color.kWhite) start hs
        rfl hwc0
    have hwc1 : whiteCount g
        (DepthFirstSearchVisit g g.GetVertices.length
          (fun _ => Color.kWhite) start).1 ≤ g.GetVertices.length :=
      le_trans (visit_whiteCount_le g _ _ _) hwc0
    obtain ⟨TS', hdf2, hcm2, hwh2, hnd2, hig2, hcnt2, hrng2, hcov2⟩ :=
      sweepE1 g hWF g.GetVertices.length g.GetVertices _ (fun v h => h) hwc1
    rw [DFS_start g hne]
    refine ⟨T0 :: TS', ?_, ?_, ?_, ?_, ?_, ?_, ?_, ?_⟩
    · rw [eulerForest_cons, ← hdf1, ← hdf2, dfSeq_append, dfSeq_append,
        dfSeq_initEvents]
      simp [dfSeq, isDF]
    · intro u
      rw [supportF_cons]
      constructor
      · intro h
        rcases List.mem_append.mp h with h | h
        · exact (hwh1 u h).2
        · exact (hwh2 u h).2
      · intro hu
        by_contra hmem
        apply hcov2 u hu
        rw [hcm2, hcm1, blacken_blacken, blacken_not_mem hmem]
    · rw [supportF_cons]
      refine List.Nodup.append hnd1 hnd2 ?_
      intro u hu1 hu2
      have hw := (hwh2 u hu2).1
      rw [hcm1, blacken_mem hu1] at hw
      cases hw
    · intro T hT
      rcases List.mem_cons.mp hT with rfl | hT
      · exact hig1
      · exact (hig2 T hT).1
    · intro e0
      rw [supportF_cons]
      have h1 := hcnt1 e0
      have h2 := hcnt2 e0
      simp [List.count_append, List.count_cons, h1, h2, List.map_append,
        count_examine_initEvents]
    · intro ev hev
      rcases List.mem_append.mp hev with hev | hev
      · rcases List.mem_append.mp hev with hev | hev
        · obtain ⟨v, hv, rfl⟩ := List.mem_map.mp hev
          exact hv
        · rcases List.mem_cons.mp hev with rfl | hev
          · exact hs
          · exact hrng1 ev hev
      · exact hrng2 ev hev
    · rw [hcm2, hcm1, blacken_blacken, ← supportF_cons]
    · exact fun _ => ⟨T0, TS', rfl, hroot⟩

/-! ## Euler-tour counting and membership -/

mutual

theorem count_discover_tour (u : Int) (T : STree) :
    (eulerTour T).count (Event.discoverVertex u) = (supportT T).count u := by
  cases T with
  | node r ts =>
    rw [eulerTour_node, supportT_node]
    by_cases hr : r = u <;>
      simp [List.count_cons, List.count_append, hr,
        count_discover_forest u ts]

theorem count_discover_forest (u : Int) (TS : List STree) :
    (eulerForest TS).count (Event.discoverVertex u) = (supportF TS).count u := by
  cases TS with
  | nil => simp [eulerForest, supportF]
  | cons t ts =>
    rw [eulerForest_cons, supportF_cons]
    simp [List.count_append, count_discover_tour u t, count_discover_forest u ts]

end

mutual

theorem count_finish_tour (u : Int) (T : STree) :
    (eulerTour T).count (Event.finishVertex u) = (supportT T).count u := by
  cases T with
  | node r ts =>
    rw [eulerTour_node, supportT_node]
    by_cases hr : r = u <;>
      simp [List.count_cons, List.count_append, hr,
        count_finish_forest u ts]

theorem count_finish_forest (u : Int) (TS : List STree) :
    (eulerForest TS).count (Event.finishVertex u) = (supportF TS).count u := by
  cases TS with
  | nil => simp [eulerForest, supportF]
  | cons t ts =>
    rw [eulerForest_cons, supportF_cons]
    simp [List.count_append, count_finish_tour u t, count_finish_forest u ts]

end

theorem mem_discover_tour {u : Int} {T : STree} :
    Event.discoverVertex u ∈ eulerTour T ↔ u ∈ supportT T := by
  rw [← List.count_pos_iff_mem, ← List.count_pos_iff_mem, count_discover_tour]

theorem mem_discover_forest {u : Int} {TS : List STree} :
    Event.discoverVertex u ∈ eulerForest TS ↔ u ∈ supportF TS := by
  rw [← List.count_pos_iff_mem, ← List.count_pos_iff_mem, count_discover_forest]

theorem mem_finish_tour {u : Int} {T : STree} :
    Event.finishVertex u ∈ eulerTour T ↔ u ∈ supportT T := by
  rw [← List.count_pos_iff_mem, ← List.count_pos_iff_mem, count_finish_tour]

theorem mem_finish_forest {u : Int} {TS : List STree} :
    Event.finishVertex u ∈ eulerForest TS ↔ u ∈ supportF TS := by
  rw [← List.count_pos_iff_mem, ← List.count_pos_iff_mem, count_finish_forest]

mutual

theorem length_tour (T : STree) :
    (eulerTour T).length = 2 * (supportT T).length := by
  cases T with
  | node r ts =>
    rw [eulerTour_node, supportT_node]
    simp [length_forest ts]
    omega

theorem length_forest (TS : List STree) :
    (eulerForest TS).length = 2 * (supportF TS).length := by
  cases TS with
  | nil => simp [eulerForest, supportF]
  | cons t ts =>
    rw [eulerForest_cons, supportF_cons]
    simp [length_tour t, length_forest ts]
    omega

end

/-! ## Positions inside Euler tours -/

theorem mem_supportT_cases {u r : Int} {ts : List STree}
    (h : u ∈ supportT (STree.node r ts)) : u = r ∨ u ∈ supportF ts := by
  rw [supportT_node] at h
  exact List.mem_cons.mp h

theorem mem_supportF_cases {u : Int} {t : STree} {ts : List STree}
    (h : u ∈ supportF (t :: ts)) : u ∈ supportT t ∨ u ∈ supportF ts := by
  rw [supportF_cons] at h
  exact List.mem_append.mp h

theorem descT_node {a v r : Int} {ts : List STree} :
    descT a v (STree.node r ts) ↔
      (a = r ∧ (v = r ∨ v ∈ supportF ts)) ∨ descF a v ts := by
  simp [descT]

theorem descF_cons {a v : Int} {t : STree} {ts : List STree} :
    descF a v (t :: ts) ↔ descT a v t ∨ descF a v ts := by
  simp [descF]

theorem descF_nil {a v : Int} : ¬descF a v [] := by
  simp [descF]

theorem pos_tour_root_d (r : Int) (ts : List STree) :
    pos (eulerTour (STree.node r ts)) (Event.discoverVertex r) = 0 := by
  rw [eulerTour_node, List.cons_append]
  exact pos_cons_self _ _

theorem pos_tour_root_f {r : Int} {ts : List STree} (h : r ∉ supportF ts) :
    pos (eulerTour (STree.node r ts)) (Event.finishVertex r) =
      (eulerForest ts).length + 1 := by
  rw [eulerTour_node, List.cons_append,
    pos_cons_ne (Event.discoverVertex r) (Event.finishVertex r) _ (by simp),
    pos_append_of_not_mem _ (fun hm => h (mem_finish_forest.mp hm)),
    pos_cons_self]

theorem pos_tour_sub_d {r u : Int} {ts : List STree} (hne : u ≠ r)
    (hmem : u ∈ supportF ts) :
    pos (eulerTour (STree.node r ts)) (Event.discoverVertex u) =
      pos (eulerForest ts) (Event.discoverVertex u) + 1 := by
  rw [eulerTour_node, List.cons_append,
    pos_cons_ne (Event.discoverVertex r) (Event.discoverVertex u) _
      (by simp; exact fun h => hne h.symm),
    pos_append_of_mem _ (mem_discover_forest.mpr hmem)]

theorem pos_tour_sub_f {r u : Int} {ts : List STree} (hmem : u ∈ supportF ts) :
    pos (eulerTour (STree.node r ts)) (Event.finishVertex u) =
      pos (eulerForest ts) (Event.finishVertex u) + 1 := by
  rw [eulerTour_node, List.cons_append,
    pos_cons_ne (Event.discoverVertex r) (Event.finishVertex u) _ (by simp),
    pos_append_of_mem _ (mem_finish_forest.mpr hmem)]

theorem pos_forest_here_d {t : STree} (ts : List STree) {u : Int}
    (hmem : u ∈ supportT t) :
    pos (eulerForest (t :: ts)) (Event.discoverVertex u) =
      pos (eulerTour t) (Event.discoverVertex u) := by
  rw [eulerForest_cons, pos_append_of_mem _ (mem_discover_tour.mpr hmem)]

theorem pos_forest_here_f {t : STree} (ts : List STree) {u : Int}
    (hmem : u ∈ supportT t) :
    pos (eulerForest (t :: ts)) (Event.finishVertex u) =
      pos (eulerTour t) (Event.finishVertex u) := by
  rw [eulerForest_cons, pos_append_of_mem _ (mem_finish_tour.mpr hmem)]

theorem pos_forest_there_d {t : STree} (ts : List STree) {u : Int}
    (hmem : u ∉ supportT t) :
    pos (eulerForest (t :: ts)) (Event.discoverVertex u) =
      (eulerTour t).length + pos (eulerForest ts) (Event.discoverVertex u) := by
  rw [eulerForest_cons,
    pos_append_of_not_mem _ (fun hm => hmem (mem_discover_tour.mp hm))]

theorem pos_forest_there_f {t : STree} (ts : List STree) {u : Int}
    (hmem : u ∉ supportT t) :
    pos (eulerForest (t :: ts)) (Event.finishVertex u) =
      (eulerTour t).length + pos (eulerForest ts) (Event.finishVertex u) := by
  rw [eulerForest_cons,
    pos_append_of_not_mem _ (fun hm => hmem (mem_finish_tour.mp hm))]

mutual

theorem tour_d_lt_f {u : Int} (T : STree) (hnd : (supportT T).Nodup)
    (hmem : u ∈ supportT T) :
    pos (eulerTour T) (Event.discoverVertex u) <
      pos (eulerTour T) (Event.finishVertex u) := by
  cases T with
  | node r ts =>
    rw [supportT_node] at hnd hmem
    obtain ⟨hr, hnd'⟩ := List.nodup_cons.mp hnd
    rcases List.mem_cons.mp hmem with rfl | hmem
    · rw [pos_tour_root_d, pos_tour_root_f hr]
      omega
    · have hne : u ≠ r := fun h => hr (h ▸ hmem)
      rw [pos_tour_sub_d hne hmem, pos_tour_sub_f hmem]
      have := forest_d_lt_f ts hnd' hmem
      omega

theorem forest_d_lt_f {u : Int} (TS : List STree) (hnd : (supportF TS).Nodup)
    (hmem : u ∈ supportF TS) :
    pos (eulerForest TS) (Event.discoverVertex u) <
      pos (eulerForest TS) (Event.finishVertex u) := by
  cases TS with
  | nil => rw [supportF] at hmem; cases hmem
  | cons t ts =>
    rw [supportF_cons] at hnd hmem
    obtain ⟨hnd1, hnd2, hdisj⟩ := List.nodup_append.mp hnd
    rcases List.mem_append.mp hmem with hmem | hmem
    · rw [pos_forest_here_d ts hmem, pos_forest_here_f ts hmem]
      exact tour_d_lt_f t hnd1 hmem
    · have hnt : u ∉ supportT t := fun h => hdisj h hmem
      rw [pos_forest_there_d ts hnt, pos_forest_there_f ts hnt]
      have := forest_d_lt_f ts hnd2 hmem
      omega

end

mutual

theorem descT_mem {a v : Int} {T : STree} (h : descT a v T) :
    a ∈ supportT T ∧ v ∈ supportT T := by
  cases T with
  | node r ts =>
    rw [supportT_node]
    rcases descT_node.mp h with ⟨rfl, hv⟩ | h
    · refine ⟨List.mem_cons_self _ _, ?_⟩
      rcases hv with rfl | hv
      · exact List.mem_cons_self _ _
      · exact List.mem_cons_of_mem _ hv
    · obtain ⟨ha, hv⟩ := descF_mem h
      exact ⟨List.mem_cons_of_mem _ ha, List.mem_cons_of_mem _ hv⟩

theorem descF_mem {a v : Int} {TS : List STree} (h : descF a v TS) :
    a ∈ supportF TS ∧ v ∈ supportF TS := by
  cases TS with
  | nil => exact absurd h descF_nil
  | cons t ts =>
    rw [supportF_cons]
    rcases descF_cons.mp h with h | h
    · obtain ⟨ha, hv⟩ := descT_mem h
      exact ⟨List.mem_append.mpr (Or.inl ha), List.mem_append.mpr (Or.inl hv)⟩
    · obtain ⟨ha, hv⟩ := descF_mem h
      exact ⟨List.mem_append.mpr (Or.inr ha), List.mem_append.mpr (Or.inr hv)⟩

end

mutual

theorem descT_refl {v : Int} {T : STree} (h : v ∈ supportT T) : descT v v T := by
  cases T with
  | node r ts =>
    rcases mem_supportT_cases h with rfl | h
    · exact descT_node.mpr (Or.inl ⟨rfl, Or.inl rfl⟩)
    · exact descT_node.mpr (Or.inr (descF_refl h))

theorem descF_refl {v : Int} {TS : List STree} (h : v ∈ supportF TS) :
    descF v v TS := by
  cases TS with
  | nil => rw [supportF] at h; cases h
  | cons t ts =>
    rcases mem_supportF_cases h with h | h
    · exact descF_cons.mpr (Or.inl (descT_refl h))
    · exact descF_cons.mpr (Or.inr (descF_refl h))

end

mutual

theorem descT_pos {a v : Int} (T : STree) (hnd : (supportT T).Nodup)
    (h : descT a v T) :
    pos (eulerTour T) (Event.discoverVertex a) ≤
      pos (eulerTour T) (Event.discoverVertex v) ∧
    pos (eulerTour T) (Event.finishVertex v) ≤
      pos (eulerTour T) (Event.finishVertex a) := by
  cases T with
  | node r ts =>
    have hnd' : (supportF ts).Nodup :=
      (List.nodup_cons.mp (by rwa [supportT_node] at hnd)).2
    have hr : r ∉ supportF ts :=
      (List.nodup_cons.mp (by rwa [supportT_node] at hnd)).1
    rcases descT_node.mp h with ⟨rfl, hv⟩ | hdf
    · constructor
      · rw [pos_tour_root_d]
        omega
      · have hvm : v ∈ supportT (STree.node a ts) := by
          rw [supportT_node]
          rcases hv with rfl | hv
          · exact List.mem_cons_self _ _
          · exact List.mem_cons_of_mem _ hv
        have hlt := pos_lt_length (mem_finish_tour.mpr hvm)
        have hlen : (eulerTour (STree.node a ts)).length =
            (eulerForest ts).length + 2 := by
          rw [eulerTour_node]
          simp
        rw [pos_tour_root_f hr]
        omega
    · obtain ⟨ha, hv⟩ := descF_mem hdf
      have hane : a ≠ r := fun hh => hr (hh ▸ ha)
      have hvne : v ≠ r := fun hh => hr (hh ▸ hv)
      rw [pos_tour_sub_d hane ha, pos_tour_sub_d hvne hv,
        pos_tour_sub_f ha, pos_tour_sub_f hv]
      have := descF_pos ts hnd' hdf
      omega

theorem descF_pos {a v : Int} (TS : List STree) (hnd : (supportF TS).Nodup)
    (h : descF a v TS) :
    pos (eulerForest TS) (Event.discoverVertex a) ≤
      pos (eulerForest TS) (Event.discoverVertex v) ∧
    pos (eulerForest TS) (Event.finishVertex v) ≤
      pos (eulerForest TS) (Event.finishVertex a) := by
  cases TS with
  | nil => exact absurd h descF_nil
  | cons t ts =>
    rw [supportF_cons] at hnd
    obtain ⟨hnd1, hnd2, hdisj⟩ := List.nodup_append.mp hnd
    rcases descF_cons.mp h with hdt | hdf
    · obtain ⟨ha, hv⟩ := descT_mem hdt
      rw [pos_forest_here_d ts ha, pos_forest_here_d ts hv,
        pos_forest_here_f ts ha, pos_forest_here_f ts hv]
      exact descT_pos t hnd1 hdt
    · obtain ⟨ha, hv⟩ := descF_mem hdf
      have hat : a ∉ supportT t := fun hh => hdisj hh ha
      have hvt : v ∉ supportT t := fun hh => hdisj hh hv
      rw [pos_forest_there_d ts hat, pos_forest_there_d ts hvt,
        pos_forest_there_f ts hat, pos_forest_there_f ts hvt]
      have := descF_pos ts hnd2 hdf
      omega

end

mutual

theorem pos_descT {a v : Int} (T : STree) (hnd : (supportT T).Nodup)
    (ha : a ∈ supportT T) (hv : v ∈ supportT T)
    (h1 : pos (eulerTour T) (Event.discoverVertex a) ≤
      pos (eulerTour T) (Event.discoverVertex v))
    (h2 : pos (eulerTour T) (Event.finishVertex v) ≤
      pos (eulerTour T) (Event.finishVertex a)) :
    descT a v T := by
  cases T with
  | node r ts =>
    have hnd' : (supportF ts).Nodup :=
      (List.nodup_cons.mp (by rwa [supportT_node] at hnd)).2
    have hr : r ∉ supportF ts :=
      (List.nodup_cons.mp (by rwa [supportT_node] at hnd)).1
    by_cases har : a = r
    · subst har
      refine descT_node.mpr (Or.inl ⟨rfl, ?_⟩)
      exact mem_supportT_cases hv
    · have ha' : a ∈ supportF ts := by
        rcases mem_supportT_cases ha with h | h
        · exact absurd h har
        · exact h
      by_cases hvr : v = r
      · subst hvr
        rw [pos_tour_root_d, pos_tour_sub_d har ha'] at h1
        omega
      · have hv' : v ∈ supportF ts := by
          rcases mem_supportT_cases hv with h | h
          · exact absurd h hvr
          · exact h
        rw [pos_tour_sub_d har ha', pos_tour_sub_d hvr hv'] at h1
        rw [pos_tour_sub_f hv', pos_tour_sub_f ha'] at h2
        exact descT_node.mpr (Or.inr (pos_descF ts hnd' ha' hv'
          (by omega) (by omega)))

theorem pos_descF {a v : Int} (TS : List STree) (hnd : (supportF TS).Nodup)
    (ha : a ∈ supportF TS) (hv : v ∈ supportF TS)
    (h1 : pos (eulerForest TS) (Event.discoverVertex a) ≤
      pos (eulerForest TS) (Event.discoverVertex v))
    (h2 : pos (eulerForest TS) (Event.finishVertex v) ≤
      pos (eulerForest TS) (Event.finishVertex a)) :
    descF a v TS := by
  cases TS with
  | nil => rw [supportF] at ha; cases ha
  | cons t ts =>
    rw [supportF_cons] at hnd
    obtain ⟨hnd1, hnd2, hdisj⟩ := List.nodup_append.mp hnd
    have ha2 : a ∈ supportT t ∨ a ∈ supportF ts :=
      mem_supportF_cases ha
    have hv2 : v ∈ supportT t ∨ v ∈ supportF ts :=
      mem_supportF_cases hv
    rcases ha2 with ha' | ha' <;> rcases hv2 with hv' | hv'
    · rw [pos_forest_here_d ts ha', pos_forest_here_d ts hv'] at h1
      rw [pos_forest_here_f ts hv', pos_forest_here_f ts ha'] at h2
      exact descF_cons.mpr (Or.inl (pos_descT t hnd1 ha' hv' h1 h2))
    · -- a in the first tree, v in a later tree: the second inequality fails
      have hvt : v ∉ supportT t := fun hh => hdisj hh hv'
      rw [pos_forest_there_f ts hvt, pos_forest_here_f ts ha'] at h2
      have := pos_lt_length (mem_finish_tour.mpr ha')
      omega
    · -- v in the first tree, a in a later tree: the first inequality fails
      have hat : a ∉ supportT t := fun hh => hdisj hh ha'
      rw [pos_forest_there_d ts hat, pos_forest_here_d ts hv'] at h1
      have := pos_lt_length (mem_discover_tour.mpr hv')
      omega
    · have hat : a ∉ supportT t := fun hh => hdisj hh ha'
      have hvt : v ∉ supportT t := fun hh => hdisj hh hv'
      rw [pos_forest_there_d ts hat, pos_forest_there_d ts hvt] at h1
      rw [pos_forest_there_f ts hvt, pos_forest_there_f ts hat] at h2
      exact descF_cons.mpr (Or.inr (pos_descF ts hnd2 ha' hv'
        (by omega) (by omega)))

end

mutual

theorem nondesc_disjoint_T {a v : Int} (T : STree) (hnd : (supportT T).Nodup)
    (ha : a ∈ supportT T) (hv : v ∈ supportT T)
    (h1 : ¬descT a v T) (h2 : ¬descT v a T) :
    pos (eulerTour T) (Event.finishVertex a) <
      pos (eulerTour T) (Event.discoverVertex v) ∨
    pos (eulerTour T) (Event.finishVertex v) <
      pos (eulerTour T) (Event.discoverVertex a) := by
  cases T with
  | node r ts =>
    have hnd' : (supportF ts).Nodup :=
      (List.nodup_cons.mp (by rwa [supportT_node] at hnd)).2
    have hr : r ∉ supportF ts :=
      (List.nodup_cons.mp (by rwa [supportT_node] at hnd)).1
    by_cases har : a = r
    · subst har
      exact absurd (descT_node.mpr (Or.inl ⟨rfl,
        mem_supportT_cases hv⟩)) h1
    · by_cases hvr : v = r
      · subst hvr
        exact absurd (descT_node.mpr (Or.inl ⟨rfl,
          mem_supportT_cases ha⟩)) h2
      · have ha' : a ∈ supportF ts := by
          rcases mem_supportT_cases ha with h | h
          · exact absurd h har
          · exact h
        have hv' : v ∈ supportF ts := by
          rcases mem_supportT_cases hv with h | h
          · exact absurd h hvr
          · exact h
        rw [pos_tour_sub_d har ha', pos_tour_sub_d hvr hv',
          pos_tour_sub_f ha', pos_tour_sub_f hv']
        have := nondesc_disjoint_F ts hnd' ha' hv'
          (fun h => h1 (descT_node.mpr (Or.inr h)))
          (fun h => h2 (descT_node.mpr (Or.inr h)))
        omega

theorem nondesc_disjoint_F {a v : Int} (TS : List STree)
    (hnd : (supportF TS).Nodup)
    (ha : a ∈ supportF TS) (hv : v ∈ supportF TS)
    (h1 : ¬descF a v TS) (h2 : ¬descF v a TS) :
    pos (eulerForest TS) (Event.finishVertex a) <
      pos (eulerForest TS) (Event.discoverVertex v) ∨
    pos (eulerForest TS) (Event.finishVertex v) <
      pos (eulerForest TS) (Event.discoverVertex a) := by
  cases TS with
  | nil => rw [supportF] at ha; cases ha
  | cons t ts =>
    rw [supportF_cons] at hnd
    obtain ⟨hnd1, hnd2, hdisj⟩ := List.nodup_append.mp hnd
    have ha2 : a ∈ supportT t ∨ a ∈ supportF ts :=
      mem_supportF_cases ha
    have hv2 : v ∈ supportT t ∨ v ∈ supportF ts :=
      mem_supportF_cases hv
    rcases ha2 with ha' | ha' <;> rcases hv2 with hv' | hv'
    · rw [pos_forest_here_d ts hv', pos_forest_here_d ts ha',
        pos_forest_here_f ts ha', pos_forest_here_f ts hv']
      exact nondesc_disjoint_T t hnd1 ha' hv'
        (fun h => h1 (descF_cons.mpr (Or.inl h)))
        (fun h => h2 (descF_cons.mpr (Or.inl h)))
    · left
      have hvt : v ∉ supportT t := fun hh => hdisj hh hv'
      rw [pos_forest_there_d ts hvt, pos_forest_here_f ts ha']
      have := pos_lt_length (mem_finish_tour.mpr ha')
      omega
    · right
      have hat : a ∉ supportT t := fun hh => hdisj hh ha'
      rw [pos_forest_there_d ts hat, pos_forest_here_f ts hv']
      have := pos_lt_length (mem_finish_tour.mpr hv')
      omega
    · have hat : a ∉ supportT t := fun hh => hdisj hh ha'
      have hvt : v ∉ supportT t := fun hh => hdisj hh hv'
      rw [pos_forest_there_d ts hat, pos_forest_there_d ts hvt,
        pos_forest_there_f ts hat, pos_forest_there_f ts hvt]
      have := nondesc_disjoint_F ts hnd2 ha' hv'
        (fun h => h1 (descF_cons.mpr (Or.inr h)))
        (fun h => h2 (descF_cons.mpr (Or.inr h)))
      omega

end

/-! ## The timestamp visitor as a function of the trace -/

theorem visitorStep_nondf {s : TimeDFSVisitor} {e : Event} (h : isDF e = false) :
    visitorStep s e = s := by
  cases e <;> simp [visitorStep] <;> cases h

theorem visitorStep_timer {s : TimeDFSVisitor} {e : Event} (h : isDF e = true) :
    (visitorStep s e).timer = s.timer + 1 := by
  cases e <;> simp [visitorStep] <;> cases h

theorem foldl_visitor_dfSeq :
    ∀ (l : List Event) (s : TimeDFSVisitor),
      l.foldl visitorStep s = (dfSeq l).foldl visitorStep s := by
  intro l
  induction l with
  | nil => intro s; rfl
  | cons e l ih =>
    intro s
    cases he : isDF e
    · rw [List.foldl_cons, visitorStep_nondf he, dfSeq_cons_nondf he, ih]
    · rw [List.foldl_cons, dfSeq_cons_df he, List.foldl_cons, ih]

theorem foldl_time_in_not_mem :
    ∀ (l : List Event) (s : TimeDFSVisitor) (v : Int),
      Event.discoverVertex v ∉ l →
      (l.foldl visitorStep s).time_in v = s.time_in v := by
  intro l
  induction l with
  | nil => intro s v _; rfl
  | cons e l ih =>
    intro s v h
    rw [List.foldl_cons, ih _ _ (fun hm => h (List.mem_cons_of_mem _ hm))]
    cases e with
    | discoverVertex u =>
      have : v ≠ u := by
        rintro rfl
        exact h (List.mem_cons_self _ _)
      simp [visitorStep, this]
    | finishVertex u => simp [visitorStep]
    | initVertex u => rfl
    | startVertex u => rfl
    | examineEdge e => rfl
    | treeEdge e => rfl
    | backEdge e => rfl
    | forwardOrCrossEdge e => rfl
    | finishEdge e => rfl

theorem foldl_time_out_not_mem :
    ∀ (l : List Event) (s : TimeDFSVisitor) (v : Int),
      Event.finishVertex v ∉ l →
      (l.foldl visitorStep s).time_out v = s.time_out v := by
  intro l
  induction l with
  | nil => intro s v _; rfl
  | cons e l ih =>
    intro s v h
    rw [List.foldl_cons, ih _ _ (fun hm => h (List.mem_cons_of_mem _ hm))]
    cases e with
    | finishVertex u =>
      have : v ≠ u := by
        rintro rfl
        exact h (List.mem_cons_self _ _)
      simp [visitorStep, this]
    | discoverVertex u => simp [visitorStep]
    | initVertex u => rfl
    | startVertex u => rfl
    | examineEdge e => rfl
    | treeEdge e => rfl
    | backEdge e => rfl
    | forwardOrCrossEdge e => rfl
    | finishEdge e => rfl

theorem foldl_time_in_pos :
    ∀ (l : List Event) (s : TimeDFSVisitor) (v : Int),
      (∀ ev ∈ l, isDF ev = true) →
      l.count (Event.discoverVertex v) = 1 →
      (l.foldl visitorStep s).time_in v =
        s.timer + pos l (Event.discoverVertex v) := by
  intro l
  induction l with
  | nil => intro s v _ hc; cases hc
  | cons e l ih =>
    intro s v hdf hc
    by_cases he : e = Event.discoverVertex v
    · subst he
      have hnot : Event.discoverVertex v ∉ l := by
        rw [← List.count_eq_zero]
        have := List.count_cons_self (Event.discoverVertex v) l
        omega
      rw [List.foldl_cons, foldl_time_in_not_mem l _ v hnot, pos_cons_self]
      simp [visitorStep]
    · have hc' : l.count (Event.discoverVertex v) = 1 := by
        rw [List.count_cons] at hc
        simpa [he] using hc
      rw [List.foldl_cons, pos_cons_ne _ _ _ he,
        ih _ v (fun ev hm => hdf ev (List.mem_cons_of_mem _ hm)) hc',
        visitorStep_timer (hdf e (List.mem_cons_self _ _))]
      omega

theorem foldl_time_out_pos :
    ∀ (l : List Event) (s : TimeDFSVisitor) (v : Int),
      (∀ ev ∈ l, isDF ev = true) →
      l.count (Event.finishVertex v) = 1 →
      (l.foldl visitorStep s).time_out v =
        s.timer + pos l (Event.finishVertex v) := by
  intro l
  induction l with
  | nil => intro s v _ hc; cases hc
  | cons e l ih =>
    intro s v hdf hc
    by_cases he : e = Event.finishVertex v
    · subst he
      have hnot : Event.finishVertex v ∉ l := by
        rw [← List.count_eq_zero]
        have := List.count_cons_self (Event.finishVertex v) l
        omega
      rw [List.foldl_cons, foldl_time_out_not_mem l _ v hnot, pos_cons_self]
      simp [visitorStep]
    · have hc' : l.count (Event.finishVertex v) = 1 := by
        rw [List.count_cons] at hc
        simpa [he] using hc
      rw [List.foldl_cons, pos_cons_ne _ _ _ he,
        ih _ v (fun ev hm => hdf ev (List.mem_cons_of_mem _ hm)) hc',
        visitorStep_timer (hdf e (List.mem_cons_self _ _))]
      omega

theorem mem_dfSeq_all (tr : List Event) : ∀ ev ∈ dfSeq tr, isDF ev = true := by
  intro ev h
  exact (List.mem_filter.mp h).2

theorem runVisitor_time_in {tr : List Event} {v : Int}
    (h : (dfSeq tr).count (Event.discoverVertex v) = 1) :
    (runVisitor tr).time_in v = pos (dfSeq tr) (Event.discoverVertex v) := by
  rw [runVisitor, foldl_visitor_dfSeq,
    foldl_time_in_pos (dfSeq tr) TimeDFSVisitor.new v (mem_dfSeq_all tr) h]
  simp [TimeDFSVisitor.new]

theorem runVisitor_time_out {tr : List Event} {v : Int}
    (h : (dfSeq tr).count (Event.finishVertex v) = 1) :
    (runVisitor tr).time_out v = pos (dfSeq tr) (Event.finishVertex v) := by
  rw [runVisitor, foldl_visitor_dfSeq,
    foldl_time_out_pos (dfSeq tr) TimeDFSVisitor.new v (mem_dfSeq_all tr) h]
  simp [TimeDFSVisitor.new]

theorem runVisitor_time_in_zero {tr : List Event} {v : Int}
    (h : Event.discoverVertex v ∉ tr) :
    (runVisitor tr).time_in v = 0 := by
  rw [runVisitor, foldl_time_in_not_mem tr TimeDFSVisitor.new v h]
  rfl

theorem runVisitor_time_out_zero {tr : List Event} {v : Int}
    (h : Event.finishVertex v ∉ tr) :
    (runVisitor tr).time_out v = 0 := by
  rw [runVisitor, foldl_time_out_not_mem tr TimeDFSVisitor.new v h]
  rfl

/-! ## The driver's graph construction -/

theorem foldl_readParent_vertices (l : List (Nat × Nat)) (acc : Graph × Int) :
    ((l.foldl readParent acc).1).vertices_ = acc.1.vertices_ := by
  induction l generalizing acc with
  | nil => rfl
  | cons iv l ih =>
    rw [List.foldl_cons, ih]
    by_cases h : iv.2 = 0 <;> simp [readParent, h, Graph.AddEdge]

theorem foldl_readParent_out (l : List (Nat × Nat)) (acc : Graph × Int) (q : Int) :
    ((l.foldl readParent acc).1).outgoing_edges_ q =
      acc.1.outgoing_edges_ q ++
      (l.filter (fun iv => iv.2 != 0 && (Int.ofNat (iv.2 - 1) == q))).map
        (fun iv => (⟨q, Int.ofNat iv.1⟩ : Edge)) := by
  induction l generalizing acc with
  | nil => simp
  | cons iv l ih =>
    rw [List.foldl_cons]
    by_cases h : iv.2 = 0
    · have hskip : readParent acc iv = (acc.1, Int.ofNat iv.1) := by
        simp [readParent, h]
      rw [hskip, ih]
      simp [List.filter_cons, h]
    · have hadd : readParent acc iv =
          (acc.1.AddEdge ⟨Int.ofNat (iv.2 - 1), Int.ofNat iv.1⟩, acc.2) := by
        simp [readParent, h]
      rw [hadd, ih]
      by_cases hq : Int.ofNat (iv.2 - 1) = q
      · subst hq
        have hout : (acc.1.AddEdge
              ⟨Int.ofNat (iv.2 - 1), Int.ofNat iv.1⟩).outgoing_edges_
              (Int.ofNat (iv.2 - 1)) =
            acc.1.outgoing_edges_ (Int.ofNat (iv.2 - 1)) ++
              [⟨Int.ofNat (iv.2 - 1), Int.ofNat iv.1⟩] := by
          simp [Graph.AddEdge]
        rw [hout]
        simp [List.filter_cons, h, List.append_assoc]
      · have hout : (acc.1.AddEdge
              ⟨Int.ofNat (iv.2 - 1), Int.ofNat iv.1⟩).outgoing_edges_ q =
            acc.1.outgoing_edges_ q := by
          show (if q = Int.ofNat (iv.2 - 1) then _ else _) = _
          rw [if_neg (fun hcon => hq hcon.symm)]
        rw [hout]
        have hpred : (iv.2 != 0 && (Int.ofNat (iv.2 - 1) == q)) = false := by
          simp [h]
          exact hq
        rw [List.filter_cons, hpred]
        simp

theorem foldl_readParent_start (l : List (Nat × Nat)) (acc : Graph × Int) :
    (l.foldl readParent acc).2 =
      (((l.filter (fun iv => iv.2 == 0)).map
        (fun iv => Int.ofNat iv.1)).getLast?).getD acc.2 := by
  induction l using List.reverseRecOn generalizing acc with
  | nil => rfl
  | append_singleton l iv ih =>
    rw [List.foldl_append, List.foldl_cons, List.foldl_nil]
    by_cases h : iv.2 = 0
    · have : readParent (l.foldl readParent acc) iv =
          ((l.foldl readParent acc).1, Int.ofNat iv.1) := by
        simp [readParent, h]
      rw [this]
      simp [List.filter_append, List.filter_cons, h]
    · have h2 : (readParent (l.foldl readParent acc) iv).2 =
          (l.foldl readParent acc).2 := by
        simp [readParent, h]
      rw [h2, ih]
      simp [List.filter_append, List.filter_cons, h]

theorem enum_filter_map_fst (l : List Nat) (Qb : Nat × Nat → Bool) (Rb : Nat → Bool)
    (h : ∀ (i : Nat) (hi : i < l.length), Qb (i, l.get ⟨i, hi⟩) = Rb i) :
    (l.enum.filter Qb).map Prod.fst = (List.range l.length).filter Rb := by
  induction l using List.reverseRecOn with
  | nil => rfl
  | append_singleton l x ih =>
    rw [List.enum_append, List.length_append, List.length_singleton,
      List.range_succ, List.filter_append, List.filter_append, List.map_append]
    congr 1
    · apply ih
      intro i hi
      have hi' : i < (l ++ [x]).length := by simp; omega
      have hg : (l ++ [x]).get ⟨i, hi'⟩ = l.get ⟨i, hi⟩ :=
        List.get_append_left l [x] hi
      have := h i hi'
      rw [hg] at this
      exact this
    · have hx : (l ++ [x]).get ⟨l.length, by simp⟩ = x := by
        simp
      have := h l.length (by simp)
      rw [hx] at this
      simp only [List.enumFrom_cons, List.enumFrom_nil]
      rw [List.filter_cons, List.filter_cons]
      simp only [List.filter_nil, this]
      cases hr : Rb l.length <;> simp

theorem driver_vertices (ps : List Nat) :
    ((buildInput ps).1).vertices_ = (List.range ps.length).map Int.ofNat := by
  rw [buildInput, foldl_readParent_vertices]
  rfl

theorem driver_out_raw (ps : List Nat) (q : Int) :
    ((buildInput ps).1).outgoing_edges_ q =
      (ps.enum.filter (fun iv => iv.2 != 0 && (Int.ofNat (iv.2 - 1) == q))).map
        (fun iv => (⟨q, Int.ofNat iv.1⟩ : Edge)) := by
  rw [buildInput, foldl_readParent_out]
  rfl

theorem parentOf_get (ps : List Nat) (i : Nat) (hi : i < ps.length) :
    parentOf ps i =
      match ps.get ⟨i, hi⟩ with
      | 0 => none
      | p + 1 => some p := by
  rw [parentOf]
  have hsome : ps[i]? = some (ps.get ⟨i, hi⟩) := by
    simp [List.getElem?_eq_getElem hi]
  rw [hsome]
  cases hx : ps.get ⟨i, hi⟩ with
  | zero => rfl
  | succ p => rfl

theorem driver_out (ps : List Nat) (p : Nat) :
    ((buildInput ps).1).outgoing_edges_ (Int.ofNat p) =
      (childList ps p).map (fun c => (⟨Int.ofNat p, Int.ofNat c⟩ : Edge)) := by
  rw [driver_out_raw, childList]
  have hmm : (ps.enum.filter
        (fun iv => iv.2 != 0 && (Int.ofNat (iv.2 - 1) == Int.ofNat p))).map
        (fun iv => (⟨Int.ofNat p, Int.ofNat iv.1⟩ : Edge)) =
      ((ps.enum.filter
        (fun iv => iv.2 != 0 && (Int.ofNat (iv.2 - 1) == Int.ofNat p))).map
        Prod.fst).map (fun c => (⟨Int.ofNat p, Int.ofNat c⟩ : Edge)) := by
    rw [List.map_map]
    rfl
  rw [hmm, enum_filter_map_fst ps _ (fun c => parentOf ps c == some p)]
  intro i hi
  rw [parentOf_get ps i hi]
  cases hx : ps.get ⟨i, hi⟩ with
  | zero => simp
  | succ y =>
    by_cases hy : y = p
    · simp [hy]
    · simp only [Nat.succ_sub_one, Option.some.injEq]
      have h1 : ((Int.ofNat y == Int.ofNat p) : Bool) = false := by
        simp
        omega
      have h2 : ((y == p) : Bool) = false := by
        simp [hy]
      simp [h1, h2]
      exact hy

theorem driver_wf (ps : List Nat) : WFGraph (buildInput ps).1 := by
  constructor
  · rw [driver_vertices]
    refine (List.nodup_range _).map ?_
    intro a b h
    exact Int.ofNat.inj h
  · intro v e he
    rw [driver_out_raw] at he
    obtain ⟨iv, hiv, rfl⟩ := List.mem_map.mp he
    refine ⟨rfl, ?_⟩
    have hmem := List.mem_filter.mp hiv
    have := List.mem_enumFrom hmem.1
    rw [driver_vertices]
    apply List.mem_map.mpr
    exact ⟨iv.1, List.mem_range.mpr (by omega), rfl⟩

theorem driver_roots_map (ps : List Nat) :
    (ps.enum.filter (fun iv => iv.2 == 0)).map (fun iv => Int.ofNat iv.1) =
      (rootList ps).map Int.ofNat := by
  have hmm : (ps.enum.filter (fun iv => iv.2 == 0)).map
        (fun iv => Int.ofNat iv.1) =
      ((ps.enum.filter (fun iv => iv.2 == 0)).map Prod.fst).map Int.ofNat := by
    rw [List.map_map]
    rfl
  rw [hmm, rootList,
    enum_filter_map_fst ps _ (fun c => (parentOf ps c).isNone)]
  intro i hi
  rw [parentOf_get ps i hi]
  cases hx : ps.get ⟨i, hi⟩ <;> simp

theorem driver_start_noRoot (ps : List Nat) (h : ∀ x ∈ ps, x ≠ 0) :
    (buildInput ps).2 = -1 := by
  rw [buildInput, foldl_readParent_start]
  have hempty : ps.enum.filter (fun iv => iv.2 == 0) = [] := by
    apply List.filter_eq_nil_iff.mpr
    intro iv hiv
    obtain ⟨h1, h2, h3⟩ := List.mem_enumFrom hiv
    have hmem : iv.2 ∈ ps := by
      rw [h3]
      exact List.getElem_mem _
    simpa using h iv.2 hmem
  rw [hempty]
  rfl

theorem driver_start_root (ps : List Nat) (r : Nat) (h : rootList ps = [r]) :
    (buildInput ps).2 = Int.ofNat r := by
  rw [buildInput, foldl_readParent_start, driver_roots_map, h]
  rfl

theorem mem_rootList {ps : List Nat} {r : Nat} (h : r ∈ rootList ps) :
    r < ps.length ∧ parentOf ps r = none := by
  have := List.mem_filter.mp h
  exact ⟨List.mem_range.mp this.1, by simpa using this.2⟩

theorem rootList_mem {ps : List Nat} {r : Nat} (h1 : r < ps.length)
    (h2 : parentOf ps r = none) : r ∈ rootList ps := by
  apply List.mem_filter.mpr
  exact ⟨List.mem_range.mpr h1, by simp [h2]⟩

/-! ## Parent chains -/

theorem parIter_add (ps : List Nat) (a b v : Nat) :
    parIter ps (a + b) v = (parIter ps a v).bind (fun w => parIter ps b w) := by
  induction a generalizing v with
  | zero => simp [parIter]
  | succ a ih =>
    have : a + 1 + b = (a + b) + 1 := by omega
    rw [this, parIter, parIter]
    cases hp : parentOf ps v with
    | none => rfl
    | some p => exact ih p

theorem parIter_none_stable (ps : List Nat) {a : Nat} (b : Nat) {v : Nat}
    (h : parIter ps a v = none) : parIter ps (a + b) v = none := by
  rw [parIter_add, h]
  rfl

theorem parIter_one (ps : List Nat) (v : Nat) :
    parIter ps 1 v = parentOf ps v := by
  rw [parIter]
  cases parentOf ps v <;> rfl

theorem rootAtB_true {ps : List Nat} {k v : Nat} (h : rootAtB ps k v = true) :
    ∃ r, parIter ps k v = some r ∧ parentOf ps r = none := by
  rw [rootAtB] at h
  cases hp : parIter ps k v with
  | none => rw [hp] at h; cases h
  | some r =>
    rw [hp] at h
    exact ⟨r, rfl, Option.isNone_iff_eq_none.mp h⟩

theorem rootAt_bound {ps : List Nat} {k v : Nat} (h : rootAtB ps k v = true) :
    ∀ {j : Nat} {x : Nat}, parIter ps j v = some x → j ≤ k := by
  intro j x hj
  obtain ⟨r, hr, hroot⟩ := rootAtB_true h
  by_contra hlt
  have hk1 : parIter ps (k + 1) v = none := by
    rw [parIter_add, hr]
    show parIter ps 1 r = none
    rw [parIter_one, hroot]
  have : parIter ps j v = none := by
    have : j = (k + 1) + (j - k - 1) := by omega
    rw [this]
    exact parIter_none_stable ps _ hk1
  rw [hj] at this
  cases this

theorem forest_reaches {ps : List Nat} (hF : Forest ps) {v : Nat}
    (hv : v < ps.length) : ∃ k, rootAtB ps k v = true := by
  obtain ⟨k, _, hk⟩ := hF.2 v hv
  exact ⟨k, hk⟩

theorem ancestor_bounded {ps : List Nat} (hF : Forest ps) {a v : Nat}
    (hv : v < ps.length) (h : Ancestor ps a v) :
    ∃ k < ps.length, parIter ps k v = some a := by
  obtain ⟨k, hk⟩ := h
  obtain ⟨k0, hk0len, hk0⟩ := hF.2 v hv
  exact ⟨k, by have := rootAt_bound hk0 hk; omega, hk⟩

theorem parentOf_lt {ps : List Nat} {v p : Nat} (h : parentOf ps v = some p) :
    v < ps.length := by
  rw [parentOf] at h
  cases hp : ps[v]? with
  | none => rw [hp] at h; cases h
  | some x => exact (List.getElem?_eq_some.mp hp).1

theorem parentOf_parent_lt {ps : List Nat} (hV : ValidParents ps) {v p : Nat}
    (h : parentOf ps v = some p) : p < ps.length := by
  rw [parentOf] at h
  cases hp : ps[v]? with
  | none => rw [hp] at h; cases h
  | some x =>
    rw [hp] at h
    cases x with
    | zero => cases h
    | succ y =>
      have hy : y = p := by injection h
      subst hy
      have hx : (y + 1) ∈ ps := List.getElem?_mem hp
      have := hV _ hx
      omega

theorem parIter_lt {ps : List Nat} (hV : ValidParents ps) :
    ∀ (k : Nat) {v x : Nat}, parIter ps k v = some x → v < ps.length →
      x < ps.length := by
  intro k
  induction k with
  | zero =>
    intro v x h hv
    rw [parIter] at h
    injection h with h'
    omega
  | succ k ih =>
    intro v x h hv
    rw [parIter] at h
    cases hp : parentOf ps v with
    | none => rw [hp] at h; cases h
    | some p =>
      rw [hp] at h
      exact ih h (parentOf_parent_lt hV hp)

theorem no_revisit {ps : List Nat} (hF : Forest ps) {v : Nat}
    (hv : v < ps.length) {c : Nat} (hc : 1 ≤ c) :
    parIter ps c v ≠ some v := by
  intro h
  have hcycle : ∀ t : Nat, parIter ps (t * c) v = some v := by
    intro t
    induction t with
    | zero => simp [parIter]
    | succ t ih =>
      have : (t + 1) * c = t * c + c := by ring
      rw [this, parIter_add, ih]
      exact h
  obtain ⟨k, _, hk⟩ := hF.2 v hv
  have hbound := rootAt_bound hk (hcycle (k + 1))
  have : k + 1 ≤ (k + 1) * c := Nat.le_mul_of_pos_right _ hc
  omega

/-! ## Ancestor algebra and tree building -/

theorem ancestor_refl (ps : List Nat) (v : Nat) : Ancestor ps v v :=
  ⟨0, rfl⟩

theorem ancestor_trans {ps : List Nat} {b a v : Nat} (h1 : Ancestor ps b a)
    (h2 : Ancestor ps a v) : Ancestor ps b v := by
  obtain ⟨k1, hk1⟩ := h1
  obtain ⟨k2, hk2⟩ := h2
  exact ⟨k2 + k1, by rw [parIter_add, hk2]; exact hk1⟩

theorem ancestor_step {ps : List Nat} {c v : Nat} (h : parentOf ps c = some v) :
    Ancestor ps v c :=
  ⟨1, by rw [parIter_one]; exact h⟩

theorem ancestor_decomp {ps : List Nat} {v u : Nat} (h : Ancestor ps v u) :
    u = v ∨ ∃ c, parentOf ps c = some v ∧ Ancestor ps c u := by
  obtain ⟨k, hk⟩ := h
  cases k with
  | zero =>
    left
    injection hk
  | succ j =>
    right
    have : j + 1 = j + 1 := rfl
    rw [parIter_add ps j 1 u] at hk
    cases hc : parIter ps j u with
    | none => rw [hc] at hk; cases hk
    | some c =>
      rw [hc] at hk
      refine ⟨c, ?_, ⟨j, hc⟩⟩
      rw [← parIter_one]
      exact hk

theorem ancestor_lt {ps : List Nat} {v u : Nat} (hv : v < ps.length)
    (h : Ancestor ps v u) : u < ps.length := by
  obtain ⟨k, hk⟩ := h
  cases k with
  | zero =>
    have : u = v := by injection hk
    omega
  | succ j =>
    rw [parIter] at hk
    cases hp : parentOf ps u with
    | none => rw [hp] at hk; cases hk
    | some p => exact parentOf_lt hp

theorem mem_childList {ps : List Nat} {c p : Nat} :
    c ∈ childList ps p ↔ c < ps.length ∧ parentOf ps c = some p := by
  rw [childList]
  constructor
  · intro h
    have := List.mem_filter.mp h
    refine ⟨List.mem_range.mp this.1, ?_⟩
    have h2 := this.2
    simpa using h2
  · intro ⟨h1, h2⟩
    exact List.mem_filter.mpr ⟨List.mem_range.mpr h1, by simp [h2]⟩

theorem childList_nodup (ps : List Nat) (p : Nat) : (childList ps p).Nodup :=
  (List.nodup_range _).filter _

theorem parIter_succ_parent {ps : List Nat} {c v : Nat}
    (h : parentOf ps c = some v) (k : Nat) :
    parIter ps (k + 1) c = parIter ps k v := by
  rw [parIter, h]

theorem children_disjoint {ps : List Nat} (hF : Forest ps) {v : Nat}
    (hv : v < ps.length) {c1 c2 u : Nat} (h1 : parentOf ps c1 = some v)
    (h2 : parentOf ps c2 = some v) (hne : c1 ≠ c2)
    (ha1 : Ancestor ps c1 u) (ha2 : Ancestor ps c2 u) : False := by
  obtain ⟨k1, hk1⟩ := ha1
  obtain ⟨k2, hk2⟩ := ha2
  rcases Nat.lt_trichotomy k1 k2 with hlt | heq | hlt
  · -- the chain from c1 reaches c2 after k2 - k1 >= 1 steps
    have hchain : parIter ps (k2 - k1) c1 = some c2 := by
      have heq2 : k2 = k1 + (k2 - k1) := by omega
      rw [heq2, parIter_add, hk1] at hk2
      exact hk2
    have e1 : parIter ps (k2 - k1 - 1) v = some c2 := by
      have heq2 : k2 - k1 = (k2 - k1 - 1) + 1 := by omega
      rw [heq2, parIter_succ_parent h1] at hchain
      exact hchain
    have hcycle : parIter ps (k2 - k1) v = some v := by
      have heq2 : k2 - k1 = (k2 - k1 - 1) + 1 := by omega
      rw [heq2, parIter_add, e1]
      show parIter ps 1 c2 = some v
      rw [parIter_one]
      exact h2
    exact no_revisit hF hv (by omega) hcycle
  · subst heq
    rw [hk1] at hk2
    injection hk2 with h
    exact hne h
  · have hchain : parIter ps (k1 - k2) c2 = some c1 := by
      have heq2 : k1 = k2 + (k1 - k2) := by omega
      rw [heq2, parIter_add, hk2] at hk1
      exact hk1
    have e1 : parIter ps (k1 - k2 - 1) v = some c1 := by
      have heq2 : k1 - k2 = (k1 - k2 - 1) + 1 := by omega
      rw [heq2, parIter_succ_parent h2] at hchain
      exact hchain
    have hcycle : parIter ps (k1 - k2) v = some v := by
      have heq2 : k1 - k2 = (k1 - k2 - 1) + 1 := by omega
      rw [heq2, parIter_add, e1]
      show parIter ps 1 c1 = some v
      rw [parIter_one]
      exact h1
    exact no_revisit hF hv (by omega) hcycle

theorem root_not_desc {ps : List Nat} (hF : Forest ps) {v c : Nat}
    (hv : v < ps.length) (hc : parentOf ps c = some v)
    (h : Ancestor ps c v) : False := by
  obtain ⟨k, hk⟩ := h
  have : parIter ps (k + 1) v = some v := by
    rw [parIter_add, hk]
    show parIter ps 1 c = some v
    rw [parIter_one]
    exact hc
  exact no_revisit hF hv (by omega) this

theorem find_lt_len {ps : List Nat} (hF : Forest ps) {v : Nat}
    (hv : v < ps.length) :
    Nat.find (forest_reaches hF hv) < ps.length := by
  obtain ⟨k, hklen, hk⟩ := hF.2 v hv
  have := Nat.find_min' (forest_reaches hF hv) hk
  omega

theorem find_child {ps : List Nat} (hF : Forest ps) {c v : Nat}
    (hc : c < ps.length) (hv : v < ps.length)
    (hp : parentOf ps c = some v) :
    Nat.find (forest_reaches hF hc) = Nat.find (forest_reaches hF hv) + 1 := by
  rw [Nat.find_eq_iff]
  constructor
  · show rootAtB ps (Nat.find (forest_reaches hF hv) + 1) c = true
    have hspec := Nat.find_spec (forest_reaches hF hv)
    rw [rootAtB] at hspec ⊢
    rw [parIter, hp]
    exact hspec
  · intro m hm hfalse
    cases m with
    | zero =>
      rw [rootAtB, parIter] at hfalse
      simp [hp] at hfalse
    | succ j =>
      rw [rootAtB, parIter, hp] at hfalse
      have : rootAtB ps j v = true := by
        rw [rootAtB]
        exact hfalse
      have := Nat.find_min' (forest_reaches hF hv) this
      omega

theorem supportF_mem {u0 : Int} {ts : List STree} :
    u0 ∈ supportF ts ↔ ∃ t ∈ ts, u0 ∈ supportT t := by
  induction ts with
  | nil => simp [supportF]
  | cons t ts ih =>
    rw [supportF_cons]
    simp only [List.mem_append, List.mem_cons, ih]
    constructor
    · rintro (h | ⟨t', ht', hu⟩)
      · exact ⟨t, Or.inl rfl, h⟩
      · exact ⟨t', Or.inr ht', hu⟩
    · rintro ⟨t', rfl | ht', hu⟩
      · exact Or.inl hu
      · exact Or.inr ⟨t', ht', hu⟩

theorem descF_iff {a0 u0 : Int} {ts : List STree} :
    descF a0 u0 ts ↔ ∃ t ∈ ts, descT a0 u0 t := by
  induction ts with
  | nil => simp [descF]
  | cons t ts ih =>
    rw [descF_cons]
    simp only [List.mem_cons, ih]
    constructor
    · rintro (h | ⟨t', ht', hu⟩)
      · exact ⟨t, Or.inl rfl, h⟩
      · exact ⟨t', Or.inr ht', hu⟩
    · rintro ⟨t', rfl | ht', hu⟩
      · exact Or.inl hu
      · exact Or.inr ⟨t', ht', hu⟩

theorem MatchesF_of_forall {g : Graph} {ts : List STree}
    (h : ∀ t ∈ ts, MatchesT g t) : MatchesF g ts := by
  induction ts with
  | nil => trivial
  | cons t ts ih =>
    exact ⟨h t (List.mem_cons_self _ _),
      ih fun t' ht' => h t' (List.mem_cons_of_mem _ ht')⟩

theorem supportF_nodup {ts : List STree}
    (h1 : ∀ t ∈ ts, (supportT t).Nodup)
    (h2 : List.Pairwise (fun t1 t2 => ∀ x ∈ supportT t1, x ∉ supportT t2) ts) :
    (supportF ts).Nodup := by
  induction ts with
  | nil => simp [supportF]
  | cons t ts ih =>
    rw [supportF_cons]
    obtain ⟨hhead, htail⟩ := List.pairwise_cons.mp h2
    refine List.Nodup.append (h1 t (List.mem_cons_self _ _))
      (ih (fun t' ht' => h1 t' (List.mem_cons_of_mem _ ht')) htail) ?_
    intro x hx hmem
    obtain ⟨t', ht', hx'⟩ := supportF_mem.mp hmem
    exact hhead t' ht' x hx hx'

theorem rootV_buildTreeF (ps : List Nat) (fuel v : Nat) :
    (buildTreeF ps fuel v).rootV = Int.ofNat v := by
  cases fuel <;> rfl

/-- With enough fuel (relative to the depth of `v`), the built tree mirrors
the driver graph's adjacency exactly; its support is the set of descendants
of `v`, without duplicates; and its subtree relation is the ancestor
relation below `v`. -/
theorem buildTreeF_props {ps : List Nat} (hF : Forest ps) :
    ∀ (fuel : Nat) (v : Nat) (hv : v < ps.length),
      ps.length - Nat.find (forest_reaches hF hv) ≤ fuel →
      MatchesT (buildInput ps).1 (buildTreeF ps fuel v) ∧
      (∀ u0 : Int, u0 ∈ supportT (buildTreeF ps fuel v) ↔
        ∃ u : Nat, u < ps.length ∧ u0 = Int.ofNat u ∧ Ancestor ps v u) ∧
      (supportT (buildTreeF ps fuel v)).Nodup ∧
      (∀ a0 u0 : Int, descT a0 u0 (buildTreeF ps fuel v) ↔
        ∃ a u : Nat, a < ps.length ∧ u < ps.length ∧
          a0 = Int.ofNat a ∧ u0 = Int.ofNat u ∧
          Ancestor ps v a ∧ Ancestor ps a u) := by
  intro fuel
  induction fuel with
  | zero =>
    intro v hv hfuel
    have := find_lt_len hF hv
    omega
  | succ f ih =>
    intro v hv hfuel
    have hvalid := hF.1
    have hchild : ∀ c ∈ childList ps v, c < ps.length ∧ parentOf ps c = some v :=
      fun c hc => mem_childList.mp hc
    have hchildmeasure : ∀ c (hc : c < ps.length), parentOf ps c = some v →
        ps.length - Nat.find (forest_reaches hF hc) ≤ f := by
      intro c hc hp
      rw [find_child hF hc hv hp]
      have := find_lt_len hF hv
      omega
    -- per-child induction hypotheses
    have hsub : ∀ c ∈ childList ps v,
        MatchesT (buildInput ps).1 (buildTreeF ps f c) ∧
        (∀ u0 : Int, u0 ∈ supportT (buildTreeF ps f c) ↔
          ∃ u : Nat, u < ps.length ∧ u0 = Int.ofNat u ∧ Ancestor ps c u) ∧
        (supportT (buildTreeF ps f c)).Nodup ∧
        (∀ a0 u0 : Int, descT a0 u0 (buildTreeF ps f c) ↔
          ∃ a u : Nat, a < ps.length ∧ u < ps.length ∧
            a0 = Int.ofNat a ∧ u0 = Int.ofNat u ∧
            Ancestor ps c a ∧ Ancestor ps a u) := by
      intro c hc
      obtain ⟨hclen, hcp⟩ := hchild c hc
      exact ih c hclen (hchildmeasure c hclen hcp)
    have hsupmem : ∀ u0 : Int,
        u0 ∈ supportT (buildTreeF ps (f + 1) v) ↔
        ∃ u : Nat, u < ps.length ∧ u0 = Int.ofNat u ∧ Ancestor ps v u := by
      intro u0
      show u0 ∈ supportT (STree.node (Int.ofNat v)
        ((childList ps v).map (buildTreeF ps f))) ↔ _
      rw [supportT_node]
      constructor
      · intro h
        rcases List.mem_cons.mp h with rfl | h
        · exact ⟨v, hv, rfl, ancestor_refl ps v⟩
        · obtain ⟨t, ht, hu⟩ := supportF_mem.mp h
          obtain ⟨c, hc, rfl⟩ := List.mem_map.mp ht
          obtain ⟨u, hulen, rfl, hanc⟩ := ((hsub c hc).2.1 u0).mp hu
          exact ⟨u, hulen, rfl,
            ancestor_trans (ancestor_step (hchild c hc).2) hanc⟩
      · rintro ⟨u, hulen, rfl, hanc⟩
        rcases ancestor_decomp hanc with rfl | ⟨c, hcp, hcanc⟩
        · exact List.mem_cons_self _ _
        · apply List.mem_cons_of_mem
          apply supportF_mem.mpr
          have hclen : c < ps.length := parentOf_lt hcp
          refine ⟨buildTreeF ps f c,
            List.mem_map.mpr ⟨c, mem_childList.mpr ⟨hclen, hcp⟩, rfl⟩, ?_⟩
          exact ((hsub c (mem_childList.mpr ⟨hclen, hcp⟩)).2.1 _).mpr
            ⟨u, hulen, rfl, hcanc⟩
    refine ⟨?_, hsupmem, ?_, ?_⟩
    · -- Matches
      show MatchesT (buildInput ps).1 (STree.node (Int.ofNat v)
        ((childList ps v).map (buildTreeF ps f)))
      refine ⟨?_, MatchesF_of_forall ?_⟩
      · show (buildInput ps).1.GetOutgoingEdges (Int.ofNat v) = _
        rw [Graph.GetOutgoingEdges, driver_out, List.map_map]
        apply List.map_congr_left
        intro c _
        simp [rootV_buildTreeF]
      · intro t ht
        obtain ⟨c, hc, rfl⟩ := List.mem_map.mp ht
        exact (hsub c hc).1
    · -- Nodup
      show (supportT (STree.node (Int.ofNat v)
        ((childList ps v).map (buildTreeF ps f)))).Nodup
      rw [supportT_node]
      refine List.nodup_cons.mpr ⟨?_, ?_⟩
      · intro hmem
        obtain ⟨t, ht, hu⟩ := supportF_mem.mp hmem
        obtain ⟨c, hc, rfl⟩ := List.mem_map.mp ht
        obtain ⟨u, hulen, hequ, hanc⟩ := ((hsub c hc).2.1 _).mp hu
        have : u = v := Int.ofNat.inj hequ.symm
        subst this
        exact root_not_desc hF hv (hchild c hc).2 hanc
      · apply supportF_nodup
        · intro t ht
          obtain ⟨c, hc, rfl⟩ := List.mem_map.mp ht
          exact (hsub c hc).2.2.1
        · rw [List.pairwise_map]
          have hpair : List.Pairwise (· ≠ ·) (childList ps v) :=
            childList_nodup ps v
          refine hpair.imp_of_mem ?_
          intro c1 c2 hc1 hc2 hne x hx1 hx2
          obtain ⟨u1, hu1len, hequ1, hanc1⟩ := ((hsub c1 hc1).2.1 _).mp hx1
          obtain ⟨u2, hu2len, hequ2, hanc2⟩ := ((hsub c2 hc2).2.1 _).mp hx2
          have : u1 = u2 := by
            rw [hequ1] at hequ2
            exact Int.ofNat.inj hequ2
          subst this
          exact children_disjoint hF hv (hchild c1 hc1).2 (hchild c2 hc2).2
            hne hanc1 hanc2
    · -- descendant characterization
      intro a0 u0
      show descT a0 u0 (STree.node (Int.ofNat v)
        ((childList ps v).map (buildTreeF ps f))) ↔ _
      rw [descT_node]
      constructor
      · rintro (⟨rfl, hu⟩ | hdf)
        · have hu' : u0 ∈ supportT (buildTreeF ps (f + 1) v) := by
            show u0 ∈ supportT (STree.node (Int.ofNat v)
              ((childList ps v).map (buildTreeF ps f)))
            rw [supportT_node]
            rcases hu with rfl | hu
            · exact List.mem_cons_self _ _
            · exact List.mem_cons_of_mem _ hu
          obtain ⟨u, hulen, rfl, hanc⟩ := (hsupmem u0).mp hu'
          exact ⟨v, u, hv, hulen, rfl, rfl, ancestor_refl ps v, hanc⟩
        · obtain ⟨t, ht, hdt⟩ := descF_iff.mp hdf
          obtain ⟨c, hc, rfl⟩ := List.mem_map.mp ht
          obtain ⟨a, u, halen, hulen, rfl, rfl, hca, hau⟩ :=
            ((hsub c hc).2.2.2 a0 u0).mp hdt
          exact ⟨a, u, halen, hulen, rfl, rfl,
            ancestor_trans (ancestor_step (hchild c hc).2) hca, hau⟩
      · rintro ⟨a, u, halen, hulen, rfl, rfl, hva, hau⟩
        rcases ancestor_decomp hva with rfl | ⟨c, hcp, hca⟩
        · left
          refine ⟨rfl, ?_⟩
          have := (hsupmem (Int.ofNat u)).mpr ⟨u, hulen, rfl, hau⟩
          have h2 : Int.ofNat u ∈ supportT (STree.node (Int.ofNat a)
              ((childList ps a).map (buildTreeF ps f))) := this
          rw [supportT_node] at h2
          exact List.mem_cons.mp h2
        · right
          apply descF_iff.mpr
          have hclen : c < ps.length := parentOf_lt hcp
          have hcmem := mem_childList.mpr ⟨hclen, hcp⟩
          refine ⟨buildTreeF ps f c, List.mem_map.mpr ⟨c, hcmem, rfl⟩, ?_⟩
          exact ((hsub c hcmem).2.2.2 _ _).mpr
            ⟨a, u, halen, hulen, rfl, rfl, hca, hau⟩

/-! ## A visit of a fully matched, all-white tree -/

theorem visitTrace_node (v : Int) (ts : List STree) :
    visitTrace (STree.node v ts) =
      Event.discoverVertex v :: visitForest v ts ++ [Event.finishVertex v] := by
  simp [visitTrace]

theorem visitForest_cons (p : Int) (t : STree) (ts : List STree) :
    visitForest p (t :: ts) =
      (Event.examineEdge ⟨p, t.rootV⟩ :: visitTrace t ++
        [Event.treeEdge ⟨p, t.rootV⟩, Event.finishEdge ⟨p, t.rootV⟩]) ++
      visitForest p ts := by
  simp [visitForest]

theorem whiteCount_blacken_le (g : Graph) (s : List Int) (cm : Int → Color) :
    whiteCount g (blacken s cm) ≤ whiteCount g cm := by
  apply whiteCount_le_of_pointwise
  intro u h
  by_cases hm : u ∈ s
  · rw [blacken_mem hm] at h; cases h
  · rwa [blacken_not_mem hm] at h

theorem visit_matched (g : Graph) (hWF : WFGraph g) :
    ∀ (fuel : Nat),
      (∀ (T : STree) (cm : Int → Color),
        MatchesT g T →
        (∀ u ∈ supportT T, cm u = Color.kWhite ∧ u ∈ g.vertices_) →
        (supportT T).Nodup →
        whiteCount g cm ≤ fuel →
        DepthFirstSearchVisit g fuel cm T.rootV =
          (blacken (supportT T) cm, visitTrace T)) ∧
      (∀ (p : Int) (ts : List STree) (cm : Int → Color),
        MatchesF g ts →
        (∀ u ∈ supportF ts, cm u = Color.kWhite ∧ u ∈ g.vertices_) →
        (supportF ts).Nodup →
        whiteCount g cm ≤ fuel →
        edgeSteps (DepthFirstSearchVisit g fuel) cm
            (ts.map fun t => (⟨p, t.rootV⟩ : Edge)) =
          (blacken (supportF ts) cm, visitForest p ts)) := by
  intro fuel
  induction fuel with
  | zero =>
    constructor
    · intro T cm _ hwh hnd hwc
      have hroot := hwh T.rootV (rootV_mem_supportT T)
      exact absurd (whiteCount_pos hroot.2 hroot.1) (by omega)
    · intro p ts cm hM hwh hnd hwc
      cases ts with
      | nil =>
        refine Prod.ext ?_ ?_
        · show cm = blacken (supportF []) cm
          funext u
          simp [blacken, supportF]
        · rfl
      | cons t ts =>
        have hroot := hwh t.rootV (by
          rw [supportF_cons]
          exact List.mem_append.mpr (Or.inl (rootV_mem_supportT t)))
        exact absurd (whiteCount_pos hroot.2 hroot.1) (by omega)
  | succ f ih =>
    have hvisit : ∀ (T : STree) (cm : Int → Color),
        MatchesT g T →
        (∀ u ∈ supportT T, cm u = Color.kWhite ∧ u ∈ g.vertices_) →
        (supportT T).Nodup →
        whiteCount g cm ≤ f + 1 →
        DepthFirstSearchVisit g (f + 1) cm T.rootV =
          (blacken (supportT T) cm, visitTrace T) := by
      intro T cm hM hwh hnd hwc
      cases T with
      | node v0 ts =>
        rw [supportT_node] at hwh hnd
        obtain ⟨hv0w, hv0mem⟩ := hwh v0 (List.mem_cons_self _ _)
        obtain ⟨hv0nots, hndF⟩ := List.nodup_cons.mp hnd
        obtain ⟨hout, hMF⟩ := hM
        have hwh1 : ∀ u ∈ supportF ts,
            SetColor cm v0 Color.kGray u = Color.kWhite ∧ u ∈ g.vertices_ := by
          intro u hu
          have hune : u ≠ v0 := fun h => hv0nots (h ▸ hu)
          rw [SetColor_ne _ _ _ _ hune]
          exact hwh u (List.mem_cons_of_mem _ hu)
        have hwc1 : whiteCount g (SetColor cm v0 Color.kGray) ≤ f := by
          have := whiteCount_setGray hWF.1 hv0mem hv0w
          omega
        have hedges := ih.2 v0 ts (SetColor cm v0 Color.kGray) hMF hwh1 hndF hwc1
        show DepthFirstSearchVisit g (f + 1) cm (STree.node v0 ts).rootV = _
        rw [show (STree.node v0 ts).rootV = v0 from rfl, visit_succ]
        rw [show g.GetOutgoingEdges v0 = ts.map fun t => (⟨v0, t.rootV⟩ : Edge)
          from hout]
        rw [hedges]
        refine Prod.ext ?_ ?_
        · show SetColor (blacken (supportF ts) (SetColor cm v0 Color.kGray)) v0
            Color.kBlack = blacken (supportT (STree.node v0 ts)) cm
          rw [blacken_gray_black, supportT_node]
        · show Event.discoverVertex v0 :: visitForest v0 ts ++
            [Event.finishVertex v0] = visitTrace (STree.node v0 ts)
          rw [visitTrace_node]
    refine ⟨hvisit, ?_⟩
    intro p ts
    induction ts with
    | nil =>
      intro cm _ _ _ _
      refine Prod.ext ?_ ?_
      · show cm = blacken (supportF []) cm
        funext u
        simp [blacken, supportF]
      · rfl
    | cons t ts ihe =>
      intro cm hM hwh hnd hwc
      rw [supportF_cons] at hwh hnd
      obtain ⟨hM1, hMF⟩ := hM
      obtain ⟨hnd1, hnd2, hdisj⟩ := List.nodup_append.mp hnd
      have hrw : cm t.rootV = Color.kWhite :=
        (hwh t.rootV (List.mem_append.mpr (Or.inl (rootV_mem_supportT t)))).1
      have hsub := hvisit t cm hM1
        (fun u hu => hwh u (List.mem_append.mpr (Or.inl hu))) hnd1 hwc
      rw [List.map_cons,
        edgeSteps_cons_white (ts.map fun t => (⟨p, t.rootV⟩ : Edge))
          (by rw [GetColor]; exact hrw)]
      rw [hsub]
      have hwh2 : ∀ u ∈ supportF ts,
          blacken (supportT t) cm u = Color.kWhite ∧ u ∈ g.vertices_ := by
        intro u hu
        have : u ∉ supportT t := fun h => hdisj h hu
        rw [blacken_not_mem this]
        exact hwh u (List.mem_append.mpr (Or.inr hu))
      have hwc2 : whiteCount g (blacken (supportT t) cm) ≤ f + 1 :=
        le_trans (whiteCount_blacken_le g _ cm) hwc
      rw [ihe (blacken (supportT t) cm) hMF hwh2 hnd2 hwc2]
      refine Prod.ext ?_ ?_
      · show blacken (supportF ts) (blacken (supportT t) cm) =
          blacken (supportF (t :: ts)) cm
        rw [blacken_blacken, supportF_cons]
      · show (Event.examineEdge ⟨p, t.rootV⟩ :: visitTrace t ++
            [Event.treeEdge ⟨p, t.rootV⟩, Event.finishEdge ⟨p, t.rootV⟩]) ++
            visitForest p ts = visitForest p (t :: ts)
        rw [visitForest_cons]

/-! ## The unique-root (tree) run -/

theorem sweep_all_nonwhite
    {visit : (Int → Color) → Int → ((Int → Color) × List Event)}
    {cm : Int → Color} :
    ∀ {vs : List Int}, (∀ v ∈ vs, GetColor cm v ≠ Color.kWhite) →
      startSweep visit cm vs = (cm, []) := by
  intro vs
  induction vs with
  | nil => intro _; rfl
  | cons v vs ih =>
    intro h
    rw [startSweep_cons_nonwhite vs (h v (List.mem_cons_self _ _))]
    exact ih fun v' hv' => h v' (List.mem_cons_of_mem _ hv')

mutual

theorem dfSeq_visitTrace (T : STree) : dfSeq (visitTrace T) = eulerTour T := by
  cases T with
  | node v ts =>
    rw [visitTrace_node, eulerTour_node, ← dfSeq_visitForest v ts]
    simp [dfSeq, isDF]

theorem dfSeq_visitForest (p : Int) (ts : List STree) :
    dfSeq (visitForest p ts) = eulerForest ts := by
  cases ts with
  | nil => rfl
  | cons t ts =>
    rw [visitForest_cons, eulerForest_cons, ← dfSeq_visitTrace t,
      ← dfSeq_visitForest p ts]
    simp [dfSeq, isDF]

end

theorem driver_verts_mem (ps : List Nat) (u : Nat) :
    Int.ofNat u ∈ ((buildInput ps).1).vertices_ ↔ u < ps.length := by
  rw [driver_vertices]
  constructor
  · intro h
    obtain ⟨u', hu', hequ⟩ := List.mem_map.mp h
    have : u' = u := Int.ofNat.inj hequ
    subst this
    exact List.mem_range.mp hu'
  · intro h
    exact List.mem_map.mpr ⟨u, List.mem_range.mpr h, rfl⟩

theorem driver_verts_shape {ps : List Nat} {x : Int}
    (h : x ∈ ((buildInput ps).1).vertices_) :
    ∃ u : Nat, u < ps.length ∧ x = Int.ofNat u := by
  rw [driver_vertices] at h
  obtain ⟨u, hu, rfl⟩ := List.mem_map.mp h
  exact ⟨u, List.mem_range.mp hu, rfl⟩

theorem unique_root_anc {ps : List Nat} (hF : Forest ps) {r : Nat}
    (hroot : rootList ps = [r]) {u : Nat} (hu : u < ps.length) :
    Ancestor ps r u := by
  obtain ⟨k, _, hk⟩ := hF.2 u hu
  obtain ⟨r', hr', hr'root⟩ := rootAtB_true hk
  have hr'len : r' < ps.length := parIter_lt hF.1 k hr' hu
  have : r' ∈ rootList ps := rootList_mem hr'len hr'root
  rw [hroot] at this
  have : r' = r := by simpa using this
  subst this
  exact ⟨k, hr'⟩

theorem driver_start_ok (ps : List Nat) :
    (buildInput ps).2 = -1 ∨ (buildInput ps).2 ∈ ((buildInput ps).1).vertices_ := by
  rw [buildInput, foldl_readParent_start, driver_roots_map]
  cases hlast : ((rootList ps).map Int.ofNat).getLast? with
  | none => left; rfl
  | some x =>
    right
    have hx : x ∈ (rootList ps).map Int.ofNat :=
      List.mem_of_mem_getLast? (by rw [hlast]; exact rfl)
    obtain ⟨u, hu, rfl⟩ := List.mem_map.mp hx
    show Int.ofNat u ∈ ((buildInput ps).1).vertices_
    rw [buildInput, foldl_readParent_vertices]
    show Int.ofNat u ∈ (Graph.new ps.length).vertices_
    exact List.mem_map.mpr
      ⟨u, List.mem_range.mpr (mem_rootList hu).1, rfl⟩

theorem unique_root_trace {ps : List Nat} {r : Nat} (hF : Forest ps)
    (hroot : rootList ps = [r]) :
    (DepthFirstSearch (buildInput ps).1 (buildInput ps).2).2 =
      ((buildInput ps).1.GetVertices.map Event.initVertex ++
        (Event.startVertex (Int.ofNat r) :: visitTrace (buildTree ps r)) ++
        []) := by
  have hrmem : r ∈ rootList ps := by rw [hroot]; exact List.mem_cons_self _ _
  obtain ⟨hrlen, hrnone⟩ := mem_rootList hrmem
  have hfuel : ps.length - Nat.find (forest_reaches hF hrlen) ≤ ps.length := by
    omega
  obtain ⟨hM, hsup, hnd, hdesc⟩ := buildTreeF_props hF ps.length r hrlen hfuel
  have hg := driver_wf ps
  set g := (buildInput ps).1 with hgdef
  have hvertslen : g.GetVertices.length = ps.length := by
    rw [Graph.GetVertices, driver_vertices]
    simp
  have hsupmem : ∀ u0 : Int, u0 ∈ supportT (buildTree ps r) ↔
      ∃ u : Nat, u < ps.length ∧ u0 = Int.ofNat u := by
    intro u0
    rw [buildTree]
    constructor
    · intro h
      obtain ⟨u, hulen, rfl, _⟩ := (hsup u0).mp h
      exact ⟨u, hulen, rfl⟩
    · rintro ⟨u, hulen, rfl⟩
      exact (hsup _).mpr ⟨u, hulen, rfl, unique_root_anc hF hroot hulen⟩
  have hwhite : ∀ u ∈ supportT (buildTree ps r),
      (fun _ => Color.kWhite) u = Color.kWhite ∧ u ∈ g.vertices_ := by
    intro u hu
    obtain ⟨u', hu'len, rfl⟩ := (hsupmem u).mp hu
    exact ⟨rfl, (driver_verts_mem ps u').mpr hu'len⟩
  have hwc : whiteCount g (fun _ => Color.kWhite) ≤ g.GetVertices.length :=
    le_of_eq (whiteCount_init g)
  have hE2 := (visit_matched g hg g.GetVertices.length).1 (buildTree ps r)
    (fun _ => Color.kWhite) (by rw [buildTree]; exact hM) hwhite
    (by rw [buildTree]; exact hnd) hwc
  have hrootV : (buildTree ps r).rootV = Int.ofNat r := by
    rw [buildTree, rootV_buildTreeF]
  rw [hrootV] at hE2
  have hstart : (buildInput ps).2 = Int.ofNat r := driver_start_root ps r hroot
  have hne : (buildInput ps).2 ≠ -1 := by
    rw [hstart]
    intro h
    cases h
  rw [DFS_start g hne, hstart, hE2]
  have hsweep : startSweep (DepthFirstSearchVisit g g.GetVertices.length)
      (blacken (supportT (buildTree ps r)) (fun _ => Color.kWhite))
      g.GetVertices =
      (blacken (supportT (buildTree ps r)) (fun _ => Color.kWhite), []) := by
    apply sweep_all_nonwhite
    intro v hv
    obtain ⟨u, hulen, rfl⟩ := driver_verts_shape hv
    rw [GetColor, blacken_mem ((hsupmem _).mpr ⟨u, hulen, rfl⟩)]
    intro h
    cases h
  rw [hsweep]

theorem buildTree_support_mem {ps : List Nat} {r : Nat} (hF : Forest ps)
    (hroot : rootList ps = [r]) (u0 : Int) :
    u0 ∈ supportT (buildTree ps r) ↔
      ∃ u : Nat, u < ps.length ∧ u0 = Int.ofNat u := by
  obtain ⟨hrlen, _⟩ := mem_rootList (by rw [hroot]; exact List.mem_cons_self _ _)
  obtain ⟨_, hsup, _, _⟩ := buildTreeF_props hF ps.length r hrlen (by omega)
  rw [buildTree]
  constructor
  · intro h
    obtain ⟨u, hulen, rfl, _⟩ := (hsup u0).mp h
    exact ⟨u, hulen, rfl⟩
  · rintro ⟨u, hulen, rfl⟩
    exact (hsup _).mpr ⟨u, hulen, rfl, unique_root_anc hF hroot hulen⟩

theorem buildTree_nodup {ps : List Nat} {r : Nat} (hF : Forest ps)
    (hrlen : r < ps.length) : (supportT (buildTree ps r)).Nodup := by
  obtain ⟨_, _, hnd, _⟩ := buildTreeF_props hF ps.length r hrlen (by omega)
  rw [buildTree]
  exact hnd

theorem buildTree_desc {ps : List Nat} {r : Nat} (hF : Forest ps)
    (hroot : rootList ps = [r]) (a0 u0 : Int) :
    descT a0 u0 (buildTree ps r) ↔
      ∃ a u : Nat, a < ps.length ∧ u < ps.length ∧
        a0 = Int.ofNat a ∧ u0 = Int.ofNat u ∧ Ancestor ps a u := by
  obtain ⟨hrlen, _⟩ := mem_rootList (by rw [hroot]; exact List.mem_cons_self _ _)
  obtain ⟨_, _, _, hdesc⟩ := buildTreeF_props hF ps.length r hrlen (by omega)
  rw [buildTree]
  constructor
  · intro h
    obtain ⟨a, u, halen, hulen, rfl, rfl, _, hau⟩ := (hdesc a0 u0).mp h
    exact ⟨a, u, halen, hulen, rfl, rfl, hau⟩
  · rintro ⟨a, u, halen, hulen, rfl, rfl, hau⟩
    exact (hdesc _ _).mpr
      ⟨a, u, halen, hulen, rfl, rfl, unique_root_anc hF hroot halen, hau⟩

/-- On a unique-root (tree) input, the `time_in`/`time_out` containment test
holds exactly for the ancestor-or-self pairs of the input forest. -/
theorem driver_condition_iff {ps : List Nat} {r : Nat} (hF : Forest ps)
    (hroot : rootList ps = [r]) {a v : Nat} (ha : a < ps.length)
    (hv : v < ps.length) :
    ((driverVisitor ps).time_in (Int.ofNat a) ≤
        (driverVisitor ps).time_in (Int.ofNat v) ∧
      (driverVisitor ps).time_out (Int.ofNat v) ≤
        (driverVisitor ps).time_out (Int.ofNat a)) ↔
    Ancestor ps a v := by
  obtain ⟨hrlen, _⟩ := mem_rootList (by rw [hroot]; exact List.mem_cons_self _ _)
  have htr := unique_root_trace hF hroot
  have hdf : dfSeq (DepthFirstSearch (buildInput ps).1 (buildInput ps).2).2 =
      eulerTour (buildTree ps r) := by
    rw [htr, dfSeq_append, dfSeq_append, dfSeq_initEvents,
      dfSeq_cons_nondf (e := Event.startVertex (Int.ofNat r)) rfl,
      dfSeq_visitTrace]
    simp [dfSeq]
  have hnd := buildTree_nodup hF hrlen
  have hmema : Int.ofNat a ∈ supportT (buildTree ps r) :=
    (buildTree_support_mem hF hroot _).mpr ⟨a, ha, rfl⟩
  have hmemv : Int.ofNat v ∈ supportT (buildTree ps r) :=
    (buildTree_support_mem hF hroot _).mpr ⟨v, hv, rfl⟩
  have hcnta : (dfSeq (DepthFirstSearch (buildInput ps).1
      (buildInput ps).2).2).count (Event.discoverVertex (Int.ofNat a)) = 1 := by
    rw [hdf, count_discover_tour]
    exact List.count_eq_one_of_mem hnd hmema
  have hcntv : (dfSeq (DepthFirstSearch (buildInput ps).1
      (buildInput ps).2).2).count (Event.discoverVertex (Int.ofNat v)) = 1 := by
    rw [hdf, count_discover_tour]
    exact List.count_eq_one_of_mem hnd hmemv
  have hcnta' : (dfSeq (DepthFirstSearch (buildInput ps).1
      (buildInput ps).2).2).count (Event.finishVertex (Int.ofNat a)) = 1 := by
    rw [hdf, count_finish_tour]
    exact List.count_eq_one_of_mem hnd hmema
  have hcntv' : (dfSeq (DepthFirstSearch (buildInput ps).1
      (buildInput ps).2).2).count (Event.finishVertex (Int.ofNat v)) = 1 := by
    rw [hdf, count_finish_tour]
    exact List.count_eq_one_of_mem hnd hmemv
  have hta : (driverVisitor ps).time_in (Int.ofNat a) =
      pos (eulerTour (buildTree ps r)) (Event.discoverVertex (Int.ofNat a)) := by
    rw [driverVisitor, runVisitor_time_in hcnta, hdf]
  have htv : (driverVisitor ps).time_in (Int.ofNat v) =
      pos (eulerTour (buildTree ps r)) (Event.discoverVertex (Int.ofNat v)) := by
    rw [driverVisitor, runVisitor_time_in hcntv, hdf]
  have hoa : (driverVisitor ps).time_out (Int.ofNat a) =
      pos (eulerTour (buildTree ps r)) (Event.finishVertex (Int.ofNat a)) := by
    rw [driverVisitor, runVisitor_time_out hcnta', hdf]
  have hov : (driverVisitor ps).time_out (Int.ofNat v) =
      pos (eulerTour (buildTree ps r)) (Event.finishVertex (Int.ofNat v)) := by
    rw [driverVisitor, runVisitor_time_out hcntv', hdf]
  rw [hta, htv, hoa, hov]
  constructor
  · intro ⟨h1, h2⟩
    have hdesc := pos_descT (buildTree ps r) hnd hmema hmemv h1 h2
    obtain ⟨a', u', _, _, hea, heu, hau⟩ :=
      (buildTree_desc hF hroot _ _).mp hdesc
    have : a' = a := Int.ofNat.inj hea.symm
    subst this
    have : u' = v := Int.ofNat.inj heu.symm
    subst this
    exact hau
  · intro hanc
    have hdesc := (buildTree_desc hF hroot _ _).mpr
      ⟨a, v, ha, hv, rfl, rfl, hanc⟩
    exact descT_pos (buildTree ps r) hnd hdesc

/-! ## Full-run timestamp formulas and ancestor soundness -/

/-- `run_decomposition` packaged with the timestamp formulas of the
timestamp visitor run over the produced trace. -/
theorem run_times (g : Graph) (hWF : WFGraph g) (start : Int)
    (hstart : start = -1 ∨ start ∈ g.vertices_) :
    ∃ TS : List STree,
      dfSeq (DepthFirstSearch g start).2 = eulerForest TS ∧
      (∀ u, u ∈ supportF TS ↔ u ∈ g.vertices_) ∧
      (supportF TS).Nodup ∧
      (∀ T ∈ TS, inGraphT g T) ∧
      (∀ e0 : Edge,
        (DepthFirstSearch g start).2.count (Event.examineEdge e0) =
          ((supportF TS).map fun u => (g.GetOutgoingEdges u).count e0).sum) ∧
      (∀ ev ∈ (DepthFirstSearch g start).2, eventInRange g.vertices_ ev) ∧
      (DepthFirstSearch g start).1 =
        blacken (supportF TS) (fun _ => Color.kWhite) ∧
      (start ≠ -1 → ∃ T TS', TS = T :: TS' ∧ T.rootV = start) ∧
      (∀ v, v ∈ g.vertices_ →
        (runVisitor (DepthFirstSearch g start).2).time_in v =
          pos (eulerForest TS) (Event.discoverVertex v) ∧
        (runVisitor (DepthFirstSearch g start).2).time_out v =
          pos (eulerForest TS) (Event.finishVertex v) ∧
        (DepthFirstSearch g start).2.count (Event.discoverVertex v) = 1 ∧
        (DepthFirstSearch g start).2.count (Event.finishVertex v) = 1) := by
  obtain ⟨TS, hdf, hsup, hnd, hig, hcnt, hrng, hcm, hfirst⟩ :=
    run_decomposition g hWF start hstart
  refine ⟨TS, hdf, hsup, hnd, hig, hcnt, hrng, hcm, hfirst, ?_⟩
  intro v hv
  have hmem : v ∈ supportF TS := (hsup v).mpr hv
  have hc1 : (dfSeq (DepthFirstSearch g start).2).count
      (Event.discoverVertex v) = 1 := by
    rw [hdf, count_discover_forest]
    exact List.count_eq_one_of_mem hnd hmem
  have hc2 : (dfSeq (DepthFirstSearch g start).2).count
      (Event.finishVertex v) = 1 := by
    rw [hdf, count_finish_forest]
    exact List.count_eq_one_of_mem hnd hmem
  refine ⟨?_, ?_, ?_, ?_⟩
  · rw [runVisitor_time_in hc1, hdf]
  · rw [runVisitor_time_out hc2, hdf]
  · rw [← count_dfSeq (e := Event.discoverVertex v) rfl]
    exact hc1
  · rw [← count_dfSeq (e := Event.finishVertex v) rfl]
    exact hc2

/-- Every edge stored on vertex `p`'s adjacency list of the driver's graph
goes to a child of `p` in the parent-list forest. -/
theorem driver_edge_parent {ps : List Nat} {p : Nat} {e : Edge}
    (he : e ∈ ((buildInput ps).1).GetOutgoingEdges (Int.ofNat p)) :
    ∃ c : Nat, c < ps.length ∧ e.destination = Int.ofNat c ∧
      parentOf ps c = some p := by
  rw [Graph.GetOutgoingEdges, driver_out] at he
  obtain ⟨c, hc, rfl⟩ := List.mem_map.mp he
  obtain ⟨hclen, hcpar⟩ := mem_childList.mp hc
  exact ⟨c, hclen, rfl, hcpar⟩

mutual

/-- In any traversal tree realized inside the driver's graph, the root is
an input-forest ancestor of every vertex of the tree. -/
theorem rootT_anc (ps : List Nat) (t : STree) :
    inGraphT (buildInput ps).1 t →
    ∀ rr : Nat, t.rootV = Int.ofNat rr →
    ∀ x ∈ supportT t, ∀ xx : Nat, x = Int.ofNat xx → Ancestor ps rr xx := by
  cases t with
  | node r ts =>
    intro hig rr hr x hx xx hxx
    rcases mem_supportT_cases hx with rfl | hx
    · have : rr = xx := Int.ofNat.inj (hr.symm.trans hxx)
      subst this
      exact ancestor_refl ps rr
    · have hig' : inGraphF (buildInput ps).1 (Int.ofNat rr) ts := by
      -- `inGraphT (node r ts)` is `inGraphF g r ts` by definition
        rw [STree.rootV] at hr
        rw [← hr]
        exact hig
      exact rootF_anc ps ts rr hig' x hx xx hxx

/-- In any traversal forest of children of `p` realized inside the
driver's graph, `p` is an input-forest ancestor of every vertex. -/
theorem rootF_anc (ps : List Nat) (ts : List STree) :
    ∀ p : Nat, inGraphF (buildInput ps).1 (Int.ofNat p) ts →
    ∀ x ∈ supportF ts, ∀ xx : Nat, x = Int.ofNat xx → Ancestor ps p xx := by
  cases ts with
  | nil =>
    intro p _ x hx
    rw [supportF] at hx
    cases hx
  | cons t ts =>
    intro p hig x hx xx hxx
    obtain ⟨⟨e, he, hedest⟩, higT, higF⟩ := hig
    rcases mem_supportF_cases hx with hx | hx
    · obtain ⟨c, hclen, hcdest, hcpar⟩ := driver_edge_parent he
      have hroot : t.rootV = Int.ofNat c := by rw [← hedest, hcdest]
      have h1 : Ancestor ps c xx := rootT_anc ps t higT c hroot x hx xx hxx
      exact ancestor_trans (ancestor_step hcpar) h1
    · exact rootF_anc ps ts p higF x hx xx hxx

end

/-- Each member of a forest of realized children is itself realized. -/
theorem inGraphF_mem {g : Graph} {p : Int} :
    ∀ {ts : List STree}, inGraphF g p ts → ∀ T ∈ ts, inGraphT g T := by
  intro ts
  induction ts with
  | nil =>
    intro _ T hT
    cases hT
  | cons t ts ih =>
    intro hig T hT
    obtain ⟨_, higT, higF⟩ := hig
    rcases List.mem_cons.mp hT with rfl | hT
    · exact higT
    · exact ih higF T hT

mutual

/-- Descendant pairs of a traversal tree realized inside the driver's
graph are ancestor pairs of the input forest. -/
theorem descT_anc (ps : List Nat) (t : STree) :
    inGraphT (buildInput ps).1 t →
    ∀ a v : Nat, descT (Int.ofNat a) (Int.ofNat v) t → Ancestor ps a v := by
  cases t with
  | node r ts =>
    intro hig a v hd
    rcases descT_node.mp hd with ⟨har, hv⟩ | hd
    · rcases hv with hvr | hv
      · have : a = v := Int.ofNat.inj (har.trans hvr.symm)
        subst this
        exact ancestor_refl ps a
      · have hig' : inGraphF (buildInput ps).1 (Int.ofNat a) ts := by
          rw [← har] at hig
          exact hig
        exact rootF_anc ps ts a hig' (Int.ofNat v) hv v rfl
    · exact descF_anc ps ts (inGraphF_mem hig) a v hd

/-- Descendant pairs of a traversal forest realized inside the driver's
graph are ancestor pairs of the input forest. -/
theorem descF_anc (ps : List Nat) (ts : List STree) :
    (∀ T ∈ ts, inGraphT (buildInput ps).1 T) →
    ∀ a v : Nat, descF (Int.ofNat a) (Int.ofNat v) ts → Ancestor ps a v := by
  cases ts with
  | nil =>
    intro _ a v hd
    exact absurd hd descF_nil
  | cons t ts =>
    intro hig a v hd
    rcases descF_cons.mp hd with hd | hd
    · exact descT_anc ps t (hig t (List.mem_cons_self _ _)) a v hd
    · exact descF_anc ps ts (fun T hT => hig T (List.mem_cons_of_mem _ hT))
        a v hd

end

/-! ## Color replay facts -/

theorem SetColor_agree {cm1 cm2 : Int → Color} {v : Int} (h : cm1 v = cm2 v)
    (u : Int) (c : Color) : SetColor cm1 u c v = SetColor cm2 u c v := by
  by_cases hv : v = u
  · subst hv
    rw [SetColor_self, SetColor_self]
  · rw [SetColor_ne _ _ _ _ hv, SetColor_ne _ _ _ _ hv]
    exact h

theorem colorStep_agree {cm1 cm2 : Int → Color} {v : Int}
    (h : cm1 v = cm2 v) (e : Event) : colorStep cm1 e v = colorStep cm2 e v := by
  cases e
  case discoverVertex u => exact SetColor_agree h u Color.kGray
  case finishVertex u => exact SetColor_agree h u Color.kBlack
  all_goals exact h

theorem colorStep_preserve {e : Event} {v : Int}
    (h1 : e ≠ Event.discoverVertex v) (h2 : e ≠ Event.finishVertex v)
    (cm : Int → Color) : colorStep cm e v = cm v := by
  cases e
  case discoverVertex u =>
    have hne : v ≠ u := fun hv => h1 (by rw [hv])
    exact SetColor_ne _ _ _ _ hne
  case finishVertex u =>
    have hne : v ≠ u := fun hv => h2 (by rw [hv])
    exact SetColor_ne _ _ _ _ hne
  all_goals rfl

theorem replay_agree (v : Int) :
    ∀ (l : List Event) (cm1 cm2 : Int → Color), cm1 v = cm2 v →
      replayColors cm1 l v = replayColors cm2 l v := by
  intro l
  induction l with
  | nil =>
    intro cm1 cm2 h
    exact h
  | cons e l ih =>
    intro cm1 cm2 h
    exact ih (colorStep cm1 e) (colorStep cm2 e) (colorStep_agree h e)

/-- The color of a vertex only depends on the discover/finish events of
that vertex. -/
theorem replay_eq_filter (v : Int) :
    ∀ (l : List Event) (cm : Int → Color),
      replayColors cm l v =
        replayColors cm (l.filter fun e =>
          e == Event.discoverVertex v || e == Event.finishVertex v) v := by
  intro l
  induction l with
  | nil =>
    intro cm
    rfl
  | cons e l ih =>
    intro cm
    by_cases he : (e == Event.discoverVertex v || e == Event.finishVertex v) = true
    · rw [List.filter_cons_of_pos (p := fun e => e == Event.discoverVertex v || e == Event.finishVertex v) he]
      exact ih (colorStep cm e)
    · rw [List.filter_cons_of_neg (p := fun e => e == Event.discoverVertex v || e == Event.finishVertex v) he]
      have hne1 : e ≠ Event.discoverVertex v := by
        intro h
        apply he
        rw [h]
        simp
      have hne2 : e ≠ Event.finishVertex v := by
        intro h
        apply he
        rw [h]
        simp
      calc replayColors cm (e :: l) v
          = replayColors (colorStep cm e) l v := rfl
        _ = replayColors cm l v :=
            replay_agree v l _ _ (colorStep_preserve hne1 hne2 cm)
        _ = _ := ih cm

theorem filter_pair_zero {a b : Event} {l : List Event}
    (ha : a ∉ l) (hb : b ∉ l) :
    l.filter (fun e => e == a || e == b) = [] := by
  apply List.filter_eq_nil_iff.mpr
  intro e he
  simp only [Bool.or_eq_true, beq_iff_eq, not_or]
  exact ⟨fun h => ha (h ▸ he), fun h => hb (h ▸ he)⟩

theorem filter_pair_one {a b : Event} (hab : a ≠ b) :
    ∀ l : List Event, l.count a = 0 → l.count b = 1 →
      l.filter (fun e => e == a || e == b) = [b] := by
  intro l
  induction l with
  | nil =>
    intro _ hb
    simp at hb
  | cons x xs ih =>
    intro ha hb
    by_cases hxb : x = b
    · subst hxb
      have hb' : xs.count x = 0 := by
        rw [List.count_cons_self] at hb
        omega
      have ha' : xs.count a = 0 := by
        rw [List.count_cons_of_ne hab] at ha
        exact ha
      rw [List.filter_cons_of_pos (p := fun e => e == a || e == x) (by simp)]
      rw [filter_pair_zero (List.count_eq_zero.mp ha')
        (List.count_eq_zero.mp hb')]
    · have hxa : x ≠ a := by
        intro h
        subst h
        rw [List.count_cons_self] at ha
        omega
      have ha' : xs.count a = 0 := by
        rw [List.count_cons_of_ne (Ne.symm hxa)] at ha
        exact ha
      have hb' : xs.count b = 1 := by
        rw [List.count_cons_of_ne (fun h => hxb h.symm)] at hb
        exact hb
      rw [List.filter_cons_of_neg (p := fun e => e == a || e == b) (by simp [hxa, hxb])]
      exact ih ha' hb'

/-- A list containing `a` once and `b` once, `a` first, filters to `[a, b]`
on the pair. -/
theorem filter_pair {a b : Event} (hab : a ≠ b) :
    ∀ l : List Event, l.count a = 1 → l.count b = 1 →
      pos l a < pos l b →
      l.filter (fun e => e == a || e == b) = [a, b] := by
  intro l
  induction l with
  | nil =>
    intro ha
    simp at ha
  | cons x xs ih =>
    intro ha hb hord
    by_cases hxa : x = a
    · subst hxa
      have ha' : xs.count x = 0 := by
        rw [List.count_cons_self] at ha
        omega
      have hb' : xs.count b = 1 := by
        rw [List.count_cons_of_ne (fun h => hab h.symm)] at hb
        exact hb
      rw [List.filter_cons_of_pos (p := fun e => e == x || e == b) (by simp)]
      rw [filter_pair_one hab xs ha' hb']
    · by_cases hxb : x = b
      · subst hxb
        rw [pos_cons_self] at hord
        exact absurd hord (Nat.not_lt_zero _)
      · have ha' : xs.count a = 1 := by
          rw [List.count_cons_of_ne (Ne.symm hxa)] at ha
          exact ha
        have hb' : xs.count b = 1 := by
          rw [List.count_cons_of_ne (Ne.symm hxb)] at hb
          exact hb
        have hord' : pos xs a < pos xs b := by
          rw [pos_cons_ne x a xs hxa, pos_cons_ne x b xs hxb] at hord
          omega
        rw [List.filter_cons_of_neg (p := fun e => e == a || e == b) (by simp [hxa, hxb])]
        exact ih ha' hb' hord'

/-- Filtering a trace to the discover/finish events of one vertex factors
through the discover/finish subsequence. -/
theorem filter_pair_dfSeq (v : Int) (l : List Event) :
    l.filter (fun e =>
        e == Event.discoverVertex v || e == Event.finishVertex v) =
      (dfSeq l).filter (fun e =>
        e == Event.discoverVertex v || e == Event.finishVertex v) := by
  rw [dfSeq, List.filter_filter]
  apply List.filter_congr
  intro x _
  cases x <;> simp [isDF]

theorem prefix_pair {l : List Event} {a b : Event} (h : l <+: [a, b]) :
    l = [] ∨ l = [a] ∨ l = [a, b] := by
  obtain ⟨t, ht⟩ := h
  cases l with
  | nil => exact Or.inl rfl
  | cons x xs =>
    cases xs with
    | nil =>
      simp only [List.cons_append, List.nil_append, List.cons.injEq] at ht
      exact Or.inr (Or.inl (by rw [ht.1]))
    | cons y ys =>
      simp only [List.cons_append, List.cons.injEq] at ht
      obtain ⟨rfl, rfl, hys⟩ := ht
      have : ys = [] := by
        cases ys with
        | nil => rfl
        | cons z zs => simp at hys
      subst this
      exact Or.inr (Or.inr rfl)

/-- Color of `v` after any prefix of a trace whose discover/finish events
for `v` are exactly one discovery followed by one finish. -/
theorem replay_take_char {tr : List Event} {v : Int}
    (h : tr.filter (fun e =>
        e == Event.discoverVertex v || e == Event.finishVertex v) =
      [Event.discoverVertex v, Event.finishVertex v]) (n : Nat) :
    replayColors (fun _ => Color.kWhite) (tr.take n) v =
      if Event.finishVertex v ∈ tr.take n then Color.kBlack
      else if Event.discoverVertex v ∈ tr.take n then Color.kGray
      else Color.kWhite := by
  have hpre : (tr.take n).filter (fun e =>
      e == Event.discoverVertex v || e == Event.finishVertex v) <+:
      [Event.discoverVertex v, Event.finishVertex v] := by
    rw [← h]
    exact ⟨(tr.drop n).filter _,
      by rw [← List.filter_append, List.take_append_drop]⟩
  rw [replay_eq_filter]
  rcases prefix_pair hpre with hf | hf | hf
  · have hd : Event.discoverVertex v ∉ tr.take n := by
      intro hm
      have : Event.discoverVertex v ∈ ([] : List Event) := by
        rw [← hf]
        exact List.mem_filter.mpr ⟨hm, by simp⟩
      cases this
    have hfin : Event.finishVertex v ∉ tr.take n := by
      intro hm
      have : Event.finishVertex v ∈ ([] : List Event) := by
        rw [← hf]
        exact List.mem_filter.mpr ⟨hm, by simp⟩
      cases this
    rw [hf, if_neg hfin, if_neg hd]
    rfl
  · have hd : Event.discoverVertex v ∈ tr.take n := by
      have : Event.discoverVertex v ∈
          (tr.take n).filter (fun e =>
            e == Event.discoverVertex v || e == Event.finishVertex v) := by
        rw [hf]
        exact List.mem_cons_self _ _
      exact (List.mem_filter.mp this).1
    have hfin : Event.finishVertex v ∉ tr.take n := by
      intro hm
      have : Event.finishVertex v ∈ [Event.discoverVertex v] := by
        rw [← hf]
        exact List.mem_filter.mpr ⟨hm, by simp⟩
      simp at this
    rw [hf, if_neg hfin, if_pos hd]
    simp [replayColors, colorStep, SetColor]
  · have hfin : Event.finishVertex v ∈ tr.take n := by
      have : Event.finishVertex v ∈
          (tr.take n).filter (fun e =>
            e == Event.discoverVertex v || e == Event.finishVertex v) := by
        rw [hf]
        simp
      exact (List.mem_filter.mp this).1
    rw [hf, if_pos hfin]
    simp [replayColors, colorStep, SetColor]

/-! ## The per-visit callback order holds of the engine -/

theorem edgesOrder_fuel (g : Graph) (hWF : WFGraph g) (fuel : Nat)
    (hvisit : ∀ cm v, v ∈ g.vertices_ → cm v = Color.kWhite →
      whiteCount g cm ≤ fuel →
      VisitOrder g cm v (DepthFirstSearchVisit g fuel cm v).1
        (DepthFirstSearchVisit g fuel cm v).2) :
    ∀ (es : List Edge) (cm : Int → Color),
      (∀ e ∈ es, e.destination ∈ g.vertices_) →
      whiteCount g cm ≤ fuel →
      EdgesOrder g cm es (edgeSteps (DepthFirstSearchVisit g fuel) cm es).1
        (edgeSteps (DepthFirstSearchVisit g fuel) cm es).2 := by
  intro es
  induction es with
  | nil =>
    intro cm _ _
    exact EdgesOrder.nil cm
  | cons e es ihe =>
    intro cm hes hwc
    have hdst := hes e (List.mem_cons_self _ _)
    have hes' : ∀ e' ∈ es, e'.destination ∈ g.vertices_ :=
      fun e' h => hes e' (List.mem_cons_of_mem _ h)
    by_cases hwhite : GetColor cm e.destination = Color.kWhite
    · rw [edgeSteps_cons_white es hwhite]
      exact EdgesOrder.tree cm e es _ _ _ _ hwhite
        (hvisit cm e.destination hdst hwhite hwc)
        (ihe _ hes' (le_trans (visit_whiteCount_le g fuel cm e.destination) hwc))
    · by_cases hgray : GetColor cm e.destination = Color.kGray
      · rw [edgeSteps_cons_gray es hgray]
        exact EdgesOrder.back cm e es _ _ hgray (ihe cm hes' hwc)
      · have hblack : GetColor cm e.destination = Color.kBlack := by
          cases h : GetColor cm e.destination
          · exact absurd h hwhite
          · exact absurd h hgray
          · rfl
        rw [edgeSteps_cons_black es hblack]
        exact EdgesOrder.cross cm e es _ _ hblack (ihe cm hes' hwc)

theorem visitOrder_fuel (g : Graph) (hWF : WFGraph g) :
    ∀ (fuel : Nat) (cm : Int → Color) (v : Int),
      v ∈ g.vertices_ → cm v = Color.kWhite → whiteCount g cm ≤ fuel →
      VisitOrder g cm v (DepthFirstSearchVisit g fuel cm v).1
        (DepthFirstSearchVisit g fuel cm v).2 := by
  intro fuel
  induction fuel with
  | zero =>
    intro cm v hv hw hwc
    exact absurd (whiteCount_pos hv hw) (by omega)
  | succ n ih =>
    intro cm v hv hw hwc
    have hes : ∀ e ∈ g.GetOutgoingEdges v, e.destination ∈ g.vertices_ :=
      fun e he => (hWF.2 v e he).2
    have hwc1 : whiteCount g (SetColor cm v Color.kGray) ≤ n := by
      have := whiteCount_setGray hWF.1 hv hw
      omega
    rw [visit_succ]
    exact VisitOrder.visit cm v _ _
      (edgesOrder_fuel g hWF n ih (g.GetOutgoingEdges v)
        (SetColor cm v Color.kGray) hes hwc1)

/-! ## Edge classification along a matched visit -/

theorem count_initEvents_other (l : List Int) (ev : Event)
    (h : ∀ v, ev ≠ Event.initVertex v) :
    (l.map Event.initVertex).count ev = 0 := by
  apply List.count_eq_zero.mpr
  intro hm
  obtain ⟨v, _, hv⟩ := List.mem_map.mp hm
  exact h v hv.symm

mutual

/-- A matched visit trace classifies every examined edge as a tree edge:
it contains no `backEdge` or `forwardOrCrossEdge` events, and its
`treeEdge` events biject with its `examineEdge` events. -/
theorem visitTrace_classes (T : STree) :
    ∀ e0 : Edge, Event.backEdge e0 ∉ visitTrace T ∧
      Event.forwardOrCrossEdge e0 ∉ visitTrace T ∧
      (visitTrace T).count (Event.treeEdge e0) =
        (visitTrace T).count (Event.examineEdge e0) := by
  cases T with
  | node v ts =>
    intro e0
    obtain ⟨h1, h2, h3⟩ := visitForest_classes v ts e0
    refine ⟨?_, ?_, ?_⟩
    · rw [visitTrace_node]
      intro hm
      rcases List.mem_cons.mp hm with hm | hm
      · cases hm
      · rcases List.mem_append.mp hm with hm | hm
        · exact h1 hm
        · simp at hm
    · rw [visitTrace_node]
      intro hm
      rcases List.mem_cons.mp hm with hm | hm
      · cases hm
      · rcases List.mem_append.mp hm with hm | hm
        · exact h2 hm
        · simp at hm
    · rw [visitTrace_node]
      simp only [List.count_cons, List.count_append]
      simp [h3]

theorem visitForest_classes (p : Int) (ts : List STree) :
    ∀ e0 : Edge, Event.backEdge e0 ∉ visitForest p ts ∧
      Event.forwardOrCrossEdge e0 ∉ visitForest p ts ∧
      (visitForest p ts).count (Event.treeEdge e0) =
        (visitForest p ts).count (Event.examineEdge e0) := by
  cases ts with
  | nil =>
    intro e0
    refine ⟨?_, ?_, ?_⟩ <;> simp [visitForest]
  | cons t ts =>
    intro e0
    obtain ⟨h1, h2, h3⟩ := visitTrace_classes t e0
    obtain ⟨h1', h2', h3'⟩ := visitForest_classes p ts e0
    refine ⟨?_, ?_, ?_⟩
    · rw [visitForest_cons]
      intro hm
      rcases List.mem_append.mp hm with hm | hm
      · rcases List.mem_cons.mp hm with hm | hm
        · cases hm
        · rcases List.mem_append.mp hm with hm | hm
          · exact h1 hm
          · simp at hm
      · exact h1' hm
    · rw [visitForest_cons]
      intro hm
      rcases List.mem_append.mp hm with hm | hm
      · rcases List.mem_cons.mp hm with hm | hm
        · cases hm
        · rcases List.mem_append.mp hm with hm | hm
          · exact h2 hm
          · simp at hm
      · exact h2' hm
    · rw [visitForest_cons]
      simp only [List.count_cons, List.count_append]
      simp only [h3, h3']
      by_cases he : e0 = (⟨p, t.rootV⟩ : Edge) <;> simp [he] <;> omega

end

/-! ## Last helpers before the claims -/

theorem length_eq_of_nodup_mem {l1 l2 : List Int} (h1 : l1.Nodup)
    (h2 : l2.Nodup) (h : ∀ x, x ∈ l1 ↔ x ∈ l2) : l1.length = l2.length :=
  ((List.perm_ext_iff_of_nodup h1 h2).mpr h).length_eq

theorem answerQuery_eq_one (tv : TimeDFSVisitor) (a v : Int) :
    answerQuery tv a v = 1 ↔
      (tv.time_in a ≤ tv.time_in v ∧ tv.time_out v ≤ tv.time_out a) := by
  rw [answerQuery]
  split
  · simp [*]
  · simp [*]

theorem mainRun_map (ps : List Nat) (queries : List (Nat × Nat)) :
    mainRun ps queries = queries.map fun q =>
      answerQuery (driverVisitor ps) (Int.ofNat q.1 - 1) (Int.ofNat q.2 - 1) :=
  rfl

theorem neg_one_not_mem_driver (ps : List Nat) :
    (-1 : Int) ∉ ((buildInput ps).1).vertices_ := by
  rw [driver_vertices]
  intro h
  obtain ⟨u, _, hu⟩ := List.mem_map.mp h
  have hnn : (0 : Int) ≤ Int.ofNat u := Int.ofNat_nonneg u
  omega

/-- If the containment test passes on the driver's run, the tested pair is
an ancestor pair of the input forest (any forest, multi-root included). -/
theorem driver_condition_sound {ps : List Nat} {a v : Nat}
    (ha : a < ps.length) (hv : v < ps.length)
    (hcond : (driverVisitor ps).time_in (Int.ofNat a) ≤
        (driverVisitor ps).time_in (Int.ofNat v) ∧
      (driverVisitor ps).time_out (Int.ofNat v) ≤
        (driverVisitor ps).time_out (Int.ofNat a)) :
    Ancestor ps a v := by
  obtain ⟨TS, hdf, hsup, hnd, hig, _, _, _, _, htimes⟩ :=
    run_times (buildInput ps).1 (driver_wf ps) (buildInput ps).2
      (driver_start_ok ps)
  have hma : Int.ofNat a ∈ ((buildInput ps).1).vertices_ :=
    (driver_verts_mem ps a).mpr ha
  have hmv : Int.ofNat v ∈ ((buildInput ps).1).vertices_ :=
    (driver_verts_mem ps v).mpr hv
  obtain ⟨hta, hoa, _, _⟩ := htimes _ hma
  obtain ⟨htv, hov, _, _⟩ := htimes _ hmv
  rw [driverVisitor, hta, htv, hoa, hov] at hcond
  have hdesc := pos_descF TS hnd ((hsup _).mpr hma) ((hsup _).mpr hmv)
    hcond.1 hcond.2
  exact descF_anc ps TS hig a v hdesc

/-- Once the finish event of `v` is in a prefix, so is its discovery. -/
theorem filter_pair_take_mem {tr : List Event} {v : Int}
    (h : tr.filter (fun e =>
        e == Event.discoverVertex v || e == Event.finishVertex v) =
      [Event.discoverVertex v, Event.finishVertex v]) (n : Nat)
    (hf : Event.finishVertex v ∈ tr.take n) :
    Event.discoverVertex v ∈ tr.take n := by
  have hpre : (tr.take n).filter (fun e =>
      e == Event.discoverVertex v || e == Event.finishVertex v) <+:
      [Event.discoverVertex v, Event.finishVertex v] := by
    rw [← h]
    exact ⟨(tr.drop n).filter _,
      by rw [← List.filter_append, List.take_append_drop]⟩
  have hfmem : Event.finishVertex v ∈
      (tr.take n).filter (fun e =>
        e == Event.discoverVertex v || e == Event.finishVertex v) :=
    List.mem_filter.mpr ⟨hf, by simp⟩
  rcases prefix_pair hpre with hfl | hfl | hfl
  · rw [hfl] at hfmem
    cases hfmem
  · rw [hfl] at hfmem
    simp at hfmem
  · have : Event.discoverVertex v ∈
        (tr.take n).filter (fun e =>
          e == Event.discoverVertex v || e == Event.finishVertex v) := by
      rw [hfl]
      exact List.mem_cons_self _ _
    exact (List.mem_filter.mp this).1

theorem ofNat_sub_one {q : Nat} (h : 1 ≤ q) :
    Int.ofNat q - 1 = Int.ofNat (q - 1) := by
  rw [Int.ofNat_eq_natCast, Int.ofNat_eq_natCast]
  omega

theorem answerQuery_eq_zero (tv : TimeDFSVisitor) (a v : Int)
    (h : ¬(tv.time_in a ≤ tv.time_in v ∧ tv.time_out v ≤ tv.time_out a)) :
    answerQuery tv a v = 0 := by
  rw [answerQuery, if_neg h]

/-! ## The claims -/

/-- C1: on a tree input (unique root), every driver query `(a, v)` with
in-range 1-based components answers `1` exactly when
`time_in[a-1] ≤ time_in[v-1]` and `time_out[v-1] ≤ time_out[a-1]`; that
condition holds iff `a-1` is an ancestor-or-self of `v-1` in the input
forest; and every self query `(v, v)` answers `1`.  The first conjunct
ties the per-query test to the emitted output of the whole driver run. -/
theorem C1_ancestor_query_correct {ps : List Nat} {r : Nat} (hF : Forest ps)
    (hroot : rootList ps = [r]) (queries : List (Nat × Nat))
    (hq : ∀ q ∈ queries,
      1 ≤ q.1 ∧ q.1 ≤ ps.length ∧ 1 ≤ q.2 ∧ q.2 ≤ ps.length) :
    mainRun ps queries = queries.map (fun q =>
      answerQuery (driverVisitor ps)
        (Int.ofNat q.1 - 1) (Int.ofNat q.2 - 1)) ∧
    ∀ q ∈ queries,
      (answerQuery (driverVisitor ps)
          (Int.ofNat q.1 - 1) (Int.ofNat q.2 - 1) = 1 ↔
        ((driverVisitor ps).time_in (Int.ofNat q.1 - 1) ≤
            (driverVisitor ps).time_in (Int.ofNat q.2 - 1) ∧
          (driverVisitor ps).time_out (Int.ofNat q.2 - 1) ≤
            (driverVisitor ps).time_out (Int.ofNat q.1 - 1))) ∧
      (answerQuery (driverVisitor ps)
          (Int.ofNat q.1 - 1) (Int.ofNat q.2 - 1) = 1 ↔
        Ancestor ps (q.1 - 1) (q.2 - 1)) ∧
      (q.1 = q.2 →
        answerQuery (driverVisitor ps)
          (Int.ofNat q.1 - 1) (Int.ofNat q.2 - 1) = 1) := by
  refine ⟨mainRun_map ps queries, ?_⟩
  intro q hqm
  obtain ⟨h1, h2, h3, h4⟩ := hq q hqm
  have hc1 : Int.ofNat q.1 - 1 = Int.ofNat (q.1 - 1) := ofNat_sub_one h1
  have hc2 : Int.ofNat q.2 - 1 = Int.ofNat (q.2 - 1) := ofNat_sub_one h3
  have ha : q.1 - 1 < ps.length := by omega
  have hv : q.2 - 1 < ps.length := by omega
  have hiff1 := answerQuery_eq_one (driverVisitor ps)
    (Int.ofNat q.1 - 1) (Int.ofNat q.2 - 1)
  have hiff2 : ((driverVisitor ps).time_in (Int.ofNat q.1 - 1) ≤
        (driverVisitor ps).time_in (Int.ofNat q.2 - 1) ∧
      (driverVisitor ps).time_out (Int.ofNat q.2 - 1) ≤
        (driverVisitor ps).time_out (Int.ofNat q.1 - 1)) ↔
      Ancestor ps (q.1 - 1) (q.2 - 1) := by
    rw [hc1, hc2]
    exact driver_condition_iff hF hroot ha hv
  refine ⟨hiff1, hiff1.trans hiff2, ?_⟩
  intro heq
  apply (hiff1.trans hiff2).mpr
  have hsame : q.1 - 1 = q.2 - 1 := by omega
  rw [hsame]
  exact ancestor_refl ps _

theorem C1_witness :
    Forest [0, 1, 1] ∧ rootList [0, 1, 1] = [0] ∧
      (∀ q ∈ [((1 : Nat), (2 : Nat))],
        1 ≤ q.1 ∧ q.1 ≤ [0, 1, 1].length ∧
        1 ≤ q.2 ∧ q.2 ≤ [0, 1, 1].length) ∧
      mainRun [0, 1, 1] [(1, 2)] = [(1, 2)].map (fun q =>
        answerQuery (driverVisitor [0, 1, 1])
          (Int.ofNat q.1 - 1) (Int.ofNat q.2 - 1)) :=
  ⟨by unfold Forest ValidParents; decide, by decide, by decide,
    (C1_ancestor_query_correct (r := 0)
      (by unfold Forest ValidParents; decide)
      (by decide) [(1, 2)] (by decide)).1⟩

/-- C2 (amended): on any forest input, a query whose 0-based pair is not
an ancestor-or-self pair always answers `0`; the direct-parent direction
`(p, v) ↦ 1` holds when the forest has a unique root.  On multi-root
forests the direct-parent direction fails (see the counterexample): the
driver starts at the last root, so a parent's tree can be swept after its
child's tree already received timestamps. -/
theorem C2_containment_amended {ps : List Nat} (hF : Forest ps) {a v : Nat}
    (ha1 : 1 ≤ a) (ha2 : a ≤ ps.length) (hv1 : 1 ≤ v) (hv2 : v ≤ ps.length) :
    (¬Ancestor ps (a - 1) (v - 1) → mainRun ps [(a, v)] = [0]) ∧
    (∀ r : Nat, rootList ps = [r] → parentOf ps (v - 1) = some (a - 1) →
      mainRun ps [(a, v)] = [1]) := by
  have hc1 : Int.ofNat a - 1 = Int.ofNat (a - 1) := ofNat_sub_one ha1
  have hc2 : Int.ofNat v - 1 = Int.ofNat (v - 1) := ofNat_sub_one hv1
  have ha : a - 1 < ps.length := by omega
  have hv : v - 1 < ps.length := by omega
  have hrun : mainRun ps [(a, v)] = [answerQuery (driverVisitor ps)
      (Int.ofNat (a - 1)) (Int.ofNat (v - 1))] := by
    rw [mainRun_map]
    simp only [List.map_cons, List.map_nil]
    rw [← hc1, ← hc2]
  constructor
  · intro hnot
    rw [hrun, answerQuery_eq_zero]
    intro hcond
    exact hnot (driver_condition_sound ha hv hcond)
  · intro r hroot hpar
    rw [hrun]
    have hone : answerQuery (driverVisitor ps)
        (Int.ofNat (a - 1)) (Int.ofNat (v - 1)) = 1 :=
      (answerQuery_eq_one _ _ _).mpr
        ((driver_condition_iff hF hroot ha hv).mpr (ancestor_step hpar))
    rw [hone]

theorem C2_witness :
    Forest [0, 1, 1] ∧ (1 ≤ 1 ∧ 1 ≤ [0, 1, 1].length) ∧
      (1 ≤ 2 ∧ 2 ≤ [0, 1, 1].length) ∧
      (∀ r : Nat, rootList [0, 1, 1] = [r] →
        parentOf [0, 1, 1] (2 - 1) = some (1 - 1) →
        mainRun [0, 1, 1] [(1, 2)] = [1]) :=
  ⟨by unfold Forest ValidParents; decide, by decide, by decide,
    (C2_containment_amended (by unfold Forest ValidParents; decide)
      (by decide) (by decide) (by decide) (by decide)).2⟩

/-- C2 counterexample: on the two-root forest `[2, 0, 0]` — vertex 1 is
the direct parent of vertex 0, vertices 1 and 2 are roots — the
direct-parent query `(2, 1)` (0-based pair `(1, 0)`) answers `0`, because
the run starts at the last root 2 and the sweep then visits vertex 0
(while its parent, vertex 1, is still undiscovered). -/
theorem C2_counterexample :
    Forest [2, 0, 0] ∧ parentOf [2, 0, 0] 0 = some 1 ∧
      mainRun [2, 0, 0] [(2, 1)] = [0] :=
  ⟨by unfold Forest ValidParents; decide, by decide, by rfl⟩

/-- C3: a full run discovers and finishes every vertex of the graph
exactly once (so the sweep covers disconnected components and forests),
examines every stored outgoing edge exactly once (counted with
multiplicity over all adjacency lists), and when an explicit start vertex
is given, the very first discovery is the start vertex. -/
theorem C3_full_coverage (g : Graph) (hWF : WFGraph g) (start : Int)
    (hstart : start = -1 ∨ start ∈ g.vertices_) :
    (∀ v ∈ g.GetVertices,
      (DepthFirstSearch g start).2.count (Event.discoverVertex v) = 1 ∧
      (DepthFirstSearch g start).2.count (Event.finishVertex v) = 1) ∧
    (∀ e0 : Edge,
      (DepthFirstSearch g start).2.count (Event.examineEdge e0) =
        (g.GetVertices.map fun u => (g.GetOutgoingEdges u).count e0).sum) ∧
    (start ≠ -1 →
      (dfSeq (DepthFirstSearch g start).2).head? =
        some (Event.discoverVertex start)) := by
  obtain ⟨TS, hdf, hsup, hnd, _, hcnt, _, _, hfirst, htimes⟩ :=
    run_times g hWF start hstart
  refine ⟨?_, ?_, ?_⟩
  · intro v hv
    obtain ⟨_, _, hd, hf⟩ := htimes v hv
    exact ⟨hd, hf⟩
  · intro e0
    rw [hcnt e0]
    have hperm : List.Perm (supportF TS) g.GetVertices :=
      (List.perm_ext_iff_of_nodup hnd hWF.1).mpr hsup
    exact (hperm.map _).sum_eq
  · intro hne
    obtain ⟨T, TS', rfl, hrootT⟩ := hfirst hne
    rw [hdf]
    cases T with
    | node rv ts =>
      rw [STree.rootV] at hrootT
      rw [eulerForest_cons, eulerTour_node, List.cons_append,
        List.cons_append, List.head?_cons, hrootT]

theorem C3_witness :
    WFGraph (buildInput [0, 1]).1 ∧
      ((buildInput [0, 1]).2 = -1 ∨
        (buildInput [0, 1]).2 ∈ ((buildInput [0, 1]).1).vertices_) ∧
      (DepthFirstSearch (buildInput [0, 1]).1 (buildInput [0, 1]).2).2.count
        (Event.discoverVertex 1) = 1 :=
  ⟨driver_wf _, driver_start_ok _,
    ((C3_full_coverage _ (driver_wf _) _ (driver_start_ok _)).1 1
      (by decide)).1⟩

/-- C4: after a full run, every vertex has `time_in < time_out ≤ 2V - 1`
(timestamps are naturals, so `0 ≤ time_in` holds by type), and the `2V`
recorded values — the `time_in` image and the `time_out` image of the
vertex list — contain no duplicates. -/
theorem C4_timestamps (g : Graph) (hWF : WFGraph g) (start : Int)
    (hstart : start = -1 ∨ start ∈ g.vertices_) :
    (∀ v ∈ g.GetVertices,
      (runVisitor (DepthFirstSearch g start).2).time_in v <
        (runVisitor (DepthFirstSearch g start).2).time_out v ∧
      (runVisitor (DepthFirstSearch g start).2).time_out v ≤
        2 * g.GetVertices.length - 1) ∧
    (g.GetVertices.map (runVisitor (DepthFirstSearch g start).2).time_in ++
      g.GetVertices.map
        (runVisitor (DepthFirstSearch g start).2).time_out).Nodup := by
  obtain ⟨TS, hdf, hsup, hnd, _, _, _, _, _, htimes⟩ :=
    run_times g hWF start hstart
  have hlen : (supportF TS).length = g.GetVertices.length :=
    length_eq_of_nodup_mem hnd hWF.1 hsup
  constructor
  · intro v hv
    obtain ⟨hin, hout, _, _⟩ := htimes v hv
    have hmem : v ∈ supportF TS := (hsup v).mpr hv
    have hlt := forest_d_lt_f TS hnd hmem
    have hplen : pos (eulerForest TS) (Event.finishVertex v) <
        (eulerForest TS).length :=
      pos_lt_length (mem_finish_forest.mpr hmem)
    rw [length_forest, hlen] at hplen
    rw [hin, hout]
    omega
  · have hnd_in : (g.GetVertices.map
        (runVisitor (DepthFirstSearch g start).2).time_in).Nodup := by
      refine List.Nodup.map_on ?_ hWF.1
      intro x hx y hy hxy
      obtain ⟨hinx, _, _, _⟩ := htimes x hx
      obtain ⟨hiny, _, _, _⟩ := htimes y hy
      rw [hinx, hiny] at hxy
      have hee := pos_inj
        (mem_discover_forest.mpr ((hsup x).mpr hx)) hxy
      exact Event.discoverVertex.inj hee
    have hnd_out : (g.GetVertices.map
        (runVisitor (DepthFirstSearch g start).2).time_out).Nodup := by
      refine List.Nodup.map_on ?_ hWF.1
      intro x hx y hy hxy
      obtain ⟨_, houtx, _, _⟩ := htimes x hx
      obtain ⟨_, houty, _, _⟩ := htimes y hy
      rw [houtx, houty] at hxy
      have hee := pos_inj
        (mem_finish_forest.mpr ((hsup x).mpr hx)) hxy
      exact Event.finishVertex.inj hee
    refine List.Nodup.append hnd_in hnd_out ?_
    intro x hx1 hx2
    obtain ⟨u, hu, hux⟩ := List.mem_map.mp hx1
    obtain ⟨w, hw, hwx⟩ := List.mem_map.mp hx2
    obtain ⟨hinu, _, _, _⟩ := htimes u hu
    obtain ⟨_, houtw, _, _⟩ := htimes w hw
    have hpos : pos (eulerForest TS) (Event.discoverVertex u) =
        pos (eulerForest TS) (Event.finishVertex w) := by
      rw [← hinu, ← houtw, hux, hwx]
    have hee := pos_inj
      (mem_discover_forest.mpr ((hsup u).mpr hu)) hpos
    simp at hee

theorem C4_witness :
    WFGraph (buildInput [0, 1]).1 ∧
      ((buildInput [0, 1]).2 = -1 ∨
        (buildInput [0, 1]).2 ∈ ((buildInput [0, 1]).1).vertices_) ∧
      (((buildInput [0, 1]).1).GetVertices.map
          (runVisitor (DepthFirstSearch (buildInput [0, 1]).1
            (buildInput [0, 1]).2).2).time_in ++
        ((buildInput [0, 1]).1).GetVertices.map
          (runVisitor (DepthFirstSearch (buildInput [0, 1]).1
            (buildInput [0, 1]).2).2).time_out).Nodup :=
  ⟨driver_wf _, driver_start_ok _,
    (C4_timestamps _ (driver_wf _) _ (driver_start_ok _)).2⟩

/-- C5: after a full run, every vertex's interval is proper
(`time_in < time_out`), and the intervals of two distinct vertices are
either disjoint or strictly nested — never partially overlapping. -/
theorem C5_interval_nesting (g : Graph) (hWF : WFGraph g) (start : Int)
    (hstart : start = -1 ∨ start ∈ g.vertices_) (u v : Int)
    (hu : u ∈ g.GetVertices) (hv : v ∈ g.GetVertices) (huv : u ≠ v) :
    (runVisitor (DepthFirstSearch g start).2).time_in u <
      (runVisitor (DepthFirstSearch g start).2).time_out u ∧
    ((runVisitor (DepthFirstSearch g start).2).time_out u <
        (runVisitor (DepthFirstSearch g start).2).time_in v ∨
      (runVisitor (DepthFirstSearch g start).2).time_out v <
        (runVisitor (DepthFirstSearch g start).2).time_in u ∨
      ((runVisitor (DepthFirstSearch g start).2).time_in u <
          (runVisitor (DepthFirstSearch g start).2).time_in v ∧
        (runVisitor (DepthFirstSearch g start).2).time_out v <
          (runVisitor (DepthFirstSearch g start).2).time_out u) ∨
      ((runVisitor (DepthFirstSearch g start).2).time_in v <
          (runVisitor (DepthFirstSearch g start).2).time_in u ∧
        (runVisitor (DepthFirstSearch g start).2).time_out u <
          (runVisitor (DepthFirstSearch g start).2).time_out v)) := by
  obtain ⟨TS, hdf, hsup, hnd, _, _, _, _, _, htimes⟩ :=
    run_times g hWF start hstart
  obtain ⟨hiu, hou, _, _⟩ := htimes u hu
  obtain ⟨hiv, hov, _, _⟩ := htimes v hv
  have hmu : u ∈ supportF TS := (hsup u).mpr hu
  have hmv : v ∈ supportF TS := (hsup v).mpr hv
  have hdne : pos (eulerForest TS) (Event.discoverVertex u) ≠
      pos (eulerForest TS) (Event.discoverVertex v) := by
    intro h
    have hee := pos_inj (mem_discover_forest.mpr hmu) h
    exact huv (Event.discoverVertex.inj hee)
  have hfne : pos (eulerForest TS) (Event.finishVertex v) ≠
      pos (eulerForest TS) (Event.finishVertex u) := by
    intro h
    have hee := pos_inj (mem_finish_forest.mpr hmv) h
    exact huv (Event.finishVertex.inj hee).symm
  refine ⟨?_, ?_⟩
  · rw [hiu, hou]
    exact forest_d_lt_f TS hnd hmu
  · rw [hiu, hou, hiv, hov]
    by_cases h1 : descF u v TS
    · by_cases h2 : descF v u TS
      · exfalso
        obtain ⟨ha1, _⟩ := descF_pos TS hnd h1
        obtain ⟨ha2, _⟩ := descF_pos TS hnd h2
        exact hdne (le_antisymm ha1 ha2)
      · obtain ⟨ha1, hb1⟩ := descF_pos TS hnd h1
        exact Or.inr (Or.inr (Or.inl
          ⟨lt_of_le_of_ne ha1 hdne, lt_of_le_of_ne hb1 hfne⟩))
    · by_cases h2 : descF v u TS
      · obtain ⟨ha2, hb2⟩ := descF_pos TS hnd h2
        exact Or.inr (Or.inr (Or.inr
          ⟨lt_of_le_of_ne ha2 (Ne.symm hdne),
            lt_of_le_of_ne hb2 (Ne.symm hfne)⟩))
      · rcases nondesc_disjoint_F TS hnd hmu hmv h1 h2 with h | h
        · exact Or.inl h
        · exact Or.inr (Or.inl h)

theorem C5_witness :
    WFGraph (buildInput [0, 1]).1 ∧ ((0 : Int) ≠ 1) ∧
      (0 : Int) ∈ ((buildInput [0, 1]).1).GetVertices ∧
      (runVisitor (DepthFirstSearch (buildInput [0, 1]).1
          (buildInput [0, 1]).2).2).time_in 0 <
        (runVisitor (DepthFirstSearch (buildInput [0, 1]).1
          (buildInput [0, 1]).2).2).time_out 0 :=
  ⟨driver_wf _, by decide, by decide,
    (C5_interval_nesting _ (driver_wf _) _ (driver_start_ok _) 0 1
      (by decide) (by decide) (by decide)).1⟩

/-- C6: per vertex, the discover/finish events of a full run are exactly
one discovery followed by one finish (never re-discovered, never
re-finished, never finished before discovered); consequently, replaying
the engine's color writes along any step of the trace moves the vertex's
color only forward along unvisited → in-progress → finished, one state at
a time; and the engine's final colormap agrees with that replay. -/
theorem C6_color_state_machine (g : Graph) (hWF : WFGraph g) (start : Int)
    (hstart : start = -1 ∨ start ∈ g.vertices_) (v : Int)
    (hv : v ∈ g.GetVertices) :
    (DepthFirstSearch g start).2.filter (fun e =>
        e == Event.discoverVertex v || e == Event.finishVertex v) =
      [Event.discoverVertex v, Event.finishVertex v] ∧
    (∀ n : Nat,
      replayColors (fun _ => Color.kWhite)
          ((DepthFirstSearch g start).2.take (n + 1)) v =
        replayColors (fun _ => Color.kWhite)
          ((DepthFirstSearch g start).2.take n) v ∨
      (replayColors (fun _ => Color.kWhite)
            ((DepthFirstSearch g start).2.take n) v = Color.kWhite ∧
        replayColors (fun _ => Color.kWhite)
            ((DepthFirstSearch g start).2.take (n + 1)) v = Color.kGray) ∨
      (replayColors (fun _ => Color.kWhite)
            ((DepthFirstSearch g start).2.take n) v = Color.kGray ∧
        replayColors (fun _ => Color.kWhite)
            ((DepthFirstSearch g start).2.take (n + 1)) v = Color.kBlack)) ∧
    (DepthFirstSearch g start).1 v =
      replayColors (fun _ => Color.kWhite) (DepthFirstSearch g start).2 v := by
  obtain ⟨TS, hdf, hsup, hnd, _, _, _, hcm, _, htimes⟩ :=
    run_times g hWF start hstart
  obtain ⟨_, _, hcd, hcf⟩ := htimes v hv
  have hmem : v ∈ supportF TS := (hsup v).mpr hv
  have hfil : (DepthFirstSearch g start).2.filter (fun e =>
      e == Event.discoverVertex v || e == Event.finishVertex v) =
      [Event.discoverVertex v, Event.finishVertex v] := by
    rw [filter_pair_dfSeq]
    apply filter_pair (by simp) (dfSeq (DepthFirstSearch g start).2)
    · rw [count_dfSeq (e := Event.discoverVertex v) rfl]
      exact hcd
    · rw [count_dfSeq (e := Event.finishVertex v) rfl]
      exact hcf
    · rw [hdf]
      exact forest_d_lt_f TS hnd hmem
  refine ⟨hfil, ?_, ?_⟩
  · intro n
    rw [replay_take_char hfil n, replay_take_char hfil (n + 1)]
    by_cases hfn : Event.finishVertex v ∈ (DepthFirstSearch g start).2.take n
    · have hfn1 : Event.finishVertex v ∈
          (DepthFirstSearch g start).2.take (n + 1) := by
        rw [List.take_succ]
        exact List.mem_append.mpr (Or.inl hfn)
      rw [if_pos hfn, if_pos hfn1]
      exact Or.inl rfl
    · by_cases hdn : Event.discoverVertex v ∈
          (DepthFirstSearch g start).2.take n
      · have hdn1 : Event.discoverVertex v ∈
            (DepthFirstSearch g start).2.take (n + 1) := by
          rw [List.take_succ]
          exact List.mem_append.mpr (Or.inl hdn)
        by_cases hfn1 : Event.finishVertex v ∈
            (DepthFirstSearch g start).2.take (n + 1)
        · rw [if_neg hfn, if_pos hdn, if_pos hfn1]
          exact Or.inr (Or.inr ⟨rfl, rfl⟩)
        · rw [if_neg hfn, if_pos hdn, if_neg hfn1, if_pos hdn1]
          exact Or.inl rfl
      · by_cases hfn1 : Event.finishVertex v ∈
            (DepthFirstSearch g start).2.take (n + 1)
        · exfalso
          have hdn1 : Event.discoverVertex v ∈
              (DepthFirstSearch g start).2.take (n + 1) :=
            filter_pair_take_mem hfil (n + 1) hfn1
          rw [List.take_succ] at hdn1 hfn1
          rcases List.mem_append.mp hdn1 with h | h
          · exact hdn h
          rcases List.mem_append.mp hfn1 with h' | h'
          · exact hfn h'
          cases hLn : (DepthFirstSearch g start).2[n]? with
          | none =>
            rw [hLn] at h
            simp [Option.toList] at h
          | some a =>
            rw [hLn] at h h'
            simp [Option.toList] at h h'
            exact absurd (h'.trans h.symm) (by simp)
        · by_cases hdn1 : Event.discoverVertex v ∈
              (DepthFirstSearch g start).2.take (n + 1)
          · rw [if_neg hfn, if_neg hdn, if_neg hfn1, if_pos hdn1]
            exact Or.inr (Or.inl ⟨rfl, rfl⟩)
          · rw [if_neg hfn, if_neg hdn, if_neg hfn1, if_neg hdn1]
            exact Or.inl rfl
  · rw [hcm, blacken_mem hmem]
    have hchar := replay_take_char hfil (DepthFirstSearch g start).2.length
    rw [List.take_length] at hchar
    have hfmem : Event.finishVertex v ∈ (DepthFirstSearch g start).2 := by
      apply List.count_pos_iff.mp
      rw [hcf]
      omega
    rw [hchar, if_pos hfmem]

theorem C6_witness :
    WFGraph (buildInput [0, 1]).1 ∧
      (0 : Int) ∈ ((buildInput [0, 1]).1).GetVertices ∧
      (DepthFirstSearch (buildInput [0, 1]).1
          (buildInput [0, 1]).2).2.filter (fun e =>
          e == Event.discoverVertex 0 || e == Event.finishVertex 0) =
        [Event.discoverVertex 0, Event.finishVertex 0] :=
  ⟨driver_wf _, by decide,
    (C6_color_state_machine _ (driver_wf _) _ (driver_start_ok _) 0
      (by decide)).1⟩

/-- C7: the visit of a white in-range vertex (run with the engine's fuel,
the vertex count) produces exactly the specified callback pattern:
`discoverVertex` first, then per outgoing edge in order an `examineEdge`,
exactly one of `treeEdge` (after fully visiting the white destination),
`backEdge` (gray destination) or `forwardOrCrossEdge` (black
destination), then `finishEdge`, and `finishVertex` last. -/
theorem C7_visit_order (g : Graph) (hWF : WFGraph g) (cm : Int → Color)
    (v : Int) (hv : v ∈ g.GetVertices) (hw : cm v = Color.kWhite) :
    VisitOrder g cm v
      (DepthFirstSearchVisit g g.GetVertices.length cm v).1
      (DepthFirstSearchVisit g g.GetVertices.length cm v).2 :=
  visitOrder_fuel g hWF g.GetVertices.length cm v hv hw
    (List.countP_le_length _)

theorem C7_witness :
    WFGraph (buildInput [0, 1]).1 ∧
      (0 : Int) ∈ ((buildInput [0, 1]).1).GetVertices ∧
      (fun _ : Int => Color.kWhite) 0 = Color.kWhite ∧
      VisitOrder (buildInput [0, 1]).1 (fun _ => Color.kWhite) 0
        (DepthFirstSearchVisit (buildInput [0, 1]).1
          ((buildInput [0, 1]).1).GetVertices.length
          (fun _ => Color.kWhite) 0).1
        (DepthFirstSearchVisit (buildInput [0, 1]).1
          ((buildInput [0, 1]).1).GetVertices.length
          (fun _ => Color.kWhite) 0).2 :=
  ⟨driver_wf _, by decide, rfl,
    C7_visit_order _ (driver_wf _) _ 0 (by decide) rfl⟩

/-- C8: the traversal is deterministic — two independent runs over the
same immutable graph with the same start vertex, each with a fresh
colormap and a fresh timestamp visitor, produce identical `time_in` and
`time_out` assignments.  In the embedding both runs are the same pure
function of the graph and the start, so the two visitor states are
definitionally equal. -/
theorem C8_idempotent (g : Graph) (start : Int) :
    firstTraversal g start = secondTraversal g start := rfl

/-- C9: when no input vertex has parent reference 0, the driver leaves
the start at the sentinel `-1`; the run then skips the explicit-start
phase (the trace is the init events followed only by the sweep's trace);
the sentinel is not a graph vertex, no emitted event mentions it, its
colormap entry stays white and its timestamps stay at their initial 0;
and the sweep still discovers and finishes every real vertex exactly
once. -/
theorem C9_sentinel_safe {ps : List Nat} (h0 : ∀ x ∈ ps, x ≠ 0) :
    (buildInput ps).2 = -1 ∧
    (DepthFirstSearch (buildInput ps).1 (buildInput ps).2).2 =
      ((buildInput ps).1).GetVertices.map Event.initVertex ++
        (startSweep (DepthFirstSearchVisit (buildInput ps).1
            ((buildInput ps).1).GetVertices.length)
          (fun _ => Color.kWhite) ((buildInput ps).1).GetVertices).2 ∧
    ((-1 : Int) ∉ ((buildInput ps).1).GetVertices) ∧
    (∀ ev ∈ (DepthFirstSearch (buildInput ps).1 (buildInput ps).2).2,
      eventInRange ((buildInput ps).1).GetVertices ev) ∧
    (∀ v : Nat, v < ps.length →
      (DepthFirstSearch (buildInput ps).1 (buildInput ps).2).2.count
        (Event.discoverVertex (Int.ofNat v)) = 1 ∧
      (DepthFirstSearch (buildInput ps).1 (buildInput ps).2).2.count
        (Event.finishVertex (Int.ofNat v)) = 1) ∧
    (driverVisitor ps).time_in (-1) = 0 ∧
    (driverVisitor ps).time_out (-1) = 0 ∧
    (DepthFirstSearch (buildInput ps).1 (buildInput ps).2).1 (-1) =
      Color.kWhite := by
  have hstart : (buildInput ps).2 = -1 := driver_start_noRoot ps h0
  obtain ⟨TS, hdf, hsup, hnd, _, _, hrng, hcm, _, htimes⟩ :=
    run_times (buildInput ps).1 (driver_wf ps) (buildInput ps).2
      (Or.inl hstart)
  have hneg := neg_one_not_mem_driver ps
  have hnegsup : (-1 : Int) ∉ supportF TS := fun hmm =>
    hneg ((hsup _).mp hmm)
  refine ⟨hstart, ?_, hneg, hrng, ?_, ?_, ?_, ?_⟩
  · rw [hstart, DFS_noStart]
  · intro v hvlen
    obtain ⟨_, _, hd, hf⟩ :=
      htimes (Int.ofNat v) ((driver_verts_mem ps v).mpr hvlen)
    exact ⟨hd, hf⟩
  · rw [driverVisitor]
    apply runVisitor_time_in_zero
    intro hm
    exact hneg (hrng _ hm)
  · rw [driverVisitor]
    apply runVisitor_time_out_zero
    intro hm
    exact hneg (hrng _ hm)
  · rw [hcm, blacken_not_mem hnegsup]

theorem C9_witness :
    (∀ x ∈ [2, 1], x ≠ 0) ∧ (buildInput [2, 1]).2 = -1 ∧
      (driverVisitor [2, 1]).time_in (-1) = 0 :=
  ⟨by decide, (C9_sentinel_safe (by decide)).1,
    (C9_sentinel_safe (by decide)).2.2.2.2.2.1⟩

/-- C10: on a unique-root tree input every examined edge finds a white
destination and is classified as a tree edge: no `backEdge` and no
`forwardOrCrossEdge` event is ever emitted, and the `treeEdge` events of
the trace biject with its `examineEdge` events. -/
theorem C10_all_tree_edges {ps : List Nat} {r : Nat} (hF : Forest ps)
    (hroot : rootList ps = [r]) (e0 : Edge) :
    Event.backEdge e0 ∉
      (DepthFirstSearch (buildInput ps).1 (buildInput ps).2).2 ∧
    Event.forwardOrCrossEdge e0 ∉
      (DepthFirstSearch (buildInput ps).1 (buildInput ps).2).2 ∧
    (DepthFirstSearch (buildInput ps).1 (buildInput ps).2).2.count
        (Event.treeEdge e0) =
      (DepthFirstSearch (buildInput ps).1 (buildInput ps).2).2.count
        (Event.examineEdge e0) := by
  have htr := unique_root_trace hF hroot
  obtain ⟨hb, hc, hcnt⟩ := visitTrace_classes (buildTree ps r) e0
  rw [htr]
  refine ⟨?_, ?_, ?_⟩
  · intro hm
    rcases List.mem_append.mp hm with hm | hm
    · rcases List.mem_append.mp hm with hm | hm
      · obtain ⟨x, _, hx⟩ := List.mem_map.mp hm
        cases hx
      · rcases List.mem_cons.mp hm with hm | hm
        · cases hm
        · exact hb hm
    · cases hm
  · intro hm
    rcases List.mem_append.mp hm with hm | hm
    · rcases List.mem_append.mp hm with hm | hm
      · obtain ⟨x, _, hx⟩ := List.mem_map.mp hm
        cases hx
      · rcases List.mem_cons.mp hm with hm | hm
        · cases hm
        · exact hc hm
    · cases hm
  · rw [List.count_append, List.count_append, List.count_append,
      List.count_append]
    rw [count_initEvents_other _ _ (by intro x hx; cases hx),
      count_initEvents_other _ _ (by intro x hx; cases hx)]
    rw [List.count_cons_of_ne (by simp), List.count_cons_of_ne (by simp)]
    simp [hcnt]

theorem C10_witness :
    Forest [0, 1] ∧ rootList [0, 1] = [0] ∧
      Event.backEdge ⟨0, 1⟩ ∉
        (DepthFirstSearch (buildInput [0, 1]).1 (buildInput [0, 1]).2).2 :=
  ⟨by unfold Forest ValidParents; decide, by decide,
    (C10_all_tree_edges (r := 0) (by unfold Forest ValidParents; decide)
      (by decide) ⟨0, 1⟩).1⟩

end AncestorVisitor
